import Mathlib

/-!
# ISHA digest engine and PBKDF1 key derivation

A shallow embedding of `CodeOptimization/source/isha.c`,
`CodeOptimization/source/pbkdf1.c`, `CodeOptimization/source/pc_profiler.c` and
`CodeOptimization/source/static_profiler.c`, followed by the ring buffer of
`CommandProcessor/assignment-6-Suhas-Reddy-S-main/source/cbfifo.c`, the functions
`bubbleSort` and `compute_avg` of `WaveformGenerator/source/adc.c` and the function
`stringToUint` of `CommandProcessor/assignment-6-Suhas-Reddy-S-main/source/command_processor.c`.

Conventions of the embedding.

* A `uint32_t` is a `Nat` and every place where the C arithmetic can wrap
  carries an explicit `% 2 ^ 32`; a `uint8_t` is a `Nat` below `256`.
* Memory reached through a pointer (`message_array`, `digest_out`, `dk`) is the
  list of the bytes that start at the pointer.  The target is a little-endian
  ARM Cortex-M0+, so a `uint32_t` access through a cast byte pointer reads and
  writes the least significant byte first (`load32`, `store32`).
* A pointer that may be `NULL` is an `Option`.
* `while`/`for` loops are recursive functions on a fuel argument; the fuel that
  the caller passes is shown to be enough where it matters.
* Global variables are the fields of a state that the functions take and return.  The
  lines between `#ifdef DEBUG` and `#endif` are left out of `ISHAInput`, `ISHAResult`,
  `ISHAPadMessage` and `ISHAProcessMessageBlock`; the definitions with the suffix `_DEBUG`
  are the same functions with these lines.
* A write into a list at an index outside it leaves the list as it is.  The definitions
  with the suffix `_checked` are `ISHAInput` and `ISHAPadMessage` once more, with every
  write into the block failing when its index is outside `[0, 64)`.
-/

namespace ISHA

/-! ## Data model -/

/-- Five 32-bit words: the array `MD[5]` of the context, and the working
registers `A, B, C, D, E` of the compression loop. -/
structure Words5 where
  v0 : Nat
  v1 : Nat
  v2 : Nat
  v3 : Nat
  v4 : Nat
deriving DecidableEq

/-- Modelled from the spec: the type `ISHAContext` is declared in `isha.h`, which is not
among the sources.  The spec: a 64-byte staging block, the index of its next free byte,
five 32-bit state words, two 32-bit halves of a 64-bit bit count, and the flags
`computed` and `corrupted`.  The field names are the ones `isha.c` uses.  `MB_Idx` is
assigned to `int` variables in `isha.c` and only ever holds an index into `MBlock`; the
two flags are used as truth values only. -/
structure ISHAContext where
  MD : Words5
  Length_Low : Nat
  Length_High : Nat
  MB_Idx : Nat
  MBlock : List Nat
  Computed : Bool
  Corrupted : Bool
deriving DecidableEq

/-! ## Word and memory helpers -/

/-- The macro `ISHACircularShift(bits, word)`:
`((((word) << (bits)) & 0xFFFFFFFF) | ((word) >> (32-(bits))))`. -/
def ISHACircularShift (bits word : Nat) : Nat :=
  ((word <<< bits) &&& 0xFFFFFFFF) ||| (word >>> (32 - bits))

/-- The compiler builtin `__builtin_bswap32`: the four bytes of a 32-bit word in
reverse order. -/
def bswap32 (x : Nat) : Nat :=
  (x % 256) * 16777216 + (x / 256 % 256) * 65536 + (x / 65536 % 256) * 256
    + (x / 16777216 % 256)

/-- Read of a `uint32_t` through a byte pointer, `*(uint32_t *)(mem + off)`, on the
little-endian target. -/
def load32 (mem : List Nat) (off : Nat) : Nat :=
  mem.getD off 0 + 256 * mem.getD (off + 1) 0 + 65536 * mem.getD (off + 2) 0
    + 16777216 * mem.getD (off + 3) 0

/-- Write of a `uint32_t` through a byte pointer, `*(uint32_t *)(mem + off) = v`, on
the little-endian target. -/
def store32 (mem : List Nat) (off v : Nat) : List Nat :=
  (((mem.set off (v % 256)).set (off + 1) (v / 256 % 256)).set (off + 2)
    (v / 65536 % 256)).set (off + 3) (v / 16777216 % 256)

/-! ## `ISHAProcessMessageBlock` -/

/-- One pass of the body of `for (t = 0; t < 16; t++)` in
`ISHAProcessMessageBlock`, on the registers `A, B, C, D, E`. -/
def ISHAProcessMessageBlock_round (MBlock : List Nat) (t : Nat) (r : Words5) : Words5 :=
  let W := bswap32 (load32 MBlock (4 * t))
  let temp := (ISHACircularShift 5 r.v0
    + ((r.v1 &&& r.v2) ||| ((r.v1 ^^^ 0xFFFFFFFF) &&& r.v3)) + r.v4 + W) % 2 ^ 32
  let E := ISHACircularShift 25 r.v3
  let D := ISHACircularShift 15 r.v2
  let C := ISHACircularShift 30 r.v1
  let B := ISHACircularShift 10 r.v0
  let A := ISHACircularShift 5 temp
  ⟨A, B, C, D, E⟩

/-- The loop `for (t = 0; t < 16; t++)` of `ISHAProcessMessageBlock`, entered with
loop variable `t`. -/
def ISHAProcessMessageBlock_loop (MBlock : List Nat) : Nat → Nat → Words5 → Words5
  | 0, _, r => r
  | fuel + 1, t, r =>
    if t < 16 then
      ISHAProcessMessageBlock_loop MBlock fuel (t + 1) (ISHAProcessMessageBlock_round MBlock t r)
    else r

/-- The function `ISHAProcessMessageBlock`. -/
def ISHAProcessMessageBlock (ctx : ISHAContext) : ISHAContext :=
  let r := ISHAProcessMessageBlock_loop ctx.MBlock 16 0 ctx.MD
  { ctx with
    MD := ⟨(ctx.MD.v0 + r.v0) % 2 ^ 32, (ctx.MD.v1 + r.v1) % 2 ^ 32,
           (ctx.MD.v2 + r.v2) % 2 ^ 32, (ctx.MD.v3 + r.v3) % 2 ^ 32,
           (ctx.MD.v4 + r.v4) % 2 ^ 32⟩
    MB_Idx := 0 }

/-! ## `ISHAPadMessage` -/

/-- The loops `while (ctx->MB_Idx < limit) ctx->MBlock[ctx->MB_Idx++] = 0;` of
`ISHAPadMessage`. -/
def ISHAPadMessage_zeros (limit : Nat) : Nat → ISHAContext → ISHAContext
  | 0, ctx => ctx
  | fuel + 1, ctx =>
    if ctx.MB_Idx < limit then
      ISHAPadMessage_zeros limit fuel
        { ctx with MBlock := ctx.MBlock.set ctx.MB_Idx 0, MB_Idx := ctx.MB_Idx + 1 }
    else ctx

/-- The function `ISHAPadMessage`. -/
def ISHAPadMessage (ctx : ISHAContext) : ISHAContext :=
  let ctx1 := { ctx with MBlock := ctx.MBlock.set ctx.MB_Idx 0x80, MB_Idx := ctx.MB_Idx + 1 }
  let ctx2 :=
    if ctx1.MB_Idx > 55 then ISHAProcessMessageBlock (ISHAPadMessage_zeros 64 64 ctx1)
    else ctx1
  let ctx3 := ISHAPadMessage_zeros 56 56 ctx2
  let ctx4 := { ctx3 with MBlock := store32 ctx3.MBlock 56 (bswap32 ctx3.Length_High) }
  let ctx5 := { ctx4 with MBlock := store32 ctx4.MBlock 60 (bswap32 ctx4.Length_Low) }
  ISHAProcessMessageBlock ctx5

/-! ## `ISHAResult` -/

/-- The function `ISHAResult`: the context after the call and the bytes at
`digest_out` after the call. -/
def ISHAResult (ctx : ISHAContext) (digest_out : List Nat) : ISHAContext × List Nat :=
  if ctx.Corrupted then (ctx, digest_out)
  else
    let ctx1 := if !ctx.Computed then { ISHAPadMessage ctx with Computed := true } else ctx
    let o0 := store32 digest_out 0 (bswap32 ctx1.MD.v0)
    let o1 := store32 o0 4 (bswap32 ctx1.MD.v1)
    let o2 := store32 o1 8 (bswap32 ctx1.MD.v2)
    let o3 := store32 o2 12 (bswap32 ctx1.MD.v3)
    let o4 := store32 o3 16 (bswap32 ctx1.MD.v4)
    (ctx1, o4)

/-! ## `ISHAInput` -/

/-- The copy loop `for (i = 0; i < bytesToCopy; i++) *(mBlockPtr++) = *(message_array++);`
of `ISHAInput`: `src` holds the `bytesToCopy` bytes to copy and `pos` is the offset of
`mBlockPtr` in the block. -/
def ISHAInput_copy : List Nat → Nat → List Nat → List Nat
  | MBlock, _, [] => MBlock
  | MBlock, pos, b :: src => ISHAInput_copy (MBlock.set pos b) (pos + 1) src

/-- One pass of the body of `while (length > 0 && !ctx->Corrupted)` in `ISHAInput`:
the context and the bytes of the message that are still to be read.  `blockRemaining`
is `64 - MB_Idx` for `MB_Idx ≤ 64`, the range in which the C code indexes the block. -/
def ISHAInput_body (ctx : ISHAContext) (message_array : List Nat) :
    ISHAContext × List Nat :=
  let length := message_array.length
  let blockRemaining := 64 - ctx.MB_Idx
  let bytesToCopy := if length < blockRemaining then length else blockRemaining
  let MBlock := ISHAInput_copy ctx.MBlock ctx.MB_Idx (message_array.take bytesToCopy)
  let MB_Idx := ctx.MB_Idx + bytesToCopy
  let low := ((ctx.Length_Low + 8 * bytesToCopy) % 2 ^ 32) &&& 0xFFFFFFFF
  let high :=
    if low < 8 * bytesToCopy then ((ctx.Length_High + 1) % 2 ^ 32) &&& 0xFFFFFFFF
    else ctx.Length_High
  let corrupted :=
    if low < 8 * bytesToCopy then (if high = 0 then true else ctx.Corrupted)
    else ctx.Corrupted
  let ctx1 : ISHAContext :=
    { ctx with MBlock := MBlock, MB_Idx := MB_Idx, Length_Low := low, Length_High := high,
               Corrupted := corrupted }
  let ctx2 := if ctx1.MB_Idx = 64 then ISHAProcessMessageBlock ctx1 else ctx1
  (ctx2, message_array.drop bytesToCopy)

/-- The loop `while (length > 0 && !ctx->Corrupted)` of `ISHAInput`: the context and
the unread bytes when the loop is left, or when the fuel is used up. -/
def ISHAInput_loop : Nat → ISHAContext → List Nat → ISHAContext × List Nat
  | 0, ctx, message_array => (ctx, message_array)
  | fuel + 1, ctx, message_array =>
    if message_array.length > 0 ∧ ctx.Corrupted = false then
      ISHAInput_loop fuel (ISHAInput_body ctx message_array).1
        (ISHAInput_body ctx message_array).2
    else (ctx, message_array)

/-- The function `ISHAInput`; `message_array` holds the `length` bytes of the call.
With `MB_Idx ≤ 64` every pass but possibly the first takes at least one byte, so
`length + 1` passes are enough. -/
def ISHAInput (ctx : ISHAContext) (message_array : List Nat) : ISHAContext :=
  if message_array.length = 0 then ctx
  else if ctx.Computed ∨ ctx.Corrupted then { ctx with Corrupted := true }
  else (ISHAInput_loop (message_array.length + 1) ctx message_array).1

/-! ## `ISHAReset` -/

/-- Modelled from the spec: `ISHAReset` is written in an assembly file that is not
among the sources.  The spec: "zero `blockFill`, `bitLenLow/High`, set `state` to
fixed initial constants, clear `computed`/`corrupted`".  The constants are not
given, so they are the parameter `iv`; the block is left as it is. -/
def ISHAReset (iv : Words5) (ctx : ISHAContext) : ISHAContext :=
  { ctx with MB_Idx := 0, Length_Low := 0, Length_High := 0, MD := iv,
             Computed := false, Corrupted := false }

/-! ## `pbkdf1` -/

/-- Modelled from the spec: the type `error_t` is declared in a header that is not among
the sources.  The spec: the derivation returns one of `NoError`, `InvalidParameter`,
`InvalidLength`; the constructor names are the ones `pbkdf1.c` uses. -/
inductive error_t where
  | NO_ERROR
  | ERROR_INVALID_PARAMETER
  | ERROR_INVALID_LENGTH
deriving DecidableEq

/-- Modelled from the spec: the constant `ISHA_DIGESTLEN` is defined in `isha.h`, which
is not among the sources.  The spec: "`outLen ≤ 20` (digest size)"; twenty bytes are also
what the five word stores of `ISHAResult` write. -/
def ISHA_DIGESTLEN : Nat := 20

/-- A call of a digest primitive made by `pbkdf1`, with the length argument of an
`ISHAInput` call.  The calls are logged so that "no primitive has been called" can be
stated. -/
inductive ISHACall where
  | Reset
  | Input (length : Nat)
  | Result
deriving DecidableEq

/-- What a call of `pbkdf1` leaves: the returned code, the bytes at `dk`, and the digest
primitives it has called, in order. -/
structure pbkdf1_out where
  err : error_t
  dk : Option (List Nat)
  calls : List ISHACall
deriving DecidableEq

/-- The loop `for (i = 1; i < c; i++)` of `pbkdf1`, entered with loop variable `i`; `i` is
a `uint32_t`. -/
def pbkdf1_loop (iv : Words5) (c : Nat) :
    Nat → Nat → ISHAContext → List Nat → List ISHACall →
      ISHAContext × List Nat × List ISHACall
  | 0, _, hashContext, dk, calls => (hashContext, dk, calls)
  | fuel + 1, i, hashContext, dk, calls =>
    if i < c then
      let ctx1 := ISHAReset iv hashContext
      let ctx2 := ISHAInput ctx1 (dk.take ISHA_DIGESTLEN)
      let r := ISHAResult ctx2 dk
      pbkdf1_loop iv c fuel ((i + 1) % 2 ^ 32) r.1 r.2
        (calls ++ [ISHACall.Reset, ISHACall.Input ISHA_DIGESTLEN, ISHACall.Result])
    else (hashContext, dk, calls)

/-- The function `pbkdf1`.  `p` and `s` hold the `pLen` and `sLen` bytes of the password
and of the salt, `dk` the bytes at the output pointer, `none` is `NULL`; `hashContext` is
what the stack holds where the local context is placed, and `iv` the constants of
`ISHAReset`.  The loop runs `c - 1` times, so `c` passes are enough. -/
def pbkdf1 (iv : Words5) (hashContext : ISHAContext) (p s : Option (List Nat)) (c : Nat)
    (dk : Option (List Nat)) (dkLen : Nat) : pbkdf1_out :=
  match p, s, dk with
  | some pBytes, some sBytes, some dkBytes =>
    if c < 1 then ⟨error_t.ERROR_INVALID_PARAMETER, dk, []⟩
    else if dkLen > ISHA_DIGESTLEN then ⟨error_t.ERROR_INVALID_LENGTH, dk, []⟩
    else
      let ctx1 := ISHAReset iv hashContext
      let ctx2 := ISHAInput ctx1 pBytes
      let ctx3 := ISHAInput ctx2 sBytes
      let r := ISHAResult ctx3 dkBytes
      let l := pbkdf1_loop iv c c 1 r.1 r.2
        [ISHACall.Reset, ISHACall.Input pBytes.length, ISHACall.Input sBytes.length,
          ISHACall.Result]
      ⟨error_t.NO_ERROR, some l.2.1, l.2.2⟩
  | _, _, _ => ⟨error_t.ERROR_INVALID_PARAMETER, dk, []⟩

/-! ## Reference key derivation, written from the specification -/

/-- A context with an all-zero block, to hold the digest of the reference. -/
def zeroContext : ISHAContext :=
  { MD := ⟨0, 0, 0, 0, 0⟩, Length_Low := 0, Length_High := 0, MB_Idx := 0,
    MBlock := List.replicate 64 0, Computed := false, Corrupted := false }

/-- `Digest(x)`: reset, absorb `x`, finalize into a twenty-byte buffer. -/
def Digest (iv : Words5) (x : List Nat) : List Nat :=
  (ISHAResult (ISHAInput (ISHAReset iv zeroContext) x) (List.replicate 20 0)).2

/-- The chain `T(0) = Digest(p ++ s)`, `T(i) = Digest(T(i - 1))`. -/
def T (iv : Words5) (p s : List Nat) : Nat → List Nat
  | 0 => Digest iv (p ++ s)
  | i + 1 => Digest iv (T iv p s i)

/-! ## Well-formedness of the machine values -/

/-- Every element of the list is a `uint8_t`. -/
def Bytes (l : List Nat) : Prop := ∀ b ∈ l, b < 256

instance (l : List Nat) : Decidable (Bytes l) := by
  unfold Bytes; infer_instance

/-- Every one of the five words is a `uint32_t`. -/
def Words5.Bounded (r : Words5) : Prop :=
  r.v0 < 2 ^ 32 ∧ r.v1 < 2 ^ 32 ∧ r.v2 < 2 ^ 32 ∧ r.v3 < 2 ^ 32 ∧ r.v4 < 2 ^ 32

instance (r : Words5) : Decidable r.Bounded := by
  unfold Words5.Bounded; infer_instance

/-! ## Reference compression function, written from the specification -/

/-- Left rotation of a 32-bit word by `n` bits, arithmetically: the low `32 - n` bits
move up by `n` places and the high `n` bits come back in at the bottom. -/
def rotl32 (n w : Nat) : Nat := (w * 2 ^ n) % 2 ^ 32 + w / 2 ^ (32 - n)

/-- The `t`-th big-endian 32-bit word `W[t]` of a block. -/
def beWord (block : List Nat) (t : Nat) : Nat :=
  block.getD (4 * t) 0 * 2 ^ 24 + block.getD (4 * t + 1) 0 * 2 ^ 16
    + block.getD (4 * t + 2) 0 * 2 ^ 8 + block.getD (4 * t + 3) 0

/-- One round of the reference: `temp = rotl5(A) + ((B & C) | (~B & D)) + E + W`
modulo `2 ^ 32`, then `(A,B,C,D,E) := (rotl5(temp), rotl10(A), rotl30(B), rotl15(C),
rotl25(D))`. -/
def refRound (r : Words5) (W : Nat) : Words5 :=
  let temp := (rotl32 5 r.v0 + ((r.v1 &&& r.v2) ||| ((4294967295 - r.v1) &&& r.v3))
    + r.v4 + W) % 2 ^ 32
  ⟨rotl32 5 temp, rotl32 10 r.v0, rotl32 30 r.v1, rotl32 15 r.v2, rotl32 25 r.v3⟩

/-- Element-wise sum of two five-word vectors modulo `2 ^ 32`. -/
def addWords (s r : Words5) : Words5 :=
  ⟨(s.v0 + r.v0) % 2 ^ 32, (s.v1 + r.v1) % 2 ^ 32, (s.v2 + r.v2) % 2 ^ 32,
   (s.v3 + r.v3) % 2 ^ 32, (s.v4 + r.v4) % 2 ^ 32⟩

/-- The reference compression: sixteen rounds over `W[0..15]` starting from the state,
then the state plus the working words. -/
def refCompress (state : Words5) (block : List Nat) : Words5 :=
  addWords state (((List.range 16).map (beWord block)).foldl refRound state)

/-! ## Reference digest, written from the specification -/

/-- Big-endian bytes of a 32-bit word, most significant byte first. -/
def BE32 (w : Nat) : List Nat :=
  [w / 2 ^ 24 % 256, w / 2 ^ 16 % 256, w / 2 ^ 8 % 256, w % 256]

/-- Big-endian bytes of a 64-bit value, most significant byte first. -/
def BE64 (n : Nat) : List Nat :=
  [n / 2 ^ 56 % 256, n / 2 ^ 48 % 256, n / 2 ^ 40 % 256, n / 2 ^ 32 % 256,
   n / 2 ^ 24 % 256, n / 2 ^ 16 % 256, n / 2 ^ 8 % 256, n % 256]

/-- Number of zero bytes of the padding of a message of `L` bytes: with `r = L mod 64`,
`55 - r` if `r ≤ 54` and `119 - r` if `r ≥ 55`. -/
def padZeros (L : Nat) : Nat := if L % 64 ≤ 54 then 55 - L % 64 else 119 - L % 64

/-- The padded message of a stream that had absorbed `n` bits before `m`: `m`, the byte
`0x80`, the zero bytes, and the bit length `n + 8 * |m|` as two big-endian 32-bit words,
high half first. -/
def paddedFrom (n : Nat) (m : List Nat) : List Nat :=
  m ++ [0x80] ++ List.replicate (padZeros m.length) 0
    ++ BE32 ((n + 8 * m.length) / 2 ^ 32) ++ BE32 ((n + 8 * m.length) % 2 ^ 32)

/-- The padded message `P` of a message `m` of `L` bytes:
`m ++ [0x80] ++ z zero bytes ++ BE32(high half of 8 * L) ++ BE32(low half of 8 * L)`. -/
def padded (m : List Nat) : List Nat :=
  m ++ [0x80] ++ List.replicate (padZeros m.length) 0
    ++ BE32 (8 * m.length / 2 ^ 32) ++ BE32 (8 * m.length % 2 ^ 32)

/-- The first `k` consecutive 64-byte blocks of a byte string. -/
def blocks64 : Nat → List Nat → List (List Nat)
  | 0, _ => []
  | k + 1, l => l.take 64 :: blocks64 k (l.drop 64)

/-- The compression function as a function of the state words and of the block: the
state words that `ISHAProcessMessageBlock` leaves. -/
def compress (state : Words5) (block : List Nat) : Words5 :=
  (ISHAProcessMessageBlock
    { MD := state, Length_Low := 0, Length_High := 0, MB_Idx := 0, MBlock := block,
      Computed := false, Corrupted := false }).MD

/-- Big-endian serialisation of the five state words, twenty bytes. -/
def serialize (state : Words5) : List Nat :=
  BE32 state.v0 ++ BE32 state.v1 ++ BE32 state.v2 ++ BE32 state.v3 ++ BE32 state.v4

/-- The reference digest of `m` from the state words `state`: the compression function
folded over the consecutive 64-byte blocks of the padded message, serialised. -/
def refDigest (state : Words5) (m : List Nat) : List Nat :=
  serialize ((blocks64 ((padded m).length / 64) (padded m)).foldl compress state)

/-! ## Invariant of a context that is absorbing a message -/

/-- The block index is in range and agrees with the bit counter: the low half of the
counter is a 32-bit value that is `8 * MB_Idx` modulo `512`. -/
def Aligned (ctx : ISHAContext) : Prop :=
  ctx.MB_Idx < 64 ∧ ctx.Length_Low < 2 ^ 32 ∧ ctx.Length_Low % 512 = 8 * ctx.MB_Idx

instance (ctx : ISHAContext) : Decidable (Aligned ctx) := by
  unfold Aligned; infer_instance

/-- The context in which the block has just been completed by the first
`64 - MB_Idx` bytes of the message, before it is compressed. -/
def fullBlock (ctx : ISHAContext) (msg : List Nat) : ISHAContext :=
  { ctx with
    MBlock := ISHAInput_copy ctx.MBlock ctx.MB_Idx (msg.take (64 - ctx.MB_Idx)),
    MB_Idx := 64,
    Length_Low := (ctx.Length_Low + 8 * (64 - ctx.MB_Idx)) % 2 ^ 32,
    Length_High :=
      if ctx.Length_Low + 8 * (64 - ctx.MB_Idx) = 2 ^ 32
      then (ctx.Length_High + 1) % 2 ^ 32 else ctx.Length_High,
    Corrupted :=
      if ctx.Length_Low + 8 * (64 - ctx.MB_Idx) = 2 ^ 32
      then (if (ctx.Length_High + 1) % 2 ^ 32 = 0 then true else ctx.Corrupted)
      else ctx.Corrupted }

/-- The second half of `ISHAPadMessage`, from the zero fill up to index 56 to the last
compression. -/
def padFinish (ctx2 : ISHAContext) : ISHAContext :=
  let ctx3 := ISHAPadMessage_zeros 56 56 ctx2
  let ctx4 := { ctx3 with MBlock := store32 ctx3.MBlock 56 (bswap32 ctx3.Length_High) }
  let ctx5 := { ctx4 with MBlock := store32 ctx4.MBlock 60 (bswap32 ctx4.Length_Low) }
  ISHAProcessMessageBlock ctx5

/-- A sample choice of the constants of `ISHAReset`, the initial words of SHA-1, on
which ISHA is based.  It serves to evaluate the code on concrete inputs only. -/
def sampleIV : Words5 := ⟨0x67452301, 0xEFCDAB89, 0x98BADCFE, 0x10325476, 0xC3D2E1F0⟩

/-! ## The 64-bit bit counter -/

/-- The value of the 64-bit bit counter whose halves are `Length_High` and
`Length_Low`. -/
def bitCount (ctx : ISHAContext) : Nat := ctx.Length_High * 2 ^ 32 + ctx.Length_Low

/-- The least number of bytes `w` with `2 ^ 64 ≤ N + 8 * w`, for a counter value
`N < 2 ^ 64`. -/
def wrapBytes (N : Nat) : Nat := (2 ^ 64 - N + 7) / 8

/-- The number of bytes of an input of `n` bytes up to the end of the chunk in which the
counter wraps: the chunks end where the block is full, so this is `wrapBytes N` rounded up
to the next block end from index `idx`, or `n` when the input ends first. -/
def wrapEnd (idx N n : Nat) : Nat :=
  min n (wrapBytes N + (64 - (idx + wrapBytes N) % 64) % 64)

/-! ## `GetFunctionAddress` and the PC profiler -/

/-- The function `cmp_bin` of `isha.c`: the first `len` bytes of two byte strings are
equal.  A string is the list of its characters; a read at the end of a string gives its
terminating zero byte. -/
def cmp_bin (b1 b2 : List Char) : Nat → Nat → Bool
  | 0, _ => true
  | fuel + 1, i =>
    if b1.getD i (Char.ofNat 0) ≠ b2.getD i (Char.ofNat 0) then false
    else cmp_bin b1 b2 fuel (i + 1)

/-- The addresses that `GetFunctionAddress` reads: the addresses of the five functions,
fixed when the program is linked, and the global variables `ISHA...End` in which each
function records the program counter before it returns. -/
structure FunctionAddresses where
  ISHAProcessMessageBlock : Nat
  ISHAPadMessage : Nat
  ISHAReset : Nat
  ISHAResult : Nat
  ISHAInput : Nat
  ISHAProcessMessageBlockEnd : Nat
  ISHAPadMessageEnd : Nat
  ISHAResetEnd : Nat
  ISHAResultEnd : Nat
  ISHAInputEnd : Nat
deriving DecidableEq

/-- The function `GetFunctionAddress`: the values of `*start` and `*end` after the call,
from their values before it. -/
def GetFunctionAddress (fa : FunctionAddresses) (func_name : List Char) (start end_ : Nat) :
    Nat × Nat :=
  let r : Nat × Nat :=
    if cmp_bin func_name "ISHAProcessMessageBlock".toList 23 0 then
      (fa.ISHAProcessMessageBlock, fa.ISHAProcessMessageBlockEnd)
    else if cmp_bin func_name "ISHAPadMessage".toList 14 0 then
      (fa.ISHAPadMessage, fa.ISHAPadMessageEnd)
    else if cmp_bin func_name "ISHAReset".toList 9 0 then
      (fa.ISHAReset, fa.ISHAResetEnd)
    else if cmp_bin func_name "ISHAResult".toList 10 0 then
      (fa.ISHAResult, fa.ISHAResultEnd)
    else if cmp_bin func_name "ISHAInput".toList 9 0 then
      (fa.ISHAInput, fa.ISHAInputEnd)
    else (start, end_)
  (r.1, (r.2 + 20) % 2 ^ 32)

/-- The global variables of `pc_profiler.c`; `end_` is the variable `end`. -/
structure PCProfiler where
  PC_ISHAProcessMessageBlockCount : Nat
  PC_ISHAPadMessageCount : Nat
  PC_ISHAResetCount : Nat
  PC_ISHAInputCount : Nat
  PC_ISHAResultCount : Nat
  start : Nat
  end_ : Nat
  pc_profiling_on : Bool
  add : Nat
deriving DecidableEq

/-- The function `pc_profile_check`; `pc` holds the words of the interrupt frame that
start at the pointer, at least nine of them, and word 8 is the saved program counter. -/
def pc_profile_check (fa : FunctionAddresses) (g : PCProfiler) (pc : List Nat) : PCProfiler :=
  if !g.pc_profiling_on then g
  else
    let g0 := { g with add := pc.getD 8 0 }
    let r1 := GetFunctionAddress fa "ISHAProcessMessageBlock".toList g0.start g0.end_
    let g1 := { g0 with start := r1.1, end_ := r1.2 }
    if g1.add ≥ g1.start ∧ g1.add ≤ g1.end_ then
      { g1 with PC_ISHAProcessMessageBlockCount :=
          (g1.PC_ISHAProcessMessageBlockCount + 1) % 2 ^ 32 }
    else
      let r2 := GetFunctionAddress fa "ISHAPadMessage".toList g1.start g1.end_
      let g2 := { g1 with start := r2.1, end_ := r2.2 }
      if g2.add ≥ g2.start ∧ g2.add ≤ g2.end_ then
        { g2 with PC_ISHAPadMessageCount := (g2.PC_ISHAPadMessageCount + 1) % 2 ^ 32 }
      else
        let r3 := GetFunctionAddress fa "ISHAReset".toList g2.start g2.end_
        let g3 := { g2 with start := r3.1, end_ := r3.2 }
        if g3.add ≥ g3.start ∧ g3.add ≤ g3.end_ then
          { g3 with PC_ISHAResetCount := (g3.PC_ISHAResetCount + 1) % 2 ^ 32 }
        else
          let r4 := GetFunctionAddress fa "ISHAInput".toList g3.start g3.end_
          let g4 := { g3 with start := r4.1, end_ := r4.2 }
          if g4.add ≥ g4.start ∧ g4.add ≤ g4.end_ then
            { g4 with PC_ISHAInputCount := (g4.PC_ISHAInputCount + 1) % 2 ^ 32 }
          else
            let r5 := GetFunctionAddress fa "ISHAResult".toList g4.start g4.end_
            let g5 := { g4 with start := r5.1, end_ := r5.2 }
            if g5.add ≥ g5.start ∧ g5.add ≤ g5.end_ then
              { g5 with PC_ISHAResultCount := (g5.PC_ISHAResultCount + 1) % 2 ^ 32 }
            else g5

/-- The function `pc_profile_on`. -/
def pc_profile_on (g : PCProfiler) : PCProfiler := { g with pc_profiling_on := true }

/-- The function `pc_profile_off`. -/
def pc_profile_off (g : PCProfiler) : PCProfiler := { g with pc_profiling_on := false }

/-- The five primitives that the sampler tells apart. -/
inductive Primitive where
  | ProcessMessageBlock
  | PadMessage
  | Reset
  | Input
  | Result
deriving DecidableEq

/-- The order in which `pc_profile_check` queries the primitives. -/
def scanOrder : List Primitive :=
  [Primitive.ProcessMessageBlock, Primitive.PadMessage, Primitive.Reset, Primitive.Input,
   Primitive.Result]

/-- The position of a primitive in the scan order. -/
def rank : Primitive → Nat
  | Primitive.ProcessMessageBlock => 0
  | Primitive.PadMessage => 1
  | Primitive.Reset => 2
  | Primitive.Input => 3
  | Primitive.Result => 4

/-- The registered interval `(start, end)` of a primitive: the address of the function and
the recorded end marker plus the slack of twenty bytes, as a 32-bit value. -/
def interval (fa : FunctionAddresses) : Primitive → Nat × Nat
  | Primitive.ProcessMessageBlock =>
    (fa.ISHAProcessMessageBlock, (fa.ISHAProcessMessageBlockEnd + 20) % 2 ^ 32)
  | Primitive.PadMessage => (fa.ISHAPadMessage, (fa.ISHAPadMessageEnd + 20) % 2 ^ 32)
  | Primitive.Reset => (fa.ISHAReset, (fa.ISHAResetEnd + 20) % 2 ^ 32)
  | Primitive.Input => (fa.ISHAInput, (fa.ISHAInputEnd + 20) % 2 ^ 32)
  | Primitive.Result => (fa.ISHAResult, (fa.ISHAResultEnd + 20) % 2 ^ 32)

/-- The address `a` lies inside the registered interval of the primitive. -/
def inInterval (fa : FunctionAddresses) (a : Nat) (X : Primitive) : Prop :=
  (interval fa X).1 ≤ a ∧ a ≤ (interval fa X).2

instance (fa : FunctionAddresses) (a : Nat) (X : Primitive) : Decidable (inInterval fa a X) := by
  unfold inInterval; infer_instance

/-- The first primitive in the scan order whose registered interval contains `a`. -/
def firstMatch (fa : FunctionAddresses) (a : Nat) : Option Primitive :=
  scanOrder.find? (fun X => decide (inInterval fa a X))

/-- The sampled counter of a primitive. -/
def sampled (g : PCProfiler) : Primitive → Nat
  | Primitive.ProcessMessageBlock => g.PC_ISHAProcessMessageBlockCount
  | Primitive.PadMessage => g.PC_ISHAPadMessageCount
  | Primitive.Reset => g.PC_ISHAResetCount
  | Primitive.Input => g.PC_ISHAInputCount
  | Primitive.Result => g.PC_ISHAResultCount

/-! ## The static profiler and the primitives compiled with `DEBUG` -/

/-- The global variables of `static_profiler.c`. -/
structure StaticProfiler where
  ISHAProcessMessageBlockCount : Nat
  ISHAPadMessageCount : Nat
  ISHAResetCount : Nat
  ISHAInputCount : Nat
  ISHAResultCount : Nat
  static_profiling_on : Bool
deriving DecidableEq

/-- The function `static_profile_on`. -/
def static_profile_on (g : StaticProfiler) : StaticProfiler :=
  { g with static_profiling_on := true }

/-- The function `static_profile_off`; its body is `static_profiling_on = true;`. -/
def static_profile_off (g : StaticProfiler) : StaticProfiler :=
  { g with static_profiling_on := true }

/-- Modelled from the spec: the macro `INCREMENT_STATIC_COUNT(counter, flag)` is defined
in `static_profiler.h`, which is not among the sources.  The spec: "each DigestEngine
primitive, when its enable flag is true, unconditionally increments its own named counter
on entry".  The counters are `uint32_t`.  This is the value of the counter after the
macro. -/
def INCREMENT_STATIC_COUNT (counter : Nat) (flag : Bool) : Nat :=
  if flag then (counter + 1) % 2 ^ 32 else counter

/-- The function `ISHAProcessMessageBlock` compiled with `DEBUG`: the macro, then the
body. -/
def ISHAProcessMessageBlock_DEBUG (g : StaticProfiler) (ctx : ISHAContext) :
    StaticProfiler × ISHAContext :=
  let g1 := { g with ISHAProcessMessageBlockCount :=
    INCREMENT_STATIC_COUNT g.ISHAProcessMessageBlockCount g.static_profiling_on }
  (g1, ISHAProcessMessageBlock ctx)

/-- The function `ISHAPadMessage` compiled with `DEBUG`. -/
def ISHAPadMessage_DEBUG (g : StaticProfiler) (ctx : ISHAContext) :
    StaticProfiler × ISHAContext :=
  let g1 := { g with ISHAPadMessageCount :=
    INCREMENT_STATIC_COUNT g.ISHAPadMessageCount g.static_profiling_on }
  let ctx1 := { ctx with MBlock := ctx.MBlock.set ctx.MB_Idx 0x80, MB_Idx := ctx.MB_Idx + 1 }
  let r2 :=
    if ctx1.MB_Idx > 55 then ISHAProcessMessageBlock_DEBUG g1 (ISHAPadMessage_zeros 64 64 ctx1)
    else (g1, ctx1)
  let ctx3 := ISHAPadMessage_zeros 56 56 r2.2
  let ctx4 := { ctx3 with MBlock := store32 ctx3.MBlock 56 (bswap32 ctx3.Length_High) }
  let ctx5 := { ctx4 with MBlock := store32 ctx4.MBlock 60 (bswap32 ctx4.Length_Low) }
  ISHAProcessMessageBlock_DEBUG r2.1 ctx5

/-- The function `ISHAResult` compiled with `DEBUG`. -/
def ISHAResult_DEBUG (g : StaticProfiler) (ctx : ISHAContext) (digest_out : List Nat) :
    StaticProfiler × ISHAContext × List Nat :=
  let g1 := { g with ISHAResultCount :=
    INCREMENT_STATIC_COUNT g.ISHAResultCount g.static_profiling_on }
  if ctx.Corrupted then (g1, ctx, digest_out)
  else
    let r1 :=
      if !ctx.Computed then
        ((ISHAPadMessage_DEBUG g1 ctx).1, { (ISHAPadMessage_DEBUG g1 ctx).2 with Computed := true })
      else (g1, ctx)
    let o0 := store32 digest_out 0 (bswap32 r1.2.MD.v0)
    let o1 := store32 o0 4 (bswap32 r1.2.MD.v1)
    let o2 := store32 o1 8 (bswap32 r1.2.MD.v2)
    let o3 := store32 o2 12 (bswap32 r1.2.MD.v3)
    let o4 := store32 o3 16 (bswap32 r1.2.MD.v4)
    (r1.1, r1.2, o4)

/-- One pass of the body of the loop of `ISHAInput` compiled with `DEBUG`. -/
def ISHAInput_body_DEBUG (g : StaticProfiler) (ctx : ISHAContext) (message_array : List Nat) :
    StaticProfiler × ISHAContext × List Nat :=
  let length := message_array.length
  let blockRemaining := 64 - ctx.MB_Idx
  let bytesToCopy := if length < blockRemaining then length else blockRemaining
  let MBlock := ISHAInput_copy ctx.MBlock ctx.MB_Idx (message_array.take bytesToCopy)
  let MB_Idx := ctx.MB_Idx + bytesToCopy
  let low := ((ctx.Length_Low + 8 * bytesToCopy) % 2 ^ 32) &&& 0xFFFFFFFF
  let high :=
    if low < 8 * bytesToCopy then ((ctx.Length_High + 1) % 2 ^ 32) &&& 0xFFFFFFFF
    else ctx.Length_High
  let corrupted :=
    if low < 8 * bytesToCopy then (if high = 0 then true else ctx.Corrupted)
    else ctx.Corrupted
  let ctx1 : ISHAContext :=
    { ctx with MBlock := MBlock, MB_Idx := MB_Idx, Length_Low := low, Length_High := high,
               Corrupted := corrupted }
  let r2 := if ctx1.MB_Idx = 64 then ISHAProcessMessageBlock_DEBUG g ctx1 else (g, ctx1)
  (r2.1, r2.2, message_array.drop bytesToCopy)

/-- The loop of `ISHAInput` compiled with `DEBUG`. -/
def ISHAInput_loop_DEBUG :
    Nat → StaticProfiler → ISHAContext → List Nat → StaticProfiler × ISHAContext × List Nat
  | 0, g, ctx, message_array => (g, ctx, message_array)
  | fuel + 1, g, ctx, message_array =>
    if message_array.length > 0 ∧ ctx.Corrupted = false then
      ISHAInput_loop_DEBUG fuel (ISHAInput_body_DEBUG g ctx message_array).1
        (ISHAInput_body_DEBUG g ctx message_array).2.1
        (ISHAInput_body_DEBUG g ctx message_array).2.2
    else (g, ctx, message_array)

/-- The function `ISHAInput` compiled with `DEBUG`. -/
def ISHAInput_DEBUG (g : StaticProfiler) (ctx : ISHAContext) (message_array : List Nat) :
    StaticProfiler × ISHAContext :=
  let g1 := { g with ISHAInputCount :=
    INCREMENT_STATIC_COUNT g.ISHAInputCount g.static_profiling_on }
  if message_array.length = 0 then (g1, ctx)
  else if ctx.Computed ∨ ctx.Corrupted then (g1, { ctx with Corrupted := true })
  else
    ((ISHAInput_loop_DEBUG (message_array.length + 1) g1 ctx message_array).1,
     (ISHAInput_loop_DEBUG (message_array.length + 1) g1 ctx message_array).2.1)

/-- Only the counters of `ISHAProcessMessageBlock` and `ISHAPadMessage` may differ between
the two states of the static profiler. -/
def SameOuter (g g1 : StaticProfiler) : Prop :=
  g1.ISHAResetCount = g.ISHAResetCount ∧ g1.ISHAInputCount = g.ISHAInputCount
  ∧ g1.ISHAResultCount = g.ISHAResultCount ∧ g1.static_profiling_on = g.static_profiling_on

/-- The context in the loop of `ISHAInput` after the copy and the update of the counter,
before the test `ctx->MB_Idx == 64`. -/
def ISHAInput_chunk (ctx : ISHAContext) (message_array : List Nat) : ISHAContext :=
  let length := message_array.length
  let blockRemaining := 64 - ctx.MB_Idx
  let bytesToCopy := if length < blockRemaining then length else blockRemaining
  let MBlock := ISHAInput_copy ctx.MBlock ctx.MB_Idx (message_array.take bytesToCopy)
  let MB_Idx := ctx.MB_Idx + bytesToCopy
  let low := ((ctx.Length_Low + 8 * bytesToCopy) % 2 ^ 32) &&& 0xFFFFFFFF
  let high :=
    if low < 8 * bytesToCopy then ((ctx.Length_High + 1) % 2 ^ 32) &&& 0xFFFFFFFF
    else ctx.Length_High
  let corrupted :=
    if low < 8 * bytesToCopy then (if high = 0 then true else ctx.Corrupted)
    else ctx.Corrupted
  { ctx with MBlock := MBlock, MB_Idx := MB_Idx, Length_Low := low, Length_High := high,
             Corrupted := corrupted }

/-! ## Sample states for the evaluation of the profilers -/

/-- Sample addresses in which the slack of twenty bytes after the end marker of
`ISHAProcessMessageBlock` reaches into `ISHAPadMessage`, the function that follows it in
`isha.c`. -/
def sampleAddresses : FunctionAddresses :=
  { ISHAProcessMessageBlock := 1000, ISHAProcessMessageBlockEnd := 1100,
    ISHAPadMessage := 1110, ISHAPadMessageEnd := 1300,
    ISHAResult := 1330, ISHAResultEnd := 1400,
    ISHAInput := 1430, ISHAInputEnd := 1600,
    ISHAReset := 1700, ISHAResetEnd := 1760 }

/-- The sampler with all counters at zero and sampling enabled. -/
def samplerOn : PCProfiler :=
  { PC_ISHAProcessMessageBlockCount := 0, PC_ISHAPadMessageCount := 0, PC_ISHAResetCount := 0,
    PC_ISHAInputCount := 0, PC_ISHAResultCount := 0, start := 0, end_ := 0,
    pc_profiling_on := true, add := 0 }

/-- An interrupt frame whose word 8, the saved program counter, is `1115`. -/
def sampleFrame : List Nat := [0, 0, 0, 0, 0, 0, 0, 0, 1115]

/-- The static profiler with all counters at zero and profiling enabled. -/
def countersOn : StaticProfiler :=
  { ISHAProcessMessageBlockCount := 0, ISHAPadMessageCount := 0, ISHAResetCount := 0,
    ISHAInputCount := 0, ISHAResultCount := 0, static_profiling_on := true }

/-! ## The ring buffer of `cbfifo.c` -/

/-- Modelled from the spec: the type `Buffer` is declared in `cbfifo.h`, which is not among
the sources, and the specification treats the ring buffer as an external collaborator
without describing it.  The fields are the ones `cbfifo.c` reads and writes: the byte
array, the index of the oldest byte, the index of the next free byte and the number of
stored bytes. -/
structure Buffer where
  buffer_array : List Nat
  head : Nat
  tail : Nat
  elements : Nat
deriving DecidableEq

/-- The interrupt mask of the processor, the register `PRIMASK`, and the global variable
`masking_state` of `cbfifo.c`. -/
structure IrqState where
  PRIMASK : Nat
  masking_state : Nat
deriving DecidableEq

/-- The function `cbfifo_capacity`; the constant `BUFFER_SIZE` that it returns is defined in
`cbfifo.h`, which is not among the sources, and is a parameter. -/
def cbfifo_capacity (BUFFER_SIZE : Nat) : Nat := BUFFER_SIZE

/-- The function `cbfifo_length`. -/
def cbfifo_length (buffer : Buffer) : Nat := buffer.elements

/-- The function `cbfifo_reset`. -/
def cbfifo_reset (buffer : Buffer) : Buffer :=
  { buffer with head := 0, tail := 0, elements := 0 }

/-- The loop `for (size_t i = 0; i < bytes_to_enqueue; i++)` of `cbfifo_enqueue`, entered
with loop variable `i`; `src` holds the bytes at the source pointer. -/
def cbfifo_enqueue_loop (BUFFER_SIZE : Nat) (src : List Nat) (bytes_to_enqueue : Nat) :
    Nat → Nat → Buffer → Buffer
  | 0, _, buffer => buffer
  | fuel + 1, i, buffer =>
    if i < bytes_to_enqueue then
      let b1 := { buffer with
        buffer_array := buffer.buffer_array.set buffer.tail (src.getD i 0),
        tail := buffer.tail + 1 }
      let b2 := if b1.tail = cbfifo_capacity BUFFER_SIZE then { b1 with tail := 0 } else b1
      let b3 := { b2 with elements := b2.elements + 1 }
      cbfifo_enqueue_loop BUFFER_SIZE src bytes_to_enqueue fuel (i + 1) b3
    else buffer

/-- The function `cbfifo_enqueue`: the interrupt state, the buffer and the returned count.
`buf` holds the bytes at the source pointer, `none` is `NULL`.  `__get_PRIMASK` reads the
register `PRIMASK`, `__disable_irq` sets it to 1 and `__set_PRIMASK` writes it.  The
difference `cbfifo_capacity() - buffer->elements` is taken for `elements` up to the
capacity. -/
def cbfifo_enqueue (BUFFER_SIZE : Nat) (irq : IrqState) (buffer : Buffer)
    (buf : Option (List Nat)) (nbyte : Nat) : IrqState × Buffer × Nat :=
  let irq1 := { irq with masking_state := irq.PRIMASK }
  let irq2 := { irq1 with PRIMASK := 1 }
  match buf with
  | none => (irq2, buffer, 0)
  | some src =>
    if nbyte = 0 ∨ buffer.elements = cbfifo_capacity BUFFER_SIZE then (irq2, buffer, 0)
    else
      let bytes_to_enqueue :=
        if nbyte ≤ cbfifo_capacity BUFFER_SIZE - buffer.elements then nbyte
        else cbfifo_capacity BUFFER_SIZE - buffer.elements
      let buffer1 :=
        cbfifo_enqueue_loop BUFFER_SIZE src bytes_to_enqueue bytes_to_enqueue 0 buffer
      let irq3 := { irq2 with PRIMASK := irq2.masking_state }
      (irq3, buffer1, bytes_to_enqueue)

/-- The loop `for (size_t i = 0; i < bytes_to_dequeue; i++)` of `cbfifo_dequeue`, entered
with loop variable `i`: the buffer and the bytes at the destination pointer. -/
def cbfifo_dequeue_loop (BUFFER_SIZE : Nat) (bytes_to_dequeue : Nat) :
    Nat → Nat → Buffer → List Nat → Buffer × List Nat
  | 0, _, buffer, dest => (buffer, dest)
  | fuel + 1, i, buffer, dest =>
    if i < bytes_to_dequeue then
      let dest1 := dest.set i (buffer.buffer_array.getD buffer.head 0)
      let b1 := { buffer with head := buffer.head + 1 }
      let b2 := if b1.head = cbfifo_capacity BUFFER_SIZE then { b1 with head := 0 } else b1
      let b3 := { b2 with elements := b2.elements - 1 }
      cbfifo_dequeue_loop BUFFER_SIZE bytes_to_dequeue fuel (i + 1) b3 dest1
    else (buffer, dest)

/-- The function `cbfifo_dequeue`: the interrupt state, the buffer, the bytes at the
destination pointer and the returned count; `none` is `NULL`. -/
def cbfifo_dequeue (BUFFER_SIZE : Nat) (irq : IrqState) (buffer : Buffer)
    (buf : Option (List Nat)) (nbyte : Nat) : IrqState × Buffer × Option (List Nat) × Nat :=
  let irq1 := { irq with masking_state := irq.PRIMASK }
  let irq2 := { irq1 with PRIMASK := 1 }
  match buf with
  | none => (irq2, buffer, none, 0)
  | some dest =>
    if nbyte = 0 ∨ buffer.elements = 0 then (irq2, buffer, some dest, 0)
    else
      let bytes_to_dequeue := if nbyte ≤ buffer.elements then nbyte else buffer.elements
      let r := cbfifo_dequeue_loop BUFFER_SIZE bytes_to_dequeue bytes_to_dequeue 0 buffer dest
      let irq3 := { irq2 with PRIMASK := irq2.masking_state }
      (irq3, r.1, some r.2, bytes_to_dequeue)

/-! ## The sample buffer of `adc.c` -/

/-- The conversion of a `uint16_t` value to `int16_t`, as in `int16_t temp = *a`. -/
def toInt16 (v : Nat) : Int :=
  if v % 65536 < 32768 then ((v % 65536 : Nat) : Int) else ((v % 65536 : Nat) : Int) - 65536

/-- The conversion of an `int16_t` value to `uint16_t`, as in `*b = temp`. -/
def toUint16 (t : Int) : Nat := (t % 65536).toNat

/-- The function `swap` of `adc.c`, called with the addresses of `arr[a]` and `arr[b]`. -/
def swap (arr : List Nat) (a b : Nat) : List Nat :=
  let temp := toInt16 (arr.getD a 0)
  let arr1 := arr.set a (arr.getD b 0)
  arr1.set b (toUint16 temp)

/-- The loop `for (int j = 0; j < n - i - 1; j++)` of `bubbleSort`, entered with loop
variable `j`; the comparison is one of `int` values. -/
def bubbleSort_inner (n i : Nat) : Nat → Nat → List Nat → List Nat
  | 0, _, arr => arr
  | fuel + 1, j, arr =>
    if (j : Int) < (n : Int) - (i : Int) - 1 then
      let arr1 := if arr.getD j 0 > arr.getD (j + 1) 0 then swap arr j (j + 1) else arr
      bubbleSort_inner n i fuel (j + 1) arr1
    else arr

/-- The loop `for (int i = 0; i < n - 1; i++)` of `bubbleSort`, entered with loop
variable `i`. -/
def bubbleSort_outer (n : Nat) : Nat → Nat → List Nat → List Nat
  | 0, _, arr => arr
  | fuel + 1, i, arr =>
    if (i : Int) < (n : Int) - 1 then
      bubbleSort_outer n fuel (i + 1) (bubbleSort_inner n i n 0 arr)
    else arr

/-- The function `bubbleSort` of `adc.c`; `n` is a `uint16_t` and each loop runs at most `n`
times. -/
def bubbleSort (arr : List Nat) (n : Nat) : List Nat := bubbleSort_outer n n 0 arr

/-- One pass of adjacent exchanges over the list `x :: l`, by recursion on the list. -/
def bubble : Nat → List Nat → List Nat
  | x, [] => [x]
  | x, y :: l => if x > y then y :: bubble x l else x :: bubble y l


/-- The global variables of `adc.c` that `compute_avg` reads and writes: the sample buffer
of 1024 `uint16_t` values, the `uint32_t` accumulator `sum` and the `uint16_t` result
`avg`. -/
structure AdcState where
  ADC_buffer : List Nat
  sum : Nat
  avg : Nat
deriving DecidableEq

/-- The loop `for (int i = 0; i < 1024; i++) sum += ADC_buffer[i]` of `compute_avg`,
entered with loop variable `i`. -/
def compute_avg_loop : Nat → Nat → AdcState → AdcState
  | 0, _, st => st
  | fuel + 1, i, st =>
    if i < 1024 then
      compute_avg_loop fuel (i + 1)
        { st with sum := (st.sum + st.ADC_buffer.getD i 0) % 2 ^ 32 }
    else st

/-- The function `compute_avg` of `adc.c`: the loop starts from the value that the global
`sum` holds at the call, and the quotient is stored in the `uint16_t` variable `avg`. -/
def compute_avg (st : AdcState) : AdcState :=
  let st1 := compute_avg_loop 1024 0 st
  { st1 with avg := (st1.sum / 1024) % 65536 }

/-- The state of `adc.c` at start-up, with the given samples in the buffer: variables of
static storage duration start at zero. -/
def adcStart (samples : List Nat) : AdcState := ⟨samples, 0, 0⟩

/-! ## Number parsing of `command_processor.c` -/

/-- The macro `HEXOFFSET`. -/
def HEXOFFSET : Nat := 16

/-- The macro `DECOFFSET`. -/
def DECOFFSET : Nat := 10

/-- The macro `ERROR`, which is `-1`, as the `uint32_t` value that the functions return. -/
def ERROR : Nat := 2 ^ 32 - 1

/-- The function `hexCharToUint`; characters are compared by their codes. -/
def hexCharToUint (hexChar : Char) : Nat :=
  if '0'.toNat ≤ hexChar.toNat ∧ hexChar.toNat ≤ '9'.toNat then
    hexChar.toNat - '0'.toNat
  else if 'a'.toNat ≤ hexChar.toNat ∧ hexChar.toNat ≤ 'f'.toNat then
    hexChar.toNat - 'a'.toNat + DECOFFSET
  else if 'A'.toNat ≤ hexChar.toNat ∧ hexChar.toNat ≤ 'F'.toNat then
    hexChar.toNat - 'A'.toNat + DECOFFSET
  else ERROR

/-- The loop `while (*str)` of the hexadecimal branch of `stringToUint`, entered with the
characters from `str` on and the value of `result`; the end of the list is the
terminating zero. -/
def stringToUint_hex : List Char → Nat → Nat
  | [], result => result
  | c :: rest, result =>
    if c.toNat = 0 then result
    else stringToUint_hex rest ((result * HEXOFFSET + hexCharToUint c) % 2 ^ 32)

/-- The loop `while (*str)` of the decimal branch of `stringToUint`. -/
def stringToUint_dec : List Char → Nat → Nat
  | [], result => result
  | c :: rest, result =>
    if c.toNat = 0 then result
    else if '0'.toNat ≤ c.toNat ∧ c.toNat ≤ '9'.toNat then
      stringToUint_dec rest ((result * DECOFFSET + (c.toNat - '0'.toNat)) % 2 ^ 32)
    else ERROR

/-- The function `stringToUint`; `str` lists the characters before the terminating zero,
so that the character read at the end of the list is the zero character. -/
def stringToUint (str : List Char) : Nat :=
  if str.getD 0 (Char.ofNat 0) = '0'
      ∧ (str.getD 1 (Char.ofNat 0) = 'x' ∨ str.getD 1 (Char.ofNat 0) = 'X') then
    stringToUint_hex (str.drop 2) 0
  else stringToUint_dec str 0

/-- The decimal digits. -/
def decDigits : List Char := "0123456789".toList

/-- The hexadecimal digits, of either case. -/
def hexDigits : List Char := "0123456789abcdefABCDEF".toList

/-- The value of a digit: its position among `0123456789abcdef`, whatever its case. -/
def digitValue (c : Char) : Nat := "0123456789abcdef".toList.indexOf c.toLower

/-- The value that a list of digits denotes in the given base. -/
def numeral (base : Nat) (ds : List Char) : Nat :=
  ds.foldl (fun v c => v * base + digitValue c) 0


/-! ## The registered addresses of a primitive -/

/-- The name under which `pc_profile_check` queries a primitive. -/
def primitiveName : Primitive → List Char
  | Primitive.ProcessMessageBlock => "ISHAProcessMessageBlock".toList
  | Primitive.PadMessage => "ISHAPadMessage".toList
  | Primitive.Reset => "ISHAReset".toList
  | Primitive.Input => "ISHAInput".toList
  | Primitive.Result => "ISHAResult".toList

/-- The address of the function of a primitive. -/
def startAddress (fa : FunctionAddresses) : Primitive → Nat
  | Primitive.ProcessMessageBlock => fa.ISHAProcessMessageBlock
  | Primitive.PadMessage => fa.ISHAPadMessage
  | Primitive.Reset => fa.ISHAReset
  | Primitive.Input => fa.ISHAInput
  | Primitive.Result => fa.ISHAResult

/-- The end marker that a primitive has recorded in its global variable `ISHA...End`. -/
def endMarker (fa : FunctionAddresses) : Primitive → Nat
  | Primitive.ProcessMessageBlock => fa.ISHAProcessMessageBlockEnd
  | Primitive.PadMessage => fa.ISHAPadMessageEnd
  | Primitive.Reset => fa.ISHAResetEnd
  | Primitive.Input => fa.ISHAInputEnd
  | Primitive.Result => fa.ISHAResultEnd


/-! ## `pbkdf1` compiled with `DEBUG` -/

/-- The line `INCREMENT_STATIC_COUNT(ISHAResetCount, static_profiling_on);` that `pbkdf1`
compiled with `DEBUG` has after each call of `ISHAReset`. -/
def countReset (g : StaticProfiler) : StaticProfiler :=
  { g with ISHAResetCount := INCREMENT_STATIC_COUNT g.ISHAResetCount g.static_profiling_on }

/-- The loop `for (i = 1; i < c; i++)` of `pbkdf1` compiled with `DEBUG`: the counter of
`ISHAReset` is incremented by `pbkdf1` itself after each call of `ISHAReset`. -/
def pbkdf1_loop_DEBUG (iv : Words5) (c : Nat) :
    Nat → Nat → StaticProfiler → ISHAContext → List Nat →
      StaticProfiler × ISHAContext × List Nat
  | 0, _, g, hashContext, dk => (g, hashContext, dk)
  | fuel + 1, i, g, hashContext, dk =>
    if i < c then
      let ctx1 := ISHAReset iv hashContext
      let g1 := countReset g
      let r2 := ISHAInput_DEBUG g1 ctx1 (dk.take ISHA_DIGESTLEN)
      let r3 := ISHAResult_DEBUG r2.1 r2.2 dk
      pbkdf1_loop_DEBUG iv c fuel ((i + 1) % 2 ^ 32) r3.1 r3.2.1 r3.2.2
    else (g, hashContext, dk)

/-- The function `pbkdf1` compiled with `DEBUG`: the static profiler, the returned code and
the bytes at `dk`. -/
def pbkdf1_DEBUG (iv : Words5) (g : StaticProfiler) (hashContext : ISHAContext)
    (p s : Option (List Nat)) (c : Nat) (dk : Option (List Nat)) (dkLen : Nat) :
    StaticProfiler × error_t × Option (List Nat) :=
  match p, s, dk with
  | some pBytes, some sBytes, some dkBytes =>
    if c < 1 then (g, error_t.ERROR_INVALID_PARAMETER, dk)
    else if dkLen > ISHA_DIGESTLEN then (g, error_t.ERROR_INVALID_LENGTH, dk)
    else
      let ctx1 := ISHAReset iv hashContext
      let g1 := countReset g
      let r2 := ISHAInput_DEBUG g1 ctx1 pBytes
      let r3 := ISHAInput_DEBUG r2.1 r2.2 sBytes
      let r4 := ISHAResult_DEBUG r3.1 r3.2 dkBytes
      let l := pbkdf1_loop_DEBUG iv c c 1 r4.1 r4.2.1 r4.2.2
      (l.1, error_t.NO_ERROR, some l.2.2)
  | _, _, _ => (g, error_t.ERROR_INVALID_PARAMETER, dk)


/-! ## The ring buffer of `cbfifo.c`, continued -/

/-- The function `cbfifo_clearlastele`: the interrupt state and the buffer.  The type of
`tail` is declared in `cbfifo.h`, which is not among the sources; it is an unsigned type of
`INDEX_BITS` bits, a parameter, so that `buffer->tail--` on `tail = 0` wraps to
`2 ^ INDEX_BITS - 1`. -/
def cbfifo_clearlastele (INDEX_BITS : Nat) (irq : IrqState) (buffer : Buffer) :
    IrqState × Buffer :=
  let irq1 := { irq with masking_state := irq.PRIMASK }
  let irq2 := { irq1 with PRIMASK := 1 }
  let buffer1 := { buffer with tail := (buffer.tail + 2 ^ INDEX_BITS - 1) % 2 ^ INDEX_BITS }
  let irq3 := { irq2 with PRIMASK := irq2.masking_state }
  (irq3, buffer1)

/-- The structural invariant of the ring buffer: both indices are below the capacity, the
count is at most the capacity, and `tail` is `head + elements` modulo the capacity. -/
def RingInvariant (BUFFER_SIZE : Nat) (buffer : Buffer) : Prop :=
  buffer.head < cbfifo_capacity BUFFER_SIZE ∧ buffer.tail < cbfifo_capacity BUFFER_SIZE ∧
    buffer.elements ≤ cbfifo_capacity BUFFER_SIZE ∧
    buffer.tail = (buffer.head + buffer.elements) % cbfifo_capacity BUFFER_SIZE

instance (BUFFER_SIZE : Nat) (buffer : Buffer) : Decidable (RingInvariant BUFFER_SIZE buffer) := by
  unfold RingInvariant; infer_instance

/-- A buffer of capacity 127, the value of `BUFFER_SIZE` in `test_cbfifo.c`, as
`cbfifo_reset` leaves it. -/
def sampleBuffer : Buffer := cbfifo_reset ⟨List.replicate 127 0, 0, 0, 0⟩

/-- The interrupt state with interrupts enabled, `PRIMASK = 0`. -/
def irqEnabled : IrqState := ⟨0, 0⟩


/-- One pass of the loop of `cbfifo_enqueue`, which stores the byte `x`. -/
def enqueue_pass (BUFFER_SIZE : Nat) (buffer : Buffer) (x : Nat) : Buffer :=
  let b1 := { buffer with
    buffer_array := buffer.buffer_array.set buffer.tail x,
    tail := buffer.tail + 1 }
  let b2 := if b1.tail = cbfifo_capacity BUFFER_SIZE then { b1 with tail := 0 } else b1
  { b2 with elements := b2.elements + 1 }

/-- One pass of the loop of `cbfifo_dequeue`, after the byte at `head` has been read. -/
def dequeue_pass (BUFFER_SIZE : Nat) (buffer : Buffer) : Buffer :=
  let b1 := { buffer with head := buffer.head + 1 }
  let b2 := if b1.head = cbfifo_capacity BUFFER_SIZE then { b1 with head := 0 } else b1
  { b2 with elements := b2.elements - 1 }


/-- The `count` bytes that the array holds from index `pos` on, in the order in which the
loop of `cbfifo_dequeue` reads them: the index goes back to 0 when it reaches the
capacity. -/
def ringRead (BUFFER_SIZE : Nat) (buffer_array : List Nat) : Nat → Nat → List Nat
  | _, 0 => []
  | pos, count + 1 =>
    buffer_array.getD pos 0
      :: ringRead BUFFER_SIZE buffer_array (if pos + 1 = BUFFER_SIZE then 0 else pos + 1) count

/-- The bytes that the buffer stores, oldest first. -/
def contents (BUFFER_SIZE : Nat) (buffer : Buffer) : List Nat :=
  ringRead BUFFER_SIZE buffer.buffer_array buffer.head buffer.elements


/-! ## Writes into the block with a check of the index -/

/-- A write of the byte `v` at index `idx` of the array `MBlock[64]` of the context:
`none` when the index is not in `[0, 64)`. -/
def writeBlock (MBlock : List Nat) (idx v : Nat) : Option (List Nat) :=
  if idx < 64 then some (MBlock.set idx v) else none

/-- The copy loop of `ISHAInput` with every write checked. -/
def ISHAInput_copy_checked : List Nat → Nat → List Nat → Option (List Nat)
  | MBlock, _, [] => some MBlock
  | MBlock, pos, b :: src =>
    (writeBlock MBlock pos b).bind fun m => ISHAInput_copy_checked m (pos + 1) src

/-- One pass of the body of the loop of `ISHAInput` with every write into the block
checked. -/
def ISHAInput_body_checked (ctx : ISHAContext) (message_array : List Nat) :
    Option (ISHAContext × List Nat) :=
  let length := message_array.length
  let blockRemaining := 64 - ctx.MB_Idx
  let bytesToCopy := if length < blockRemaining then length else blockRemaining
  (ISHAInput_copy_checked ctx.MBlock ctx.MB_Idx (message_array.take bytesToCopy)).bind
    fun MBlock =>
      let MB_Idx := ctx.MB_Idx + bytesToCopy
      let low := ((ctx.Length_Low + 8 * bytesToCopy) % 2 ^ 32) &&& 0xFFFFFFFF
      let high :=
        if low < 8 * bytesToCopy then ((ctx.Length_High + 1) % 2 ^ 32) &&& 0xFFFFFFFF
        else ctx.Length_High
      let corrupted :=
        if low < 8 * bytesToCopy then (if high = 0 then true else ctx.Corrupted)
        else ctx.Corrupted
      let ctx1 : ISHAContext :=
        { ctx with MBlock := MBlock, MB_Idx := MB_Idx, Length_Low := low, Length_High := high,
                   Corrupted := corrupted }
      let ctx2 := if ctx1.MB_Idx = 64 then ISHAProcessMessageBlock ctx1 else ctx1
      some (ctx2, message_array.drop bytesToCopy)

/-- The loop of `ISHAInput` with every write into the block checked. -/
def ISHAInput_loop_checked : Nat → ISHAContext → List Nat → Option (ISHAContext × List Nat)
  | 0, ctx, message_array => some (ctx, message_array)
  | fuel + 1, ctx, message_array =>
    if message_array.length > 0 ∧ ctx.Corrupted = false then
      (ISHAInput_body_checked ctx message_array).bind fun r =>
        ISHAInput_loop_checked fuel r.1 r.2
    else some (ctx, message_array)

/-- The function `ISHAInput` with every write into the block checked. -/
def ISHAInput_checked (ctx : ISHAContext) (message_array : List Nat) : Option ISHAContext :=
  if message_array.length = 0 then some ctx
  else if ctx.Computed ∨ ctx.Corrupted then some { ctx with Corrupted := true }
  else (ISHAInput_loop_checked (message_array.length + 1) ctx message_array).map Prod.fst

/-- The zero-fill loops of `ISHAPadMessage` with every write checked. -/
def ISHAPadMessage_zeros_checked (limit : Nat) : Nat → ISHAContext → Option ISHAContext
  | 0, ctx => some ctx
  | fuel + 1, ctx =>
    if ctx.MB_Idx < limit then
      (writeBlock ctx.MBlock ctx.MB_Idx 0).bind fun m =>
        ISHAPadMessage_zeros_checked limit fuel { ctx with MBlock := m, MB_Idx := ctx.MB_Idx + 1 }
    else some ctx

/-- The write of a `uint32_t` at offset `off` of the block, as its four byte writes, each
checked. -/
def store32_checked (mem : List Nat) (off v : Nat) : Option (List Nat) :=
  (writeBlock mem off (v % 256)).bind fun m1 =>
    (writeBlock m1 (off + 1) (v / 256 % 256)).bind fun m2 =>
      (writeBlock m2 (off + 2) (v / 65536 % 256)).bind fun m3 =>
        writeBlock m3 (off + 3) (v / 16777216 % 256)

/-- The function `ISHAPadMessage` with every write into the block checked: the byte
`0x80`, both zero-fill loops and the two length words. -/
def ISHAPadMessage_checked (ctx : ISHAContext) : Option ISHAContext :=
  (writeBlock ctx.MBlock ctx.MB_Idx 0x80).bind fun m =>
    let ctx1 : ISHAContext := { ctx with MBlock := m, MB_Idx := ctx.MB_Idx + 1 }
    (if ctx1.MB_Idx > 55 then
        (ISHAPadMessage_zeros_checked 64 64 ctx1).map ISHAProcessMessageBlock
      else some ctx1).bind fun ctx2 =>
      (ISHAPadMessage_zeros_checked 56 56 ctx2).bind fun ctx3 =>
        (store32_checked ctx3.MBlock 56 (bswap32 ctx3.Length_High)).bind fun m4 =>
          (store32_checked m4 60 (bswap32 ctx3.Length_Low)).bind fun m5 =>
            some (ISHAProcessMessageBlock { ctx3 with MBlock := m5 })


/-! ## Sequences of calls of the digest primitives -/

/-- A call of one of the three public digest primitives, with its data argument. -/
inductive ISHAOp where
  | Reset
  | Input (message_array : List Nat)
  | Result (digest_out : List Nat)
deriving DecidableEq

/-- The context after one call. -/
def applyOp (iv : Words5) (ctx : ISHAContext) : ISHAOp → ISHAContext
  | ISHAOp.Reset => ISHAReset iv ctx
  | ISHAOp.Input message_array => ISHAInput ctx message_array
  | ISHAOp.Result digest_out => (ISHAResult ctx digest_out).1

/-- The context that a caller holds between calls: `ISHAReset` on the memory `ctx0`, then
the calls of the list, in order. -/
def afterCalls (iv : Words5) (ctx0 : ISHAContext) (calls : List ISHAOp) : ISHAContext :=
  calls.foldl (applyOp iv) (ISHAReset iv ctx0)

/-- The invariant of the block index between calls: it is below 64, and it is 0 once the
digest has been computed. -/
def BlockFillInvariant (ctx : ISHAContext) : Prop :=
  ctx.MB_Idx < 64 ∧ (ctx.Computed = true → ctx.MB_Idx = 0)

/-! # Theorems -/

/-! ## Words -/

theorem ISHACircularShift_eq_rotl32 (n w : Nat) (h1 : 1 ≤ n) (h2 : n ≤ 31)
    (hw : w < 2 ^ 32) : ISHACircularShift n w = rotl32 n w := by
  unfold ISHACircularShift rotl32
  have hmask : (0xFFFFFFFF : Nat) = 2 ^ 32 - 1 := by norm_num
  rw [hmask, Nat.and_pow_two_sub_one_eq_mod, Nat.shiftLeft_eq, Nat.shiftRight_eq_div_pow]
  have hsplit : (2 : Nat) ^ 32 = 2 ^ n * 2 ^ (32 - n) := by
    rw [← pow_add]; congr 1; omega
  have hlt : w / 2 ^ (32 - n) < 2 ^ n := by
    apply Nat.div_lt_of_lt_mul
    rw [Nat.mul_comm, ← hsplit]; exact hw
  have hmul : w * 2 ^ n % 2 ^ 32 = 2 ^ n * (w % 2 ^ (32 - n)) := by
    rw [hsplit, Nat.mul_comm w, Nat.mul_mod_mul_left]
  rw [hmul]
  exact (Nat.mul_add_lt_is_or hlt _).symm

theorem rotl32_lt (n w : Nat) (h1 : 1 ≤ n) (h2 : n ≤ 31) (hw : w < 2 ^ 32) :
    rotl32 n w < 2 ^ 32 := by
  unfold rotl32
  have hsplit : (2 : Nat) ^ 32 = 2 ^ n * 2 ^ (32 - n) := by
    rw [← pow_add]; congr 1; omega
  have hlt : w / 2 ^ (32 - n) < 2 ^ n := by
    apply Nat.div_lt_of_lt_mul
    rw [Nat.mul_comm, ← hsplit]; exact hw
  have hmul : w * 2 ^ n % 2 ^ 32 = 2 ^ n * (w % 2 ^ (32 - n)) := by
    rw [hsplit, Nat.mul_comm w, Nat.mul_mod_mul_left]
  rw [hmul]
  have hpos : 0 < 2 ^ (32 - n) := Nat.two_pow_pos _
  have hm : w % 2 ^ (32 - n) + 1 ≤ 2 ^ (32 - n) := Nat.mod_lt _ hpos
  have hle := Nat.mul_le_mul_left (2 ^ n) hm
  rw [← hsplit, Nat.mul_add, Nat.mul_one] at hle
  omega

theorem xor_mask_eq_sub (b : Nat) (hb : b < 2 ^ 32) : b ^^^ 0xFFFFFFFF = 4294967295 - b := by
  apply Nat.eq_of_testBit_eq
  intro i
  have h1 : (4294967295 : Nat) - b = 2 ^ 32 - (b + 1) := by omega
  have h2 : (0xFFFFFFFF : Nat) = 2 ^ 32 - 1 := by norm_num
  rw [h1, Nat.testBit_two_pow_sub_succ hb, Nat.testBit_xor, h2, Nat.testBit_two_pow_sub_one]
  by_cases hi : i < 32
  · simp [hi]
  · simp [hi]
    apply Nat.testBit_lt_two_pow
    calc b < 2 ^ 32 := hb
      _ ≤ 2 ^ i := Nat.pow_le_pow_right (by norm_num) (by omega)

theorem getD_lt_of_Bytes (l : List Nat) (h : Bytes l) (i : Nat) : l.getD i 0 < 256 := by
  by_cases hi : i < l.length
  · rw [List.getD_eq_getElem l 0 hi]
    exact h _ (List.getElem_mem hi)
  · rw [List.getD_eq_default l 0 (by omega)]
    norm_num

theorem bswap32_load32 (block : List Nat) (h : Bytes block) (t : Nat) :
    bswap32 (load32 block (4 * t)) = beWord block t := by
  have h0 := getD_lt_of_Bytes block h (4 * t)
  have h1 := getD_lt_of_Bytes block h (4 * t + 1)
  have h2 := getD_lt_of_Bytes block h (4 * t + 2)
  have h3 := getD_lt_of_Bytes block h (4 * t + 3)
  unfold bswap32 load32 beWord
  omega

/-! ## The compression function -/

theorem round_eq_refRound (block : List Nat) (h : Bytes block) (t : Nat) (r : Words5)
    (hr : r.Bounded) :
    ISHAProcessMessageBlock_round block t r = refRound r (beWord block t) := by
  obtain ⟨h0, h1, h2, h3, _⟩ := hr
  unfold ISHAProcessMessageBlock_round refRound
  have ht : ∀ x : Nat, x % 2 ^ 32 < 2 ^ 32 := fun x => Nat.mod_lt _ (by norm_num)
  simp only [bswap32_load32 block h t, xor_mask_eq_sub r.v1 h1]
  rw [ISHACircularShift_eq_rotl32 5 r.v0 (by norm_num) (by norm_num) h0,
    ISHACircularShift_eq_rotl32 25 r.v3 (by norm_num) (by norm_num) h3,
    ISHACircularShift_eq_rotl32 15 r.v2 (by norm_num) (by norm_num) h2,
    ISHACircularShift_eq_rotl32 30 r.v1 (by norm_num) (by norm_num) h1,
    ISHACircularShift_eq_rotl32 10 r.v0 (by norm_num) (by norm_num) h0,
    ISHACircularShift_eq_rotl32 5 _ (by norm_num) (by norm_num) (ht _)]

theorem refRound_Bounded (r : Words5) (W : Nat) (hr : r.Bounded) : (refRound r W).Bounded := by
  obtain ⟨h0, h1, h2, h3, _⟩ := hr
  unfold refRound Words5.Bounded
  have ht : ∀ x : Nat, x % 2 ^ 32 < 2 ^ 32 := fun x => Nat.mod_lt _ (by norm_num)
  exact ⟨rotl32_lt 5 _ (by norm_num) (by norm_num) (ht _),
    rotl32_lt 10 _ (by norm_num) (by norm_num) h0,
    rotl32_lt 30 _ (by norm_num) (by norm_num) h1,
    rotl32_lt 15 _ (by norm_num) (by norm_num) h2,
    rotl32_lt 25 _ (by norm_num) (by norm_num) h3⟩

theorem loop_eq_foldl (block : List Nat) (h : Bytes block) :
    ∀ (fuel t : Nat) (r : Words5), t + fuel = 16 → r.Bounded →
      ISHAProcessMessageBlock_loop block fuel t r
        = ((List.range' t fuel).map (beWord block)).foldl refRound r := by
  intro fuel
  induction fuel with
  | zero => intro t r _ _; rfl
  | succ k ih =>
    intro t r ht hr
    have hlt : t < 16 := by omega
    rw [ISHAProcessMessageBlock_loop, if_pos hlt, round_eq_refRound block h t r hr,
      ih (t + 1) _ (by omega) (refRound_Bounded r _ hr)]
    rfl

theorem ISHAProcessMessageBlock_eq_ref (ctx : ISHAContext) (hMD : ctx.MD.Bounded)
    (hB : Bytes ctx.MBlock) :
    ISHAProcessMessageBlock ctx
      = { ctx with MD := refCompress ctx.MD ctx.MBlock, MB_Idx := 0 } := by
  unfold ISHAProcessMessageBlock refCompress addWords
  rw [loop_eq_foldl ctx.MBlock hB 16 0 ctx.MD rfl hMD, List.range_eq_range']


/-! ## The absorb loop -/

theorem mod_and_mask (x : Nat) : (x % 2 ^ 32) &&& 0xFFFFFFFF = x % 2 ^ 32 := by
  have hmask : (0xFFFFFFFF : Nat) = 2 ^ 32 - 1 := by norm_num
  rw [hmask, Nat.and_pow_two_sub_one_eq_mod, Nat.mod_mod]

theorem copy_append (xs ys : List Nat) :
    ∀ (blk : List Nat) (pos : Nat),
      ISHAInput_copy blk pos (xs ++ ys)
        = ISHAInput_copy (ISHAInput_copy blk pos xs) (pos + xs.length) ys := by
  induction xs with
  | nil => intro blk pos; simp [ISHAInput_copy]
  | cons x xs ih =>
    intro blk pos
    show ISHAInput_copy (blk.set pos x) (pos + 1) (xs ++ ys) = _
    rw [ih, List.length_cons]
    show _ = ISHAInput_copy (ISHAInput_copy (blk.set pos x) (pos + 1) xs) _ ys
    congr 1
    omega

theorem body_fits (ctx : ISHAContext) (msg : List Nat) (hA : Aligned ctx)
    (hlen : msg.length < 64 - ctx.MB_Idx) :
    ISHAInput_body ctx msg
      = ({ ctx with MBlock := ISHAInput_copy ctx.MBlock ctx.MB_Idx msg,
                    MB_Idx := ctx.MB_Idx + msg.length,
                    Length_Low := ctx.Length_Low + 8 * msg.length }, []) := by
  obtain ⟨h1, h2, h3⟩ := hA
  have hlow : (ctx.Length_Low + 8 * msg.length) % 2 ^ 32 = ctx.Length_Low + 8 * msg.length := by
    apply Nat.mod_eq_of_lt; omega
  have hne : ¬ (ctx.MB_Idx + msg.length = 64) := by omega
  have hnc : ¬ (ctx.Length_Low + 8 * msg.length < 8 * msg.length) := by omega
  simp only [ISHAInput_body, if_pos hlen, List.take_length, List.drop_length, mod_and_mask,
    if_neg hne]
  simp only [hlow, if_neg hnc]

theorem body_full (ctx : ISHAContext) (msg : List Nat) (hA : Aligned ctx)
    (hlen : 64 - ctx.MB_Idx ≤ msg.length) :
    ISHAInput_body ctx msg
      = (ISHAProcessMessageBlock
          { ctx with
            MBlock := ISHAInput_copy ctx.MBlock ctx.MB_Idx (msg.take (64 - ctx.MB_Idx)),
            MB_Idx := 64,
            Length_Low := (ctx.Length_Low + 8 * (64 - ctx.MB_Idx)) % 2 ^ 32,
            Length_High :=
              if ctx.Length_Low + 8 * (64 - ctx.MB_Idx) = 2 ^ 32
              then (ctx.Length_High + 1) % 2 ^ 32 else ctx.Length_High,
            Corrupted :=
              if ctx.Length_Low + 8 * (64 - ctx.MB_Idx) = 2 ^ 32
              then (if (ctx.Length_High + 1) % 2 ^ 32 = 0 then true else ctx.Corrupted)
              else ctx.Corrupted },
         msg.drop (64 - ctx.MB_Idx)) := by
  obtain ⟨h1, h2, h3⟩ := hA
  have hk : ¬ (msg.length < 64 - ctx.MB_Idx) := by omega
  have hidx : ctx.MB_Idx + (64 - ctx.MB_Idx) = 64 := by omega
  have hcarry : ((ctx.Length_Low + 8 * (64 - ctx.MB_Idx)) % 2 ^ 32 < 8 * (64 - ctx.MB_Idx))
      ↔ ctx.Length_Low + 8 * (64 - ctx.MB_Idx) = 2 ^ 32 := by
    constructor <;> intro h <;> omega
  simp only [ISHAInput_body, if_neg hk, mod_and_mask, hidx, if_true, hcarry]
  by_cases hc : ctx.Length_Low + 8 * (64 - ctx.MB_Idx) = 2 ^ 32
  · simp only [if_pos hc]
  · simp only [if_neg hc]

theorem body_idx_lt (ctx : ISHAContext) (msg : List Nat) (h : ctx.MB_Idx < 64) :
    (ISHAInput_body ctx msg).1.MB_Idx < 64 := by
  unfold ISHAInput_body
  simp only
  split_ifs <;> simp [ISHAProcessMessageBlock] <;> omega

theorem body_length_lt (ctx : ISHAContext) (msg : List Nat) (h : ctx.MB_Idx < 64)
    (hne : 0 < msg.length) : (ISHAInput_body ctx msg).2.length < msg.length := by
  unfold ISHAInput_body
  simp only [List.length_drop]
  split_ifs <;> omega

theorem loop_nil (fuel : Nat) (ctx : ISHAContext) : ISHAInput_loop fuel ctx [] = (ctx, []) := by
  cases fuel <;> simp [ISHAInput_loop]

theorem loop_corrupted (fuel : Nat) (ctx : ISHAContext) (msg : List Nat)
    (h : ctx.Corrupted = true) : ISHAInput_loop fuel ctx msg = (ctx, msg) := by
  cases fuel <;> simp [ISHAInput_loop, h]

theorem loop_fuel (f1 : Nat) :
    ∀ (f2 : Nat) (ctx : ISHAContext) (msg : List Nat), ctx.MB_Idx < 64 →
      msg.length ≤ f1 → msg.length ≤ f2 →
      ISHAInput_loop f1 ctx msg = ISHAInput_loop f2 ctx msg := by
  induction f1 with
  | zero =>
    intro f2 ctx msg _ h1 _
    have : msg = [] := List.length_eq_zero.mp (by omega)
    subst this
    rw [loop_nil, loop_nil]
  | succ k ih =>
    intro f2 ctx msg hidx h1 h2
    by_cases hc : msg.length > 0 ∧ ctx.Corrupted = false
    · obtain ⟨j, rfl⟩ : ∃ j, f2 = j + 1 := ⟨f2 - 1, by omega⟩
      have hlt := body_length_lt ctx msg hidx hc.1
      rw [ISHAInput_loop, ISHAInput_loop, if_pos hc, if_pos hc]
      exact ih j _ _ (body_idx_lt ctx msg hidx) (by omega) (by omega)
    · rw [ISHAInput_loop, if_neg hc]
      cases f2 with
      | zero => rfl
      | succ j => rw [ISHAInput_loop, if_neg hc]

/-- With `MB_Idx < 64` and as much fuel as there are bytes, the loop of `ISHAInput` is
left through its own condition: no byte is unread, or the context is corrupted. -/
theorem loop_exits (fuel : Nat) :
    ∀ (ctx : ISHAContext) (msg : List Nat), ctx.MB_Idx < 64 → msg.length ≤ fuel →
      (ISHAInput_loop fuel ctx msg).2 = [] ∨ (ISHAInput_loop fuel ctx msg).1.Corrupted = true := by
  induction fuel with
  | zero =>
    intro ctx msg _ h
    left
    show msg = []
    exact List.length_eq_zero.mp (by omega)
  | succ k ih =>
    intro ctx msg hidx h
    rw [ISHAInput_loop]
    by_cases hc : msg.length > 0 ∧ ctx.Corrupted = false
    · rw [if_pos hc]
      have hlt := body_length_lt ctx msg hidx hc.1
      exact ih _ _ (body_idx_lt ctx msg hidx) (by omega)
    · rw [if_neg hc]
      by_cases hm : msg.length > 0
      · right
        have : ¬ ctx.Corrupted = false := fun h => hc ⟨hm, h⟩
        simpa using this
      · left
        show msg = []
        exact List.length_eq_zero.mp (by omega)

theorem set_corrupted_self (ctx : ISHAContext) (h : ctx.Corrupted = true) :
    { ctx with Corrupted := true } = ctx := by
  cases ctx; simp_all

theorem ISHAInput_nil (ctx : ISHAContext) : ISHAInput ctx [] = ctx := by
  simp [ISHAInput]

theorem ISHAInput_of_corrupted (ctx : ISHAContext) (msg : List Nat)
    (h : ctx.Corrupted = true) : ISHAInput ctx msg = ctx := by
  unfold ISHAInput
  split_ifs with h1 h2
  · rfl
  · exact set_corrupted_self ctx h
  · simp [h] at h2

theorem body_computed (ctx : ISHAContext) (msg : List Nat) :
    (ISHAInput_body ctx msg).1.Computed = ctx.Computed := by
  unfold ISHAInput_body
  simp only
  split_ifs <;> rfl

theorem ISHAInput_step (ctx : ISHAContext) (msg : List Nat) (hC : ctx.Computed = false)
    (hK : ctx.Corrupted = false) (hidx : ctx.MB_Idx < 64) (hne : 0 < msg.length) :
    ISHAInput ctx msg = ISHAInput (ISHAInput_body ctx msg).1 (ISHAInput_body ctx msg).2 := by
  have hlt := body_length_lt ctx msg hidx hne
  have hidx1 := body_idx_lt ctx msg hidx
  have hC1 := body_computed ctx msg
  rw [hC] at hC1
  have lhs : ISHAInput ctx msg
      = (ISHAInput_loop msg.length (ISHAInput_body ctx msg).1 (ISHAInput_body ctx msg).2).1 := by
    unfold ISHAInput
    rw [if_neg (by omega), if_neg (by simp [hC, hK]), ISHAInput_loop, if_pos ⟨hne, hK⟩]
  rw [lhs]
  generalize (ISHAInput_body ctx msg).1 = c1 at *
  generalize (ISHAInput_body ctx msg).2 = rest at *
  by_cases hr : rest.length = 0
  · have : rest = [] := List.length_eq_zero.mp hr
    subst this
    rw [loop_nil, ISHAInput_nil]
  · by_cases hk1 : c1.Corrupted = true
    · rw [loop_corrupted _ _ _ hk1, ISHAInput_of_corrupted _ _ hk1]
    · unfold ISHAInput
      rw [if_neg hr, if_neg (by simp [hC1, hk1])]
      rw [loop_fuel msg.length (rest.length + 1) c1 rest hidx1 (by omega) (by omega)]

/-- The context that `ISHAInput` leaves when the bytes fit in the block with room to
spare. -/
theorem ISHAInput_fits (ctx : ISHAContext) (msg : List Nat) (hC : ctx.Computed = false)
    (hK : ctx.Corrupted = false) (hA : Aligned ctx) (hne : 0 < msg.length)
    (hlen : msg.length < 64 - ctx.MB_Idx) :
    ISHAInput ctx msg
      = { ctx with MBlock := ISHAInput_copy ctx.MBlock ctx.MB_Idx msg,
                   MB_Idx := ctx.MB_Idx + msg.length,
                   Length_Low := ctx.Length_Low + 8 * msg.length } := by
  rw [ISHAInput_step ctx msg hC hK hA.1 hne, body_fits ctx msg hA hlen, ISHAInput_nil]

theorem ISHAInput_full (ctx : ISHAContext) (msg : List Nat) (hC : ctx.Computed = false)
    (hK : ctx.Corrupted = false) (hA : Aligned ctx)
    (hlen : 64 - ctx.MB_Idx ≤ msg.length) :
    ISHAInput ctx msg
      = ISHAInput (ISHAProcessMessageBlock (fullBlock ctx msg)) (msg.drop (64 - ctx.MB_Idx)) := by
  have hne : 0 < msg.length := by have := hA.1; omega
  rw [ISHAInput_step ctx msg hC hK hA.1 hne, body_full ctx msg hA hlen]
  rfl

theorem fullBlock_next_Aligned (ctx : ISHAContext) (msg : List Nat) (hA : Aligned ctx) :
    Aligned (ISHAProcessMessageBlock (fullBlock ctx msg)) := by
  obtain ⟨h1, h2, h3⟩ := hA
  refine ⟨?_, ?_, ?_⟩
  · show (0 : Nat) < 64
    norm_num
  · show (ctx.Length_Low + 8 * (64 - ctx.MB_Idx)) % 2 ^ 32 < 2 ^ 32
    exact Nat.mod_lt _ (by norm_num)
  · show (ctx.Length_Low + 8 * (64 - ctx.MB_Idx)) % 2 ^ 32 % 512 = 8 * 0
    omega

theorem fullBlock_next_Computed (ctx : ISHAContext) (msg : List Nat) :
    (ISHAProcessMessageBlock (fullBlock ctx msg)).Computed = ctx.Computed := rfl

theorem ISHAInput_keeps (n : Nat) :
    ∀ (ctx : ISHAContext) (msg : List Nat), msg.length ≤ n → ctx.Computed = false →
      Aligned ctx →
      (ISHAInput ctx msg).Computed = false ∧ Aligned (ISHAInput ctx msg) := by
  induction n with
  | zero =>
    intro ctx msg hlen hC hA
    have : msg = [] := List.length_eq_zero.mp (by omega)
    subst this
    rw [ISHAInput_nil]; exact ⟨hC, hA⟩
  | succ k ih =>
    intro ctx msg hlen hC hA
    by_cases hK : ctx.Corrupted = true
    · rw [ISHAInput_of_corrupted _ _ hK]; exact ⟨hC, hA⟩
    have hK : ctx.Corrupted = false := by simpa using hK
    by_cases hne : msg.length = 0
    · have : msg = [] := List.length_eq_zero.mp hne
      subst this
      rw [ISHAInput_nil]; exact ⟨hC, hA⟩
    by_cases hfit : msg.length < 64 - ctx.MB_Idx
    · rw [ISHAInput_fits ctx msg hC hK hA (by omega) hfit]
      obtain ⟨h1, h2, h3⟩ := hA
      refine ⟨hC, ?_, ?_, ?_⟩
      · show ctx.MB_Idx + msg.length < 64
        omega
      · show ctx.Length_Low + 8 * msg.length < 2 ^ 32
        omega
      · show (ctx.Length_Low + 8 * msg.length) % 512 = 8 * (ctx.MB_Idx + msg.length)
        omega
    · rw [ISHAInput_full ctx msg hC hK hA (by omega)]
      have h1 := hA.1
      apply ih
      · rw [List.length_drop]; omega
      · rw [fullBlock_next_Computed]; exact hC
      · exact fullBlock_next_Aligned ctx msg hA

theorem ISHAInput_append (n : Nat) :
    ∀ (ctx : ISHAContext) (a b : List Nat), a.length ≤ n → ctx.Computed = false →
      Aligned ctx →
      ISHAInput (ISHAInput ctx a) b = ISHAInput ctx (a ++ b) := by
  induction n with
  | zero =>
    intro ctx a b hlen _ _
    have : a = [] := List.length_eq_zero.mp (by omega)
    subst this
    rw [ISHAInput_nil, List.nil_append]
  | succ k ih =>
    intro ctx a b hlen hC hA
    by_cases hK : ctx.Corrupted = true
    · rw [ISHAInput_of_corrupted _ _ hK, ISHAInput_of_corrupted _ _ hK,
        ISHAInput_of_corrupted _ _ hK]
    have hK : ctx.Corrupted = false := by simpa using hK
    by_cases hne : a.length = 0
    · have : a = [] := List.length_eq_zero.mp hne
      subst this
      rw [ISHAInput_nil, List.nil_append]
    by_cases hb : b.length = 0
    · have : b = [] := List.length_eq_zero.mp hb
      subst this
      rw [ISHAInput_nil, List.append_nil]
    have hidx := hA.1
    by_cases hfit : a.length < 64 - ctx.MB_Idx
    · -- the first call leaves the block partly filled
      have hA1 : Aligned (ISHAInput ctx a) := (ISHAInput_keeps _ ctx a (le_refl _) hC hA).2
      rw [ISHAInput_fits ctx a hC hK hA (by omega) hfit] at hA1 ⊢
      generalize hc1 : ({ ctx with MBlock := ISHAInput_copy ctx.MBlock ctx.MB_Idx a,
                                   MB_Idx := ctx.MB_Idx + a.length,
                                   Length_Low := ctx.Length_Low + 8 * a.length } : ISHAContext)
        = c1 at hA1 ⊢
      have hC1 : c1.Computed = false := by rw [← hc1]; exact hC
      have hK1 : c1.Corrupted = false := by rw [← hc1]; exact hK
      have hi1 : c1.MB_Idx = ctx.MB_Idx + a.length := by rw [← hc1]
      by_cases hfit2 : b.length < 64 - c1.MB_Idx
      · rw [ISHAInput_fits c1 b hC1 hK1 hA1 (by omega) hfit2,
          ISHAInput_fits ctx (a ++ b) hC hK hA (by rw [List.length_append]; omega)
            (by rw [List.length_append]; omega)]
        subst hc1
        simp only [copy_append, List.length_append]
        congr 1 <;> omega
      · rw [ISHAInput_full c1 b hC1 hK1 hA1 (by omega),
          ISHAInput_full ctx (a ++ b) hC hK hA (by rw [List.length_append]; omega)]
        have htake : (a ++ b).take (64 - ctx.MB_Idx)
            = a ++ b.take (64 - (ctx.MB_Idx + a.length)) := by
          rw [List.take_append_eq_append_take, List.take_of_length_le (by omega)]
          congr 2; omega
        have hdrop : (a ++ b).drop (64 - ctx.MB_Idx)
            = b.drop (64 - (ctx.MB_Idx + a.length)) := by
          rw [List.drop_append_eq_append_drop, List.drop_of_length_le (by omega),
            List.nil_append]
          congr 1; omega
        have hlo : ctx.Length_Low + 8 * a.length + 8 * (64 - (ctx.MB_Idx + a.length))
            = ctx.Length_Low + 8 * (64 - ctx.MB_Idx) := by omega
        have hctx : fullBlock c1 b = fullBlock ctx (a ++ b) := by
          subst hc1
          simp only [fullBlock, htake, copy_append, hlo]
        rw [hdrop, hi1, hctx]
    · -- the first call completes the block
      have hfull : 64 - ctx.MB_Idx ≤ a.length := by omega
      rw [ISHAInput_full ctx a hC hK hA hfull,
        ISHAInput_full ctx (a ++ b) hC hK hA (by rw [List.length_append]; omega)]
      have htake : (a ++ b).take (64 - ctx.MB_Idx) = a.take (64 - ctx.MB_Idx) := by
        rw [List.take_append_of_le_length hfull]
      have hdrop : (a ++ b).drop (64 - ctx.MB_Idx) = a.drop (64 - ctx.MB_Idx) ++ b := by
        rw [List.drop_append_of_le_length hfull]
      have hctx : fullBlock ctx (a ++ b) = fullBlock ctx a := by
        simp only [fullBlock, htake]
      rw [hdrop, hctx]
      apply ih
      · rw [List.length_drop]; omega
      · rw [fullBlock_next_Computed]; exact hC
      · exact fullBlock_next_Aligned ctx a hA

/-! ## Writes into a block or a buffer -/

theorem set_after (pre : List Nat) (x v : Nat) (suf : List Nat) :
    (pre ++ x :: suf).set pre.length v = pre ++ v :: suf := by
  rw [List.set_append, if_neg (by omega), Nat.sub_self]
  rfl

theorem copy_after (xs : List Nat) :
    ∀ (pre suf : List Nat), xs.length ≤ suf.length →
      ISHAInput_copy (pre ++ suf) pre.length xs = pre ++ xs ++ suf.drop xs.length := by
  induction xs with
  | nil => intro pre suf _; simp [ISHAInput_copy]
  | cons x xs ih =>
    intro pre suf h
    cases suf with
    | nil => simp at h
    | cons y suf =>
      rw [ISHAInput_copy, set_after]
      have h1 := ih (pre ++ [x]) suf (by simpa using h)
      simp only [List.length_append, List.length_singleton, List.append_assoc,
        List.singleton_append] at h1
      rw [h1]
      simp

theorem bswap32_bytes (w : Nat) :
    [bswap32 w % 256, bswap32 w / 256 % 256, bswap32 w / 65536 % 256,
      bswap32 w / 16777216 % 256] = BE32 w := by
  unfold bswap32 BE32
  have e1 : (2 : Nat) ^ 24 = 16777216 := by norm_num
  have e2 : (2 : Nat) ^ 16 = 65536 := by norm_num
  have e3 : (2 : Nat) ^ 8 = 256 := by norm_num
  rw [e1, e2, e3]
  have ha : w % 256 < 256 := Nat.mod_lt _ (by norm_num)
  have hb : w / 256 % 256 < 256 := Nat.mod_lt _ (by norm_num)
  have hc : w / 65536 % 256 < 256 := Nat.mod_lt _ (by norm_num)
  have hd : w / 16777216 % 256 < 256 := Nat.mod_lt _ (by norm_num)
  generalize w % 256 = a at ha ⊢
  generalize w / 256 % 256 = b at hb ⊢
  generalize w / 65536 % 256 = c at hc ⊢
  generalize w / 16777216 % 256 = d at hd ⊢
  congr 1
  · omega
  congr 1
  · omega
  congr 1
  · omega
  congr 1
  omega

theorem store32_after (pre suf : List Nat) (w : Nat) (h : 4 ≤ suf.length) :
    store32 (pre ++ suf) pre.length (bswap32 w) = pre ++ BE32 w ++ suf.drop 4 := by
  obtain ⟨a, b, c, d, rest, rfl⟩ : ∃ a b c d rest, suf = a :: b :: c :: d :: rest := by
    match suf, h with
    | a :: b :: c :: d :: rest, _ => exact ⟨a, b, c, d, rest, rfl⟩
  rw [← bswap32_bytes]
  unfold store32
  rw [set_after]
  have s1 := set_after (pre ++ [bswap32 w % 256]) b (bswap32 w / 256 % 256) (c :: d :: rest)
  have s2 := set_after (pre ++ [bswap32 w % 256, bswap32 w / 256 % 256]) c
    (bswap32 w / 65536 % 256) (d :: rest)
  have s3 := set_after
    (pre ++ [bswap32 w % 256, bswap32 w / 256 % 256, bswap32 w / 65536 % 256]) d
    (bswap32 w / 16777216 % 256) rest
  simp only [List.length_append, List.length_singleton, List.length_cons, List.length_nil,
    List.append_assoc, List.singleton_append, List.cons_append, List.nil_append] at s1 s2 s3
  rw [s1, s2, s3]
  simp

theorem zeros_after (limit : Nat) (fuel : Nat) :
    ∀ (ctx : ISHAContext) (pre suf : List Nat), ctx.MBlock = pre ++ suf →
      ctx.MB_Idx = pre.length → pre.length ≤ limit → limit - pre.length ≤ fuel →
      limit ≤ pre.length + suf.length →
      ISHAPadMessage_zeros limit fuel ctx
        = { ctx with MBlock := pre ++ List.replicate (limit - pre.length) 0
                                  ++ suf.drop (limit - pre.length),
                     MB_Idx := limit } := by
  induction fuel with
  | zero =>
    intro ctx pre suf hb hi h1 h2 _
    have : limit = pre.length := by omega
    subst this
    cases ctx
    simp_all [ISHAPadMessage_zeros]
  | succ k ih =>
    intro ctx pre suf hb hi h1 h2 h3
    by_cases hlt : ctx.MB_Idx < limit
    · rw [ISHAPadMessage_zeros, if_pos hlt]
      cases suf with
      | nil => simp at h3; omega
      | cons y suf =>
        have hset : ctx.MBlock.set ctx.MB_Idx 0 = (pre ++ [0]) ++ suf := by
          rw [hb, hi, set_after]; simp
        rw [ih _ (pre ++ [0]) suf hset (by simp [hi]) (by simp; omega) (by simp; omega)
          (by simp at h3 ⊢; omega)]
        have e : limit - pre.length = (limit - (pre ++ [0]).length) + 1 := by simp; omega
        rw [e, List.replicate_succ]
        simp
    · have : limit = pre.length := by omega
      subst this
      rw [ISHAPadMessage_zeros, if_neg hlt]
      cases ctx
      simp_all

theorem BE32_length (w : Nat) : (BE32 w).length = 4 := rfl

theorem serialize_length (st : Words5) : (serialize st).length = 20 := rfl

theorem result_stores (out : List Nat) (st : Words5) (h : 20 ≤ out.length) :
    store32 (store32 (store32 (store32 (store32 out 0 (bswap32 st.v0)) 4 (bswap32 st.v1)) 8
      (bswap32 st.v2)) 12 (bswap32 st.v3)) 16 (bswap32 st.v4)
      = serialize st ++ out.drop 20 := by
  have s0 := store32_after [] out st.v0 (by omega)
  have s1 := store32_after (BE32 st.v0) (out.drop 4) st.v1 (by simp; omega)
  have s2 := store32_after (BE32 st.v0 ++ BE32 st.v1) (out.drop 8) st.v2 (by simp; omega)
  have s3 := store32_after (BE32 st.v0 ++ BE32 st.v1 ++ BE32 st.v2) (out.drop 12) st.v3
    (by simp; omega)
  have s4 := store32_after (BE32 st.v0 ++ BE32 st.v1 ++ BE32 st.v2 ++ BE32 st.v3)
    (out.drop 16) st.v4 (by simp; omega)
  simp only [List.nil_append, List.length_nil, List.length_append, BE32_length,
    List.drop_drop] at s0 s1 s2 s3 s4
  norm_num at s0 s1 s2 s3 s4
  rw [s0, s1, s2, s3, s4]
  simp [serialize]

theorem compress_eq (ctx : ISHAContext) :
    (ISHAProcessMessageBlock ctx).MD = compress ctx.MD ctx.MBlock := rfl

theorem ISHAPadMessage_eq (ctx : ISHAContext) :
    ISHAPadMessage ctx
      = padFinish
          (if ctx.MB_Idx + 1 > 55 then
            ISHAProcessMessageBlock (ISHAPadMessage_zeros 64 64
              { ctx with MBlock := ctx.MBlock.set ctx.MB_Idx 0x80, MB_Idx := ctx.MB_Idx + 1 })
           else
              { ctx with MBlock := ctx.MBlock.set ctx.MB_Idx 0x80, MB_Idx := ctx.MB_Idx + 1 }) :=
  rfl

theorem padFinish_MD (ctx : ISHAContext) (pre suf : List Nat) (hb : ctx.MBlock = pre ++ suf)
    (hi : ctx.MB_Idx = pre.length) (h56 : pre.length ≤ 56) (h64 : pre.length + suf.length = 64) :
    (padFinish ctx).MD
      = compress ctx.MD (pre ++ List.replicate (56 - pre.length) 0
          ++ BE32 ctx.Length_High ++ BE32 ctx.Length_Low) := by
  unfold padFinish
  simp only [compress_eq]
  rw [zeros_after 56 56 ctx pre suf hb hi h56 (by omega) (by omega)]
  simp only
  have hl1 : (pre ++ List.replicate (56 - pre.length) 0).length = 56 := by simp; omega
  have st1 := store32_after (pre ++ List.replicate (56 - pre.length) 0)
    (suf.drop (56 - pre.length)) ctx.Length_High (by simp; omega)
  rw [hl1] at st1
  rw [st1]
  have hl2 : (pre ++ List.replicate (56 - pre.length) 0 ++ BE32 ctx.Length_High).length = 60 := by
    simp [BE32_length]; omega
  have st2 := store32_after (pre ++ List.replicate (56 - pre.length) 0 ++ BE32 ctx.Length_High)
    ((suf.drop (56 - pre.length)).drop 4) ctx.Length_Low (by simp; omega)
  rw [hl2] at st2
  rw [st2]
  have hnil : ((suf.drop (56 - pre.length)).drop 4).drop 4 = [] := by
    apply List.drop_of_length_le; simp; omega
  rw [hnil, List.append_nil]

theorem blocks64_one (blk : List Nat) (h : blk.length = 64) : blocks64 1 blk = [blk] := by
  simp [blocks64, List.take_of_length_le (le_of_eq h)]

theorem blocks64_cons (k : Nat) (blk rest : List Nat) (h : blk.length = 64) :
    blocks64 (k + 1) (blk ++ rest) = blk :: blocks64 k rest := by
  rw [blocks64, List.take_left' h, List.drop_left' h]

theorem paddedFrom_length (n : Nat) (m : List Nat) :
    (paddedFrom n m).length = m.length + 1 + padZeros m.length + 8 := by
  simp [paddedFrom, BE32_length]; omega

theorem ISHAPadMessage_MD (ctx : ISHAContext) (m suf : List Nat) (hb : ctx.MBlock = m ++ suf)
    (hi : ctx.MB_Idx = m.length) (h64 : m.length + suf.length = 64) (hr : m.length < 64) :
    (ISHAPadMessage ctx).MD
      = (blocks64 ((m.length + 1 + padZeros m.length + 8) / 64)
          (m ++ [0x80] ++ List.replicate (padZeros m.length) 0
            ++ BE32 ctx.Length_High ++ BE32 ctx.Length_Low)).foldl compress ctx.MD := by
  obtain ⟨y, suf1, rfl⟩ : ∃ y suf1, suf = y :: suf1 := by
    cases suf with
    | nil => simp at h64; omega
    | cons y suf1 => exact ⟨y, suf1, rfl⟩
  have hlen1 : suf1.length = 63 - m.length := by simp at h64; omega
  have hset : ctx.MBlock.set ctx.MB_Idx 0x80 = (m ++ [0x80]) ++ suf1 := by
    rw [hb, hi, set_after]; simp
  rw [ISHAPadMessage_eq, hset, hi]
  by_cases hcase : m.length + 1 > 55
  · -- the padding needs a second block
    rw [if_pos hcase]
    have hz : padZeros m.length = (63 - m.length) + 56 := by
      unfold padZeros; rw [Nat.mod_eq_of_lt hr, if_neg (by omega)]; omega
    rw [zeros_after 64 64 _ (m ++ [0x80]) suf1 rfl (by simp) (by simp; omega)
      (by simp; omega) (by simp; omega)]
    have hd : suf1.drop (64 - (m ++ [0x80]).length) = [] := by
      apply List.drop_of_length_le; simp; omega
    have hrep : 64 - (m ++ [0x80]).length = 63 - m.length := by simp
    rw [hd, hrep, List.append_nil]
    have hb1len : (m ++ [0x80] ++ List.replicate (63 - m.length) 0).length = 64 := by
      simp; omega
    rw [padFinish_MD _ [] (m ++ [0x80] ++ List.replicate (63 - m.length) 0) rfl rfl
      (by simp) (by simpa using hb1len)]
    have hk : (m.length + 1 + (63 - m.length + 56) + 8) / 64 = 2 := by omega
    rw [hz, hk, List.replicate_add]
    have hsplit : m ++ [0x80] ++ (List.replicate (63 - m.length) 0 ++ List.replicate 56 0)
          ++ BE32 ctx.Length_High ++ BE32 ctx.Length_Low
        = (m ++ [0x80] ++ List.replicate (63 - m.length) 0)
          ++ (List.replicate 56 0 ++ BE32 ctx.Length_High ++ BE32 ctx.Length_Low) := by
      simp
    rw [hsplit, blocks64_cons 1 _ _ hb1len, blocks64_one _ (by simp [BE32_length])]
    rfl
  · -- the padding fits in the current block
    rw [if_neg hcase]
    have hz : padZeros m.length = 55 - m.length := by
      unfold padZeros; rw [Nat.mod_eq_of_lt hr, if_pos (by omega)]
    rw [padFinish_MD _ (m ++ [0x80]) suf1 rfl (by simp) (by simp; omega) (by simp; omega)]
    have hk : (m.length + 1 + (55 - m.length) + 8) / 64 = 1 := by omega
    have hrep : 56 - (m ++ [0x80]).length = 55 - m.length := by simp
    rw [hz, hk, hrep, blocks64_one _ (by simp [BE32_length]; omega)]
    rfl

theorem padZeros_drop (m : List Nat) (h : 64 ≤ m.length) :
    padZeros (m.drop 64).length = padZeros m.length := by
  unfold padZeros
  rw [List.length_drop]
  have : (m.length - 64) % 64 = m.length % 64 := by omega
  rw [this]

theorem paddedFrom_split (n : Nat) (m : List Nat) (h : 64 ≤ m.length) :
    paddedFrom n m = m.take 64 ++ paddedFrom (n + 512) (m.drop 64) := by
  unfold paddedFrom
  rw [padZeros_drop m h]
  have e : n + 512 + 8 * (m.drop 64).length = n + 8 * m.length := by
    rw [List.length_drop]; omega
  rw [e]
  simp only [← List.append_assoc, List.take_append_drop]

theorem absorb_pad_MD (k : Nat) :
    ∀ (ctx : ISHAContext) (m : List Nat) (n : Nat), m.length ≤ k →
      ctx.MB_Idx = 0 → ctx.Computed = false → ctx.Corrupted = false →
      ctx.MBlock.length = 64 →
      ctx.Length_Low = n % 2 ^ 32 → ctx.Length_High = n / 2 ^ 32 → n % 512 = 0 →
      n + 8 * m.length < 2 ^ 64 →
      (ISHAInput ctx m).Computed = false ∧ (ISHAInput ctx m).Corrupted = false ∧
      (ISHAPadMessage (ISHAInput ctx m)).MD
        = (blocks64 ((paddedFrom n m).length / 64) (paddedFrom n m)).foldl compress ctx.MD := by
  induction k with
  | zero =>
    intro ctx m n hk hi hC hK hlen hlo hhi hn hbound
    have : m = [] := List.length_eq_zero.mp (by omega)
    subst this
    rw [ISHAInput_nil]
    refine ⟨hC, hK, ?_⟩
    rw [ISHAPadMessage_MD ctx [] ctx.MBlock rfl (by simpa using hi) (by simpa using hlen)
      (by simp), paddedFrom_length]
    simp only [paddedFrom, hlo, hhi, List.length_nil, Nat.mul_zero, Nat.add_zero]
  | succ k ih =>
    intro ctx m n hk hi hC hK hlen hlo hhi hn hbound
    have hA : Aligned ctx := by
      refine ⟨by omega, ?_, ?_⟩
      · rw [hlo]; exact Nat.mod_lt _ (by norm_num)
      · rw [hlo, hi]; omega
    by_cases hm : m.length = 0
    · have : m = [] := List.length_eq_zero.mp hm
      subst this
      rw [ISHAInput_nil]
      refine ⟨hC, hK, ?_⟩
      rw [ISHAPadMessage_MD ctx [] ctx.MBlock rfl (by simpa using hi) (by simpa using hlen)
        (by simp), paddedFrom_length]
      simp only [paddedFrom, hlo, hhi, List.length_nil, Nat.mul_zero, Nat.add_zero]
    by_cases hfit : m.length < 64
    · -- the whole message stays in the block
      rw [ISHAInput_fits ctx m hC hK hA (by omega) (by rw [hi]; omega)]
      refine ⟨hC, hK, ?_⟩
      have hcopy : ISHAInput_copy ctx.MBlock ctx.MB_Idx m = m ++ ctx.MBlock.drop m.length := by
        have := copy_after m [] ctx.MBlock (by omega)
        simpa [hi] using this
      rw [ISHAPadMessage_MD _ m (ctx.MBlock.drop m.length) hcopy (by simp [hi])
        (by rw [List.length_drop]; omega) hfit, paddedFrom_length]
      have e1 : ctx.Length_High = (n + 8 * m.length) / 2 ^ 32 := by rw [hhi]; omega
      have e2 : ctx.Length_Low + 8 * m.length = (n + 8 * m.length) % 2 ^ 32 := by
        rw [hlo]; omega
      simp only [paddedFrom, e1, e2]
    · -- the first 64 bytes are a block of their own
      have h64 : 64 ≤ m.length := by omega
      rw [ISHAInput_full ctx m hC hK hA (by rw [hi]; omega), hi]
      have hcopy : ISHAInput_copy ctx.MBlock ctx.MB_Idx (m.take (64 - ctx.MB_Idx)) = m.take 64 := by
        have := copy_after (m.take 64) [] ctx.MBlock (by simp; omega)
        rw [hi]
        simp only [List.nil_append, List.length_nil] at this
        rw [this, List.drop_of_length_le (by simp; omega), List.append_nil]
      have hnc : ¬ (ctx.Length_Low + 8 * (64 - ctx.MB_Idx) = 2 ^ 32 ∧
          (ctx.Length_High + 1) % 2 ^ 32 = 0) := by
        rw [hlo, hhi, hi]; omega
      have ih1 := ih (ISHAProcessMessageBlock (fullBlock ctx m)) (m.drop 64) (n + 512)
        (by rw [List.length_drop]; omega) rfl hC
        (by
          show (if ctx.Length_Low + 8 * (64 - ctx.MB_Idx) = 2 ^ 32
            then (if (ctx.Length_High + 1) % 2 ^ 32 = 0 then true else ctx.Corrupted)
            else ctx.Corrupted) = false
          split_ifs with h1 h2
          · exact absurd ⟨h1, h2⟩ hnc
          · exact hK
          · exact hK)
        (by
          show (ISHAInput_copy ctx.MBlock ctx.MB_Idx (m.take (64 - ctx.MB_Idx))).length = 64
          rw [hcopy]; simp; omega)
        (by
          show (ctx.Length_Low + 8 * (64 - ctx.MB_Idx)) % 2 ^ 32 = (n + 512) % 2 ^ 32
          rw [hlo, hi]; omega)
        (by
          show (if ctx.Length_Low + 8 * (64 - ctx.MB_Idx) = 2 ^ 32
            then (ctx.Length_High + 1) % 2 ^ 32 else ctx.Length_High) = (n + 512) / 2 ^ 32
          rw [hlo, hhi, hi]
          split_ifs with h1 <;> omega)
        (by omega)
        (by rw [List.length_drop]; omega)
      refine ⟨ih1.1, ih1.2.1, ?_⟩
      rw [ih1.2.2, paddedFrom_split n m h64]
      have hMD : (ISHAProcessMessageBlock (fullBlock ctx m)).MD
          = compress ctx.MD (m.take 64) := by
        rw [compress_eq]
        show compress ctx.MD (ISHAInput_copy ctx.MBlock ctx.MB_Idx (m.take (64 - ctx.MB_Idx))) = _
        rw [hcopy]
      have htl : (m.take 64).length = 64 := by simp; omega
      have hk1 : (m.take 64 ++ paddedFrom (n + 512) (m.drop 64)).length / 64
          = (paddedFrom (n + 512) (m.drop 64)).length / 64 + 1 := by
        rw [List.length_append, htl]; omega
      rw [hk1, blocks64_cons _ _ _ htl, List.foldl_cons, hMD]

/-! ## The digest of a message absorbed from the reset condition -/

theorem padded_eq_paddedFrom (m : List Nat) : padded m = paddedFrom 0 m := by
  simp [padded, paddedFrom]

theorem refDigest_length (state : Words5) (m : List Nat) : (refDigest state m).length = 20 :=
  rfl

theorem ISHAResult_absorb (ctx : ISHAContext) (m out : List Nat) (hi : ctx.MB_Idx = 0)
    (hlo : ctx.Length_Low = 0) (hhi : ctx.Length_High = 0) (hC : ctx.Computed = false)
    (hK : ctx.Corrupted = false) (hblk : ctx.MBlock.length = 64)
    (hL : 8 * m.length < 2 ^ 64) (hout : 20 ≤ out.length) :
    (ISHAResult (ISHAInput ctx m) out).2 = refDigest ctx.MD m ++ out.drop 20 := by
  obtain ⟨h1, h2, h3⟩ := absorb_pad_MD m.length ctx m 0 (le_refl _) hi hC hK hblk
    (by rw [hlo]; rfl) (by rw [hhi]; rfl) rfl (by omega)
  unfold ISHAResult
  rw [if_neg (by simp [h2])]
  simp only [h1, Bool.not_false, if_true]
  rw [result_stores _ _ hout, h3, refDigest, padded_eq_paddedFrom]

theorem Digest_eq_refDigest (iv : Words5) (x : List Nat) (hx : 8 * x.length < 2 ^ 64) :
    Digest iv x = refDigest iv x := by
  unfold Digest
  rw [ISHAResult_absorb (ISHAReset iv zeroContext) x (List.replicate 20 0) rfl rfl rfl rfl rfl
    (by simp [ISHAReset, zeroContext]) hx (by simp)]
  simp [ISHAReset]

/-! ## The length of the block is kept -/

theorem copy_length (src : List Nat) :
    ∀ (blk : List Nat) (pos : Nat), (ISHAInput_copy blk pos src).length = blk.length := by
  induction src with
  | nil => intro blk pos; rfl
  | cons b src ih => intro blk pos; rw [ISHAInput_copy, ih, List.length_set]

theorem body_block_length (ctx : ISHAContext) (msg : List Nat) :
    (ISHAInput_body ctx msg).1.MBlock.length = ctx.MBlock.length := by
  unfold ISHAInput_body
  simp only
  split_ifs <;> simp [ISHAProcessMessageBlock, copy_length]

theorem loop_block_length (fuel : Nat) :
    ∀ (ctx : ISHAContext) (msg : List Nat),
      (ISHAInput_loop fuel ctx msg).1.MBlock.length = ctx.MBlock.length := by
  induction fuel with
  | zero => intro ctx msg; rfl
  | succ k ih =>
    intro ctx msg
    rw [ISHAInput_loop]
    split_ifs
    · rw [ih, body_block_length]
    · rfl

theorem ISHAInput_block_length (ctx : ISHAContext) (msg : List Nat) :
    (ISHAInput ctx msg).MBlock.length = ctx.MBlock.length := by
  unfold ISHAInput
  split_ifs
  · rfl
  · rfl
  · exact loop_block_length _ _ _

theorem store32_length (mem : List Nat) (off v : Nat) :
    (store32 mem off v).length = mem.length := by
  simp [store32]

theorem zeros_frame (limit fuel : Nat) :
    ∀ (ctx : ISHAContext),
      (ISHAPadMessage_zeros limit fuel ctx).MBlock.length = ctx.MBlock.length
      ∧ (ISHAPadMessage_zeros limit fuel ctx).Corrupted = ctx.Corrupted := by
  induction fuel with
  | zero => intro ctx; exact ⟨rfl, rfl⟩
  | succ k ih =>
    intro ctx
    rw [ISHAPadMessage_zeros]
    split_ifs
    · obtain ⟨h1, h2⟩ := ih { ctx with MBlock := ctx.MBlock.set ctx.MB_Idx 0,
                                       MB_Idx := ctx.MB_Idx + 1 }
      exact ⟨by rw [h1, List.length_set], h2⟩
    · exact ⟨rfl, rfl⟩

theorem process_MBlock (ctx : ISHAContext) :
    (ISHAProcessMessageBlock ctx).MBlock = ctx.MBlock := rfl

theorem process_Corrupted (ctx : ISHAContext) :
    (ISHAProcessMessageBlock ctx).Corrupted = ctx.Corrupted := rfl

theorem padFinish_frame (ctx : ISHAContext) :
    (padFinish ctx).MBlock.length = ctx.MBlock.length
    ∧ (padFinish ctx).Corrupted = ctx.Corrupted := by
  unfold padFinish
  simp only [process_MBlock, process_Corrupted, store32_length]
  exact zeros_frame 56 56 ctx

theorem ISHAPadMessage_frame (ctx : ISHAContext) :
    (ISHAPadMessage ctx).MBlock.length = ctx.MBlock.length
    ∧ (ISHAPadMessage ctx).Corrupted = ctx.Corrupted := by
  rw [ISHAPadMessage_eq]
  split_ifs
  · rw [(padFinish_frame _).1, (padFinish_frame _).2, process_MBlock, process_Corrupted,
      (zeros_frame 64 64 _).1, (zeros_frame 64 64 _).2]
    exact ⟨List.length_set _ _ _, rfl⟩
  · rw [(padFinish_frame _).1, (padFinish_frame _).2]
    exact ⟨List.length_set _ _ _, rfl⟩

theorem ISHAResult_block_length (ctx : ISHAContext) (out : List Nat) :
    (ISHAResult ctx out).1.MBlock.length = ctx.MBlock.length := by
  unfold ISHAResult
  split_ifs
  · rfl
  · exact (ISHAPadMessage_frame ctx).1
  · rfl

/-! ## The key derivation -/

theorem T_eq_refDigest (iv : Words5) (p s : List Nat)
    (hps : 8 * (p.length + s.length) < 2 ^ 64) :
    ∀ i : Nat, (T iv p s i).length = 20 ∧
      T iv p s (i + 1) = refDigest iv (T iv p s i) := by
  intro i
  induction i with
  | zero =>
    have h0 : T iv p s 0 = refDigest iv (p ++ s) := by
      show Digest iv (p ++ s) = _
      rw [Digest_eq_refDigest iv _ (by rw [List.length_append]; exact hps)]
    have hl : (T iv p s 0).length = 20 := by rw [h0, refDigest_length]
    refine ⟨hl, ?_⟩
    show Digest iv (T iv p s 0) = _
    rw [Digest_eq_refDigest iv _ (by rw [hl]; norm_num)]
  | succ j ih =>
    have hl : (T iv p s (j + 1)).length = 20 := by rw [ih.2, refDigest_length]
    refine ⟨hl, ?_⟩
    show Digest iv (T iv p s (j + 1)) = _
    rw [Digest_eq_refDigest iv _ (by rw [hl]; norm_num)]

theorem pbkdf1_loop_dk (iv : Words5) (p s : List Nat) (c : Nat) (hc : c < 2 ^ 32)
    (hps : 8 * (p.length + s.length) < 2 ^ 64) (fuel : Nat) :
    ∀ (i : Nat) (ctx : ISHAContext) (dk : List Nat) (calls : List ISHACall),
      1 ≤ i → i ≤ c → c - i ≤ fuel → ctx.MBlock.length = 64 → 20 ≤ dk.length →
      dk.take 20 = T iv p s (i - 1) →
      (pbkdf1_loop iv c fuel i ctx dk calls).2.1 = T iv p s (c - 1) ++ dk.drop 20 := by
  induction fuel with
  | zero =>
    intro i ctx dk calls h1 h2 h3 _ _ hT
    have : i = c := by omega
    subst this
    rw [pbkdf1_loop, ← hT, List.take_append_drop]
  | succ k ih =>
    intro i ctx dk calls h1 h2 h3 hblk hdk hT
    rw [pbkdf1_loop]
    by_cases hlt : i < c
    · rw [if_pos hlt]
      simp only [ISHA_DIGESTLEN]
      have hTl := (T_eq_refDigest iv p s hps (i - 1)).1
      have hstep : (ISHAResult (ISHAInput (ISHAReset iv ctx) (dk.take 20)) dk).2
          = T iv p s i ++ dk.drop 20 := by
        rw [ISHAResult_absorb (ISHAReset iv ctx) (dk.take 20) dk rfl rfl rfl rfl rfl hblk
          (by rw [hT, hTl]; norm_num) hdk, hT]
        have e := (T_eq_refDigest iv p s hps (i - 1)).2
        have hi1 : i - 1 + 1 = i := by omega
        rw [hi1] at e
        rw [e]
        rfl
      have hnext : (i + 1) % 2 ^ 32 = i + 1 := Nat.mod_eq_of_lt (by omega)
      have hTi := (T_eq_refDigest iv p s hps i).1
      rw [hnext, ih (i + 1) _ _ _ (by omega) (by omega) (by omega)
        (by rw [ISHAResult_block_length, ISHAInput_block_length]; exact hblk)
        (by rw [hstep, List.length_append, hTi]; omega)
        (by rw [hstep, List.take_left' hTi]; rfl), hstep, List.drop_left' hTi]
    · rw [if_neg hlt]
      have : i = c := by omega
      subst this
      rw [← hT, List.take_append_drop]

theorem reset_Aligned (iv : Words5) (ctx : ISHAContext) : Aligned (ISHAReset iv ctx) :=
  ⟨by show (0 : Nat) < 64; norm_num, by show (0 : Nat) < 2 ^ 32; norm_num, rfl⟩

theorem pbkdf1_dk (iv : Words5) (hashContext : ISHAContext) (p s : List Nat) (c : Nat)
    (dk : List Nat) (dkLen : Nat) (hctx : hashContext.MBlock.length = 64)
    (hdk : 20 ≤ dk.length) (hc1 : 1 ≤ c) (hc2 : c < 2 ^ 32) (hlen : dkLen ≤ 20)
    (hps : 8 * (p.length + s.length) < 2 ^ 64) :
    (pbkdf1 iv hashContext (some p) (some s) c (some dk) dkLen).err = error_t.NO_ERROR
    ∧ (pbkdf1 iv hashContext (some p) (some s) c (some dk) dkLen).dk
        = some (T iv p s (c - 1) ++ dk.drop 20) := by
  unfold pbkdf1
  simp only [ISHA_DIGESTLEN]
  rw [if_neg (by omega), if_neg (by omega)]
  refine ⟨rfl, ?_⟩
  simp only
  rw [ISHAInput_append p.length (ISHAReset iv hashContext) p s (le_refl _) rfl
    (reset_Aligned iv hashContext)]
  have hT0 : T iv p s 0 = refDigest iv (p ++ s) := by
    show Digest iv (p ++ s) = _
    rw [Digest_eq_refDigest iv _ (by rw [List.length_append]; exact hps)]
  have hstep : (ISHAResult (ISHAInput (ISHAReset iv hashContext) (p ++ s)) dk).2
      = T iv p s 0 ++ dk.drop 20 := by
    rw [ISHAResult_absorb (ISHAReset iv hashContext) (p ++ s) dk rfl rfl rfl rfl rfl hctx
      (by rw [List.length_append]; exact hps) hdk, hT0]
    rfl
  have hTl := (T_eq_refDigest iv p s hps 0).1
  rw [pbkdf1_loop_dk iv p s c hc2 hps c 1 _ _ _ (le_refl _) hc1 (by omega)
    (by rw [ISHAResult_block_length, ISHAInput_block_length]; exact hctx)
    (by rw [hstep, List.length_append, hTl]; omega)
    (by rw [hstep, List.take_left' hTl]), hstep, List.drop_left' hTl]

/-! ## Sequences of calls -/

theorem foldl_ISHAInput (chunks : List (List Nat)) :
    ∀ ctx : ISHAContext, ctx.Computed = false → Aligned ctx →
      chunks.foldl ISHAInput ctx = ISHAInput ctx chunks.flatten := by
  induction chunks with
  | nil => intro ctx _ _; rw [List.foldl_nil, List.flatten_nil, ISHAInput_nil]
  | cons a rest ih =>
    intro ctx hC hA
    obtain ⟨hC1, hA1⟩ := ISHAInput_keeps a.length ctx a (le_refl _) hC hA
    rw [List.foldl_cons, ih _ hC1 hA1, List.flatten_cons,
      ISHAInput_append a.length ctx a rest.flatten (le_refl _) hC hA]

theorem blocks64_flatten (k : Nat) :
    ∀ l : List Nat, (blocks64 k l).flatten = l.take (64 * k) := by
  induction k with
  | zero => intro l; simp [blocks64]
  | succ j ih =>
    intro l
    rw [blocks64, List.flatten_cons, ih]
    have e : 64 * (j + 1) = 64 + 64 * j := by omega
    rw [e, List.take_add]

theorem padded_length (m : List Nat) : (padded m).length = 64 * (m.length / 64 + 1)
    + (if m.length % 64 ≤ 54 then 0 else 64) := by
  rw [padded_eq_paddedFrom, paddedFrom_length]
  unfold padZeros
  split_ifs <;> omega

theorem BE32_halves (n : Nat) : BE32 (n / 2 ^ 32) ++ BE32 (n % 2 ^ 32) = BE64 n := by
  unfold BE32 BE64
  simp only [List.cons_append, List.nil_append]
  norm_num
  refine ⟨?_, ?_, ?_, ?_, ?_, ?_⟩ <;> omega

theorem padded_last8 (m : List Nat) :
    (padded m).drop ((padded m).length - 8) = BE64 (8 * m.length) := by
  rw [← BE32_halves]
  have h : padded m = (m ++ [0x80] ++ List.replicate (padZeros m.length) 0)
      ++ (BE32 (8 * m.length / 2 ^ 32) ++ BE32 (8 * m.length % 2 ^ 32)) := by
    simp [padded]
  have hl : (padded m).length - 8
      = (m ++ [0x80] ++ List.replicate (padZeros m.length) 0).length := by
    rw [h]; simp [BE32_length]; omega
  rw [hl]
  conv_lhs => rw [h]
  rw [List.drop_left]

theorem ISHAResult_twice (ctx : ISHAContext) (out out2 : List Nat)
    (hK : ctx.Corrupted = false) (h1 : 20 ≤ out.length) (h2 : 20 ≤ out2.length) :
    (ISHAResult (ISHAResult ctx out).1 out2).2.take 20 = (ISHAResult ctx out).2.take 20
    ∧ (ISHAResult (ISHAResult ctx out).1 out2).1 = (ISHAResult ctx out).1 := by
  have key : ∀ c : ISHAContext, c.Corrupted = false → c.Computed = true → ∀ o : List Nat,
      20 ≤ o.length → ISHAResult c o = (c, serialize c.MD ++ o.drop 20) := by
    intro c hc1 hc2 o ho
    unfold ISHAResult
    rw [if_neg (by simp [hc1])]
    simp only [hc2, Bool.not_true, Bool.false_eq_true, if_false]
    rw [result_stores _ _ ho]
  have first : ∃ c : ISHAContext, c.Corrupted = false ∧ c.Computed = true
      ∧ ISHAResult ctx out = (c, serialize c.MD ++ out.drop 20) := by
    by_cases hC : ctx.Computed = true
    · exact ⟨ctx, hK, hC, key ctx hK hC out h1⟩
    · have hC : ctx.Computed = false := by simpa using hC
      refine ⟨{ ISHAPadMessage ctx with Computed := true }, ?_, rfl, ?_⟩
      · show (ISHAPadMessage ctx).Corrupted = false
        rw [(ISHAPadMessage_frame ctx).2, hK]
      · unfold ISHAResult
        rw [if_neg (by simp [hK])]
        simp only [hC, Bool.not_false, if_true]
        rw [result_stores _ _ h1]
  obtain ⟨c, hc1, hc2, hfirst⟩ := first
  rw [hfirst]
  simp only
  rw [key c hc1 hc2 out2 h2]
  simp only
  rw [List.take_left' (serialize_length _), List.take_left' (serialize_length _)]
  exact ⟨rfl, trivial⟩

/-! # The claims -/

/-- C1. Chunking invariance: from a freshly reset context, absorbing the chunks of a
message with one `ISHAInput` call per chunk, in order, and then calling `ISHAResult`
leaves the same digest bytes, and the same context, as absorbing the concatenation of the
chunks with a single `ISHAInput` call and then calling `ISHAResult`.  It holds for every
list of chunks, empty chunks included, and for every length of the message. -/
theorem chunking_invariance (iv : Words5) (ctx : ISHAContext) (chunks : List (List Nat))
    (digest_out : List Nat) :
    ISHAResult (chunks.foldl ISHAInput (ISHAReset iv ctx)) digest_out
      = ISHAResult (ISHAInput (ISHAReset iv ctx) chunks.flatten) digest_out := by
  rw [foldl_ISHAInput chunks (ISHAReset iv ctx) rfl (reset_Aligned iv ctx)]

/-- C2. Digest equals the padded-fold reference: for a message `m` of `L` bytes with
`8 * L < 2 ^ 64` absorbed into a context in the reset condition with state words `S`,
`ISHAResult` writes the big-endian serialisation of the compression function folded, from
`S`, over the consecutive 64-byte blocks of the padded message `P`; the length of `P` is
a multiple of 64, the blocks make up all of `P`, and the last eight bytes of `P` are the
big-endian encoding of `8 * L`. -/
theorem digest_eq_padded_fold (ctx : ISHAContext) (m digest_out : List Nat)
    (hidx : ctx.MB_Idx = 0) (hlo : ctx.Length_Low = 0) (hhi : ctx.Length_High = 0)
    (hC : ctx.Computed = false) (hK : ctx.Corrupted = false)
    (hblk : ctx.MBlock.length = 64) (hL : 8 * m.length < 2 ^ 64)
    (hout : 20 ≤ digest_out.length) :
    (ISHAResult (ISHAInput ctx m) digest_out).2
        = serialize ((blocks64 ((padded m).length / 64) (padded m)).foldl compress ctx.MD)
            ++ digest_out.drop 20
    ∧ (padded m).length % 64 = 0
    ∧ (blocks64 ((padded m).length / 64) (padded m)).flatten = padded m
    ∧ (padded m).drop ((padded m).length - 8) = BE64 (8 * m.length) := by
  have hlen := padded_length m
  have hmod : (padded m).length % 64 = 0 := by
    rw [hlen]; split_ifs <;> omega
  refine ⟨?_, hmod, ?_, padded_last8 m⟩
  · rw [ISHAResult_absorb ctx m digest_out hidx hlo hhi hC hK hblk hL hout]
    rfl
  · rw [blocks64_flatten, List.take_of_length_le (by omega)]

/-- C3. Compression equals the 16-round reference: on a context whose state words are
32-bit values and whose block holds bytes, `ISHAProcessMessageBlock` replaces the state by
the state plus, element-wise modulo `2 ^ 32`, the working words after the sixteen rounds
`temp = rotl5(A) + ((B & C) | (~B & D)) + E + W[t]`,
`(A,B,C,D,E) := (rotl5(temp), rotl10(A), rotl30(B), rotl15(C), rotl25(D))` over the
big-endian words `W[0..15]` of the block, sets `MB_Idx` to 0 and changes nothing else. -/
theorem compression_eq_reference (ctx : ISHAContext) (hMD : ctx.MD.Bounded)
    (hB : Bytes ctx.MBlock) :
    ISHAProcessMessageBlock ctx
      = { ctx with MD := refCompress ctx.MD ctx.MBlock, MB_Idx := 0 } :=
  ISHAProcessMessageBlock_eq_ref ctx hMD hB

/-- C4. KDF composition: with non-null password `p`, salt `s` and output pointer, an
iteration count `1 ≤ c` and `dkLen ≤ 20`, `pbkdf1` returns `NO_ERROR` and the first
`dkLen` bytes at `dk` are the first `dkLen` bytes of `T(c - 1)`, where
`T(0) = Digest(p ++ s)` and `T(i) = Digest(T(i - 1))`; for `c = 1` and `dkLen = 20` they
are `Digest(p ++ s)`. -/
theorem pbkdf1_composition (iv : Words5) (hashContext : ISHAContext) (p s : List Nat)
    (c : Nat) (dk : List Nat) (dkLen : Nat) (hctx : hashContext.MBlock.length = 64)
    (hdk : 20 ≤ dk.length) (hc1 : 1 ≤ c) (hc2 : c < 2 ^ 32) (hlen : dkLen ≤ 20)
    (hps : 8 * (p.length + s.length) < 2 ^ 64) :
    (pbkdf1 iv hashContext (some p) (some s) c (some dk) dkLen).err = error_t.NO_ERROR
    ∧ (pbkdf1 iv hashContext (some p) (some s) c (some dk) dkLen).dk.map (List.take dkLen)
        = some ((T iv p s (c - 1)).take dkLen)
    ∧ (c = 1 → dkLen = 20 →
        (pbkdf1 iv hashContext (some p) (some s) c (some dk) dkLen).dk.map (List.take 20)
          = some (Digest iv (p ++ s))) := by
  obtain ⟨h1, h2⟩ := pbkdf1_dk iv hashContext p s c dk dkLen hctx hdk hc1 hc2 hlen hps
  have hTl := (T_eq_refDigest iv p s hps (c - 1)).1
  refine ⟨h1, ?_, ?_⟩
  · rw [h2, Option.map_some', List.take_append_of_le_length (by omega)]
  · intro hc hd
    subst hc
    rw [h2, Option.map_some', List.take_left' hTl]
    rfl

/-- C5. KDF validation codes: `pbkdf1` returns `ERROR_INVALID_PARAMETER` exactly when the
password, the salt or the output pointer is null or the iteration count is 0; otherwise
it returns `ERROR_INVALID_LENGTH` exactly when `dkLen > 20`; otherwise `NO_ERROR`. -/
theorem pbkdf1_validation_codes (iv : Words5) (hashContext : ISHAContext)
    (p s : Option (List Nat)) (c : Nat) (dk : Option (List Nat)) (dkLen : Nat) :
    (pbkdf1 iv hashContext p s c dk dkLen).err
      = if p = none ∨ s = none ∨ dk = none ∨ c = 0 then error_t.ERROR_INVALID_PARAMETER
        else if dkLen > 20 then error_t.ERROR_INVALID_LENGTH
        else error_t.NO_ERROR := by
  cases p <;> cases s <;> cases dk <;> simp [pbkdf1, ISHA_DIGESTLEN]
  by_cases hc : c = 0
  · simp [hc]
  · simp [hc]
    split_ifs <;> rfl

/-- C6. KDF validation is atomic: when `pbkdf1` returns `ERROR_INVALID_PARAMETER` or
`ERROR_INVALID_LENGTH`, the bytes at `dk` are unchanged and no digest primitive has been
called. -/
theorem pbkdf1_validation_atomic (iv : Words5) (hashContext : ISHAContext)
    (p s : Option (List Nat)) (c : Nat) (dk : Option (List Nat)) (dkLen : Nat)
    (herr : (pbkdf1 iv hashContext p s c dk dkLen).err = error_t.ERROR_INVALID_PARAMETER
      ∨ (pbkdf1 iv hashContext p s c dk dkLen).err = error_t.ERROR_INVALID_LENGTH) :
    (pbkdf1 iv hashContext p s c dk dkLen).dk = dk
    ∧ (pbkdf1 iv hashContext p s c dk dkLen).calls = [] := by
  cases p <;> cases s <;> cases dk <;> try exact ⟨rfl, rfl⟩
  revert herr
  unfold pbkdf1
  simp only
  split_ifs
  · intro _; exact ⟨rfl, rfl⟩
  · intro _; exact ⟨rfl, rfl⟩
  · intro h; simp at h

set_option maxRecDepth 1000000 in
/-- C7, evaluated on a failing input.  With password `"pass"`, salt `"salt"`, one
iteration, `dkLen = 16` and twenty bytes `0xAA` at `dk`, `pbkdf1` returns `NO_ERROR` and
leaves the whole twenty-byte digest at `dk`: the bytes at positions 16 to 19 are no longer
`0xAA`. -/
theorem pbkdf1_writes_twenty_bytes :
    (pbkdf1 sampleIV zeroContext (some [112, 97, 115, 115]) (some [115, 97, 108, 116]) 1
        (some (List.replicate 20 170)) 16).err = error_t.NO_ERROR
    ∧ (pbkdf1 sampleIV zeroContext (some [112, 97, 115, 115]) (some [115, 97, 108, 116]) 1
        (some (List.replicate 20 170)) 16).dk
      = some [89, 158, 51, 222, 64, 131, 56, 108, 194, 108, 181, 243, 169, 143, 185, 229,
          196, 3, 194, 50]
    ∧ (pbkdf1 sampleIV zeroContext (some [112, 97, 115, 115]) (some [115, 97, 108, 116]) 1
        (some (List.replicate 20 170)) 16).dk.map (List.drop 16)
      ≠ some (List.replicate 4 170) := by
  have h : (pbkdf1 sampleIV zeroContext (some [112, 97, 115, 115])
      (some [115, 97, 108, 116]) 1 (some (List.replicate 20 170)) 16).dk
      = some [89, 158, 51, 222, 64, 131, 56, 108, 194, 108, 181, 243, 169, 143, 185, 229,
          196, 3, 194, 50] := by rfl
  refine ⟨rfl, h, ?_⟩
  rw [h]
  decide

/-- C8. Finalize idempotence: on a context that is not corrupted and has `MB_Idx < 64`,
two `ISHAResult` calls in a row write the same twenty bytes, and the second call leaves
the context as the first call left it. -/
theorem finalize_idempotent (ctx : ISHAContext) (digest_out digest_out2 : List Nat)
    (hK : ctx.Corrupted = false) (_hidx : ctx.MB_Idx < 64) (h1 : 20 ≤ digest_out.length)
    (h2 : 20 ≤ digest_out2.length) :
    (ISHAResult (ISHAResult ctx digest_out).1 digest_out2).2.take 20
        = (ISHAResult ctx digest_out).2.take 20
    ∧ (ISHAResult (ISHAResult ctx digest_out).1 digest_out2).1
        = (ISHAResult ctx digest_out).1 :=
  ISHAResult_twice ctx digest_out digest_out2 hK h1 h2

/-- C9. Absorb after finalize corrupts: on a context with `Computed` set, `ISHAInput` with
at least one byte sets `Corrupted` and changes nothing else. -/
theorem absorb_after_finalize (ctx : ISHAContext) (message_array : List Nat)
    (hC : ctx.Computed = true) (hlen : 1 ≤ message_array.length) :
    ISHAInput ctx message_array = { ctx with Corrupted := true } := by
  unfold ISHAInput
  rw [if_neg (by omega), if_pos (Or.inl hC)]

/-- C10. Finalize on a corrupted context is a no-op: with `Corrupted` set, `ISHAResult`
leaves the output buffer and the context unchanged. -/
theorem finalize_corrupted_noop (ctx : ISHAContext) (digest_out : List Nat)
    (hK : ctx.Corrupted = true) : ISHAResult ctx digest_out = (ctx, digest_out) := by
  unfold ISHAResult
  rw [if_pos hK]

/-! # Witnesses -/

theorem digest_eq_padded_fold_witness :
    (ISHAResult (ISHAInput zeroContext [97, 98, 99]) (List.replicate 20 0)).2
        = serialize ((blocks64 ((padded [97, 98, 99]).length / 64)
            (padded [97, 98, 99])).foldl compress zeroContext.MD)
            ++ (List.replicate 20 0).drop 20
    ∧ (padded [97, 98, 99]).length % 64 = 0
    ∧ (blocks64 ((padded [97, 98, 99]).length / 64) (padded [97, 98, 99])).flatten
        = padded [97, 98, 99]
    ∧ (padded [97, 98, 99]).drop ((padded [97, 98, 99]).length - 8)
        = BE64 (8 * [97, 98, 99].length) :=
  digest_eq_padded_fold zeroContext [97, 98, 99] (List.replicate 20 0) rfl rfl rfl rfl rfl
    (by decide) (by decide) (by decide)

theorem compression_eq_reference_witness :
    ({ zeroContext with MD := sampleIV, MBlock := List.replicate 64 97 } : ISHAContext).MD.Bounded
    ∧ Bytes ({ zeroContext with MD := sampleIV, MBlock := List.replicate 64 97 }
        : ISHAContext).MBlock
    ∧ ISHAProcessMessageBlock { zeroContext with MD := sampleIV, MBlock := List.replicate 64 97 }
      = { ({ zeroContext with MD := sampleIV, MBlock := List.replicate 64 97 } : ISHAContext) with
          MD := refCompress sampleIV (List.replicate 64 97), MB_Idx := 0 } :=
  ⟨by decide, by decide,
    compression_eq_reference { zeroContext with MD := sampleIV, MBlock := List.replicate 64 97 }
      (by decide) (by decide)⟩

theorem pbkdf1_composition_witness :
    (pbkdf1 sampleIV zeroContext (some [112, 97, 115, 115]) (some [115, 97, 108, 116]) 2
        (some (List.replicate 20 170)) 16).err = error_t.NO_ERROR
    ∧ (pbkdf1 sampleIV zeroContext (some [112, 97, 115, 115]) (some [115, 97, 108, 116]) 2
        (some (List.replicate 20 170)) 16).dk.map (List.take 16)
        = some ((T sampleIV [112, 97, 115, 115] [115, 97, 108, 116] (2 - 1)).take 16)
    ∧ (2 = 1 → 16 = 20 →
        (pbkdf1 sampleIV zeroContext (some [112, 97, 115, 115]) (some [115, 97, 108, 116]) 2
          (some (List.replicate 20 170)) 16).dk.map (List.take 20)
          = some (Digest sampleIV ([112, 97, 115, 115] ++ [115, 97, 108, 116]))) :=
  pbkdf1_composition sampleIV zeroContext [112, 97, 115, 115] [115, 97, 108, 116] 2
    (List.replicate 20 170) 16 (by decide) (by decide) (by decide) (by decide) (by decide)
    (by decide)

theorem pbkdf1_validation_atomic_witness :
    (pbkdf1 sampleIV zeroContext (some [112]) (some [115]) 0 (some (List.replicate 20 170))
        16).dk = some (List.replicate 20 170)
    ∧ (pbkdf1 sampleIV zeroContext (some [112]) (some [115]) 0 (some (List.replicate 20 170))
        16).calls = [] :=
  pbkdf1_validation_atomic sampleIV zeroContext (some [112]) (some [115]) 0
    (some (List.replicate 20 170)) 16 (Or.inl rfl)

theorem finalize_idempotent_witness :
    (ISHAResult (ISHAResult zeroContext (List.replicate 20 0)).1 (List.replicate 20 1)).2.take 20
        = (ISHAResult zeroContext (List.replicate 20 0)).2.take 20
    ∧ (ISHAResult (ISHAResult zeroContext (List.replicate 20 0)).1 (List.replicate 20 1)).1
        = (ISHAResult zeroContext (List.replicate 20 0)).1 :=
  finalize_idempotent zeroContext (List.replicate 20 0) (List.replicate 20 1) rfl
    (by decide) (by decide) (by decide)

theorem absorb_after_finalize_witness :
    ISHAInput { zeroContext with Computed := true } [1]
      = { zeroContext with Computed := true, Corrupted := true } :=
  absorb_after_finalize { zeroContext with Computed := true } [1] rfl (by decide)

theorem finalize_corrupted_noop_witness :
    ISHAResult { zeroContext with Corrupted := true } (List.replicate 20 170)
      = ({ zeroContext with Corrupted := true }, List.replicate 20 170) :=
  finalize_corrupted_noop { zeroContext with Corrupted := true } (List.replicate 20 170) rfl

/-! ## The bit counter in the absorb loop -/

theorem body_fields (ctx : ISHAContext) (msg : List Nat) :
    (ISHAInput_body ctx msg).1.Length_Low
      = (ctx.Length_Low + 8 * min msg.length (64 - ctx.MB_Idx)) % 2 ^ 32
    ∧ (ISHAInput_body ctx msg).1.Length_High
      = (if (ctx.Length_Low + 8 * min msg.length (64 - ctx.MB_Idx)) % 2 ^ 32
            < 8 * min msg.length (64 - ctx.MB_Idx)
          then (ctx.Length_High + 1) % 2 ^ 32 else ctx.Length_High)
    ∧ (ISHAInput_body ctx msg).1.Corrupted
      = (if (ctx.Length_Low + 8 * min msg.length (64 - ctx.MB_Idx)) % 2 ^ 32
            < 8 * min msg.length (64 - ctx.MB_Idx)
          then (if (ctx.Length_High + 1) % 2 ^ 32 = 0 then true else ctx.Corrupted)
          else ctx.Corrupted)
    ∧ (ISHAInput_body ctx msg).2 = msg.drop (min msg.length (64 - ctx.MB_Idx))
    ∧ (ISHAInput_body ctx msg).1.MB_Idx
      = (if ctx.MB_Idx + min msg.length (64 - ctx.MB_Idx) = 64 then 0
          else ctx.MB_Idx + min msg.length (64 - ctx.MB_Idx)) := by
  have hmin : (if msg.length < 64 - ctx.MB_Idx then msg.length else 64 - ctx.MB_Idx)
      = min msg.length (64 - ctx.MB_Idx) := by
    split_ifs <;> omega
  unfold ISHAInput_body
  simp only [hmin, mod_and_mask]
  refine ⟨?_, ?_, ?_, trivial, ?_⟩ <;> split_ifs <;> rfl

theorem body_counter (ctx : ISHAContext) (msg : List Nat) (hidx : ctx.MB_Idx < 64)
    (hlo : ctx.Length_Low < 2 ^ 32) (hhi : ctx.Length_High < 2 ^ 32)
    (hK : ctx.Corrupted = false) :
    (ISHAInput_body ctx msg).1.Length_Low < 2 ^ 32
    ∧ (ISHAInput_body ctx msg).1.Length_High < 2 ^ 32
    ∧ bitCount (ISHAInput_body ctx msg).1
        = (bitCount ctx + 8 * min msg.length (64 - ctx.MB_Idx)) % 2 ^ 64
    ∧ ((ISHAInput_body ctx msg).1.Corrupted = true
        ↔ 2 ^ 64 ≤ bitCount ctx + 8 * min msg.length (64 - ctx.MB_Idx)) := by
  obtain ⟨h1, h2, h3, _, _⟩ := body_fields ctx msg
  have hk : min msg.length (64 - ctx.MB_Idx) ≤ 64 := by omega
  generalize min msg.length (64 - ctx.MB_Idx) = k at *
  unfold bitCount
  rw [h1, h2, h3, hK]
  by_cases hc : (ctx.Length_Low + 8 * k) % 2 ^ 32 < 8 * k
  · simp only [if_pos hc]
    by_cases hz : (ctx.Length_High + 1) % 2 ^ 32 = 0
    · simp only [if_pos hz]
      refine ⟨by omega, by omega, by omega, ?_⟩
      simp; omega
    · simp only [if_neg hz]
      refine ⟨by omega, by omega, by omega, ?_⟩
      simp; omega
  · simp only [if_neg hc]
    refine ⟨by omega, by omega, by omega, ?_⟩
    simp; omega

theorem ISHAInput_counter (n : Nat) :
    ∀ (ctx : ISHAContext) (msg : List Nat), msg.length ≤ n → ctx.Computed = false →
      ctx.Corrupted = false → ctx.MB_Idx < 64 → ctx.Length_Low < 2 ^ 32 →
      ctx.Length_High < 2 ^ 32 → bitCount ctx + 8 * msg.length < 2 ^ 64 →
      bitCount (ISHAInput ctx msg) = bitCount ctx + 8 * msg.length
      ∧ (ISHAInput ctx msg).Corrupted = false
      ∧ (ISHAInput ctx msg).Length_Low < 2 ^ 32
      ∧ (ISHAInput ctx msg).Length_High < 2 ^ 32 := by
  induction n with
  | zero =>
    intro ctx msg hn _ hK _ hlo hhi _
    have : msg = [] := List.length_eq_zero.mp (by omega)
    subst this
    rw [ISHAInput_nil]
    exact ⟨by simp, hK, hlo, hhi⟩
  | succ j ih =>
    intro ctx msg hn hC hK hidx hlo hhi hb
    by_cases hm : msg.length = 0
    · have : msg = [] := List.length_eq_zero.mp hm
      subst this
      rw [ISHAInput_nil]
      exact ⟨by simp, hK, hlo, hhi⟩
    have hpos : 0 < msg.length := by omega
    rw [ISHAInput_step ctx msg hC hK hidx hpos]
    obtain ⟨b1, b2, b3, b4⟩ := body_counter ctx msg hidx hlo hhi hK
    obtain ⟨_, _, _, f4, _⟩ := body_fields ctx msg
    have hlt := body_length_lt ctx msg hidx hpos
    have hk1 : 1 ≤ min msg.length (64 - ctx.MB_Idx) := by omega
    have hk2 : min msg.length (64 - ctx.MB_Idx) ≤ msg.length := by omega
    have hrest : (ISHAInput_body ctx msg).2.length
        = msg.length - min msg.length (64 - ctx.MB_Idx) := by
      rw [f4, List.length_drop]
    have hK1 : (ISHAInput_body ctx msg).1.Corrupted = false := by
      by_cases h : (ISHAInput_body ctx msg).1.Corrupted = true
      · have := b4.mp h; omega
      · simpa using h
    have hN1 : bitCount (ISHAInput_body ctx msg).1
        = bitCount ctx + 8 * min msg.length (64 - ctx.MB_Idx) := by
      rw [b3]; apply Nat.mod_eq_of_lt; omega
    have hC1 : (ISHAInput_body ctx msg).1.Computed = false := by
      rw [body_computed]; exact hC
    obtain ⟨r1, r2, r3, r4⟩ := ih (ISHAInput_body ctx msg).1 (ISHAInput_body ctx msg).2
      (by omega) hC1 hK1 (body_idx_lt ctx msg hidx) b1 b2 (by rw [hN1, hrest]; omega)
    refine ⟨?_, r2, r3, r4⟩
    rw [r1, hN1, hrest]; omega

theorem loop_idx_lt (fuel : Nat) :
    ∀ (ctx : ISHAContext) (msg : List Nat), ctx.MB_Idx < 64 →
      (ISHAInput_loop fuel ctx msg).1.MB_Idx < 64 := by
  induction fuel with
  | zero => intro ctx msg h; exact h
  | succ k ih =>
    intro ctx msg h
    rw [ISHAInput_loop]
    split_ifs
    · exact ih _ _ (body_idx_lt ctx msg h)
    · exact h

theorem ISHAInput_idx_lt (ctx : ISHAContext) (msg : List Nat) (h : ctx.MB_Idx < 64) :
    (ISHAInput ctx msg).MB_Idx < 64 := by
  unfold ISHAInput
  split_ifs
  · exact h
  · exact h
  · exact loop_idx_lt _ _ _ h

theorem ISHAPadMessage_idx (ctx : ISHAContext) : (ISHAPadMessage ctx).MB_Idx = 0 := by
  rw [ISHAPadMessage_eq]
  rfl

theorem ISHAResult_idx (ctx : ISHAContext) (out : List Nat) :
    (ISHAResult ctx out).1.MB_Idx
      = if ctx.Corrupted = true ∨ ctx.Computed = true then ctx.MB_Idx else 0 := by
  unfold ISHAResult
  by_cases hK : ctx.Corrupted = true
  · rw [if_pos hK, if_pos (Or.inl hK)]
  · rw [if_neg hK]
    by_cases hC : ctx.Computed = true
    · rw [if_pos (Or.inr hC)]
      simp [hC]
    · have hC' : ctx.Computed = false := by simpa using hC
      have hno : ¬ (ctx.Corrupted = true ∨ ctx.Computed = true) := by
        intro h; cases h with
        | inl h => exact hK h
        | inr h => exact hC h
      rw [if_neg hno]
      simp only [hC', Bool.not_false, if_true]
      exact ISHAPadMessage_idx ctx

/-! ## The absorb loop when the counter wraps -/

theorem body_take (ctx : ISHAContext) (msg : List Nat) (c : Nat)
    (hc : min msg.length (64 - ctx.MB_Idx) ≤ c) :
    (ISHAInput_body ctx (msg.take c)).1 = (ISHAInput_body ctx msg).1 := by
  have hk : (if msg.length < 64 - ctx.MB_Idx then msg.length else 64 - ctx.MB_Idx)
      = min msg.length (64 - ctx.MB_Idx) := by
    split_ifs <;> omega
  have hk' : (if (msg.take c).length < 64 - ctx.MB_Idx then (msg.take c).length
      else 64 - ctx.MB_Idx) = min msg.length (64 - ctx.MB_Idx) := by
    rw [List.length_take]
    split_ifs <;> omega
  have htake : (msg.take c).take (min msg.length (64 - ctx.MB_Idx))
      = msg.take (min msg.length (64 - ctx.MB_Idx)) := by
    rw [List.take_take, Nat.min_eq_left hc]
  unfold ISHAInput_body
  simp only [hk, hk', htake]

theorem wrapEnd_here (idx N n : Nat) (hidx : idx < 64) (hN : N < 2 ^ 64)
    (hwrap : 2 ^ 64 ≤ N + 8 * min n (64 - idx)) : wrapEnd idx N n = min n (64 - idx) := by
  unfold wrapEnd wrapBytes
  omega

theorem wrapEnd_later (idx N n : Nat) (hidx : idx < 64)
    (hno : N + 8 * (64 - idx) < 2 ^ 64) (hn : 64 - idx ≤ n) :
    wrapEnd idx N n = (64 - idx) + wrapEnd 0 (N + 8 * (64 - idx)) (n - (64 - idx)) := by
  unfold wrapEnd wrapBytes
  omega

theorem loop_wrap (fuel : Nat) :
    ∀ (ctx : ISHAContext) (msg : List Nat), msg.length ≤ fuel →
      ctx.Corrupted = false → ctx.MB_Idx < 64 → ctx.Length_Low < 2 ^ 32 →
      ctx.Length_High < 2 ^ 32 → 2 ^ 64 ≤ bitCount ctx + 8 * msg.length →
      (ISHAInput_loop fuel ctx msg).1.Corrupted = true
      ∧ (ISHAInput_loop fuel ctx msg).2
          = msg.drop (wrapEnd ctx.MB_Idx (bitCount ctx) msg.length)
      ∧ (ISHAInput_loop fuel ctx msg).1
          = (ISHAInput_loop fuel ctx
              (msg.take (wrapEnd ctx.MB_Idx (bitCount ctx) msg.length))).1 := by
  induction fuel with
  | zero =>
    intro ctx msg hn _ _ hlo hhi hw
    exfalso
    unfold bitCount at hw
    omega
  | succ f ih =>
    intro ctx msg hn hK hidx hlo hhi hw
    have hN : bitCount ctx < 2 ^ 64 := by unfold bitCount; omega
    have hpos : 0 < msg.length := by omega
    obtain ⟨b1, b2, b3, b4⟩ := body_counter ctx msg hidx hlo hhi hK
    obtain ⟨_, _, _, f4, f5⟩ := body_fields ctx msg
    have hlt := body_length_lt ctx msg hidx hpos
    rw [ISHAInput_loop, if_pos ⟨hpos, hK⟩]
    by_cases hhere : 2 ^ 64 ≤ bitCount ctx + 8 * min msg.length (64 - ctx.MB_Idx)
    · -- the counter wraps in this chunk
      have hK1 : (ISHAInput_body ctx msg).1.Corrupted = true := b4.mpr hhere
      have hc := wrapEnd_here ctx.MB_Idx (bitCount ctx) msg.length hidx hN hhere
      have hpos' : 0 < (msg.take (min msg.length (64 - ctx.MB_Idx))).length := by
        rw [List.length_take]; omega
      rw [hc, loop_corrupted _ _ _ hK1, ISHAInput_loop, if_pos ⟨hpos', hK⟩,
        body_take ctx msg _ (le_refl _), loop_corrupted _ _ _ hK1]
      exact ⟨hK1, f4, rfl⟩
    · -- the chunk fills the block and the counter has not wrapped yet
      have hfull : min msg.length (64 - ctx.MB_Idx) = 64 - ctx.MB_Idx := by omega
      rw [hfull] at b3 b4 f4 f5 hhere
      have hno : bitCount ctx + 8 * (64 - ctx.MB_Idx) < 2 ^ 64 := by omega
      have hK1 : (ISHAInput_body ctx msg).1.Corrupted = false := by
        by_cases h : (ISHAInput_body ctx msg).1.Corrupted = true
        · exact absurd (b4.mp h) hhere
        · simpa using h
      have hN1 : bitCount (ISHAInput_body ctx msg).1
          = bitCount ctx + 8 * (64 - ctx.MB_Idx) := by
        rw [b3]; exact Nat.mod_eq_of_lt hno
      have hi1 : (ISHAInput_body ctx msg).1.MB_Idx = 0 := by
        rw [f5, if_pos (by omega)]
      have hrest : (ISHAInput_body ctx msg).2.length = msg.length - (64 - ctx.MB_Idx) := by
        rw [f4, List.length_drop]
      have hc := wrapEnd_later ctx.MB_Idx (bitCount ctx) msg.length hidx hno (by omega)
      obtain ⟨r1, r2, r3⟩ := ih (ISHAInput_body ctx msg).1 (ISHAInput_body ctx msg).2
        (by omega) hK1 (by rw [hi1]; norm_num) b1 b2 (by rw [hN1, hrest]; omega)
      rw [hi1, hN1, hrest] at r2 r3
      have hpos' : 0 < (msg.take (wrapEnd ctx.MB_Idx (bitCount ctx) msg.length)).length := by
        rw [List.length_take, hc]; omega
      have hbody : ISHAInput_body ctx (msg.take (wrapEnd ctx.MB_Idx (bitCount ctx) msg.length))
          = ((ISHAInput_body ctx msg).1,
              (ISHAInput_body ctx msg).2.take
                (wrapEnd 0 (bitCount ctx + 8 * (64 - ctx.MB_Idx))
                  (msg.length - (64 - ctx.MB_Idx)))) := by
        apply Prod.ext
        · exact body_take ctx msg _ (by rw [hc]; omega)
        · have g4 := (body_fields ctx
            (msg.take (wrapEnd ctx.MB_Idx (bitCount ctx) msg.length))).2.2.2.1
          have hm : min (msg.take (wrapEnd ctx.MB_Idx (bitCount ctx) msg.length)).length
              (64 - ctx.MB_Idx) = 64 - ctx.MB_Idx := by
            rw [List.length_take, hc]; omega
          rw [g4, hm, f4, List.drop_take, hc]
          congr 1
          omega
      refine ⟨r1, ?_, ?_⟩
      · rw [r2, f4, List.drop_drop, hc]
      · rw [ISHAInput_loop, if_pos ⟨hpos', hK⟩, hbody]
        exact r3

theorem GetFunctionAddress_ISHAProcessMessageBlock (fa : FunctionAddresses) (s e : Nat) :
    GetFunctionAddress fa "ISHAProcessMessageBlock".toList s e
      = (fa.ISHAProcessMessageBlock, (fa.ISHAProcessMessageBlockEnd + 20) % 2 ^ 32) := by
  have h : cmp_bin "ISHAProcessMessageBlock".toList "ISHAProcessMessageBlock".toList 23 0
      = true := by decide
  unfold GetFunctionAddress
  rw [if_pos h]

theorem GetFunctionAddress_ISHAResult (fa : FunctionAddresses) (s e : Nat) :
    GetFunctionAddress fa "ISHAResult".toList s e
      = (fa.ISHAResult, (fa.ISHAResultEnd + 20) % 2 ^ 32) := by
  have h1 : cmp_bin "ISHAResult".toList "ISHAProcessMessageBlock".toList 23 0 = false := by
    decide
  have h2 : cmp_bin "ISHAResult".toList "ISHAPadMessage".toList 14 0 = false := by decide
  have h3 : cmp_bin "ISHAResult".toList "ISHAReset".toList 9 0 = false := by decide
  have h4 : cmp_bin "ISHAResult".toList "ISHAResult".toList 10 0 = true := by decide
  unfold GetFunctionAddress
  simp only [h1, h2, h3, h4, if_true, Bool.false_eq_true, if_false]

/-! ## The sampler -/

theorem GetFunctionAddress_ISHAPadMessage (fa : FunctionAddresses) (s e : Nat) :
    GetFunctionAddress fa "ISHAPadMessage".toList s e
      = (fa.ISHAPadMessage, (fa.ISHAPadMessageEnd + 20) % 2 ^ 32) := by
  have h1 : cmp_bin "ISHAPadMessage".toList "ISHAProcessMessageBlock".toList 23 0 = false := by
    decide
  have h2 : cmp_bin "ISHAPadMessage".toList "ISHAPadMessage".toList 14 0 = true := by decide
  unfold GetFunctionAddress
  simp only [h1, h2, if_true, Bool.false_eq_true, if_false]

theorem GetFunctionAddress_ISHAReset (fa : FunctionAddresses) (s e : Nat) :
    GetFunctionAddress fa "ISHAReset".toList s e
      = (fa.ISHAReset, (fa.ISHAResetEnd + 20) % 2 ^ 32) := by
  have h1 : cmp_bin "ISHAReset".toList "ISHAProcessMessageBlock".toList 23 0 = false := by
    decide
  have h2 : cmp_bin "ISHAReset".toList "ISHAPadMessage".toList 14 0 = false := by decide
  have h3 : cmp_bin "ISHAReset".toList "ISHAReset".toList 9 0 = true := by decide
  unfold GetFunctionAddress
  simp only [h1, h2, h3, if_true, Bool.false_eq_true, if_false]

theorem GetFunctionAddress_ISHAInput (fa : FunctionAddresses) (s e : Nat) :
    GetFunctionAddress fa "ISHAInput".toList s e
      = (fa.ISHAInput, (fa.ISHAInputEnd + 20) % 2 ^ 32) := by
  have h1 : cmp_bin "ISHAInput".toList "ISHAProcessMessageBlock".toList 23 0 = false := by
    decide
  have h2 : cmp_bin "ISHAInput".toList "ISHAPadMessage".toList 14 0 = false := by decide
  have h3 : cmp_bin "ISHAInput".toList "ISHAReset".toList 9 0 = false := by decide
  have h4 : cmp_bin "ISHAInput".toList "ISHAResult".toList 10 0 = false := by decide
  have h5 : cmp_bin "ISHAInput".toList "ISHAInput".toList 9 0 = true := by decide
  unfold GetFunctionAddress
  simp only [h1, h2, h3, h4, h5, if_true, Bool.false_eq_true, if_false]

theorem firstMatch_cases (fa : FunctionAddresses) (a : Nat) :
    firstMatch fa a
      = if inInterval fa a Primitive.ProcessMessageBlock then some Primitive.ProcessMessageBlock
        else if inInterval fa a Primitive.PadMessage then some Primitive.PadMessage
        else if inInterval fa a Primitive.Reset then some Primitive.Reset
        else if inInterval fa a Primitive.Input then some Primitive.Input
        else if inInterval fa a Primitive.Result then some Primitive.Result
        else none := by
  unfold firstMatch scanOrder
  by_cases h1 : inInterval fa a Primitive.ProcessMessageBlock
  · simp [List.find?, h1]
  by_cases h2 : inInterval fa a Primitive.PadMessage
  · simp [List.find?, h1, h2]
  by_cases h3 : inInterval fa a Primitive.Reset
  · simp [List.find?, h1, h2, h3]
  by_cases h4 : inInterval fa a Primitive.Input
  · simp [List.find?, h1, h2, h3, h4]
  by_cases h5 : inInterval fa a Primitive.Result
  · simp [List.find?, h1, h2, h3, h4, h5]
  · simp [List.find?, h1, h2, h3, h4, h5]

theorem pc_profile_check_cases (fa : FunctionAddresses) (g : PCProfiler) (pc : List Nat)
    (hon : g.pc_profiling_on = true) :
    pc_profile_check fa g pc
      = if inInterval fa (pc.getD 8 0) Primitive.ProcessMessageBlock then
          { g with add := pc.getD 8 0,
                   start := (interval fa Primitive.ProcessMessageBlock).1,
                   end_ := (interval fa Primitive.ProcessMessageBlock).2,
                   PC_ISHAProcessMessageBlockCount :=
                     (g.PC_ISHAProcessMessageBlockCount + 1) % 2 ^ 32 }
        else if inInterval fa (pc.getD 8 0) Primitive.PadMessage then
          { g with add := pc.getD 8 0,
                   start := (interval fa Primitive.PadMessage).1,
                   end_ := (interval fa Primitive.PadMessage).2,
                   PC_ISHAPadMessageCount := (g.PC_ISHAPadMessageCount + 1) % 2 ^ 32 }
        else if inInterval fa (pc.getD 8 0) Primitive.Reset then
          { g with add := pc.getD 8 0,
                   start := (interval fa Primitive.Reset).1,
                   end_ := (interval fa Primitive.Reset).2,
                   PC_ISHAResetCount := (g.PC_ISHAResetCount + 1) % 2 ^ 32 }
        else if inInterval fa (pc.getD 8 0) Primitive.Input then
          { g with add := pc.getD 8 0,
                   start := (interval fa Primitive.Input).1,
                   end_ := (interval fa Primitive.Input).2,
                   PC_ISHAInputCount := (g.PC_ISHAInputCount + 1) % 2 ^ 32 }
        else if inInterval fa (pc.getD 8 0) Primitive.Result then
          { g with add := pc.getD 8 0,
                   start := (interval fa Primitive.Result).1,
                   end_ := (interval fa Primitive.Result).2,
                   PC_ISHAResultCount := (g.PC_ISHAResultCount + 1) % 2 ^ 32 }
        else
          { g with add := pc.getD 8 0,
                   start := (interval fa Primitive.Result).1,
                   end_ := (interval fa Primitive.Result).2 } := by
  unfold pc_profile_check
  simp only [hon, Bool.not_true, Bool.false_eq_true, if_false,
    GetFunctionAddress_ISHAProcessMessageBlock, GetFunctionAddress_ISHAPadMessage,
    GetFunctionAddress_ISHAReset, GetFunctionAddress_ISHAInput, GetFunctionAddress_ISHAResult,
    inInterval, interval, ge_iff_le]

theorem pc_profile_check_sampled (fa : FunctionAddresses) (g : PCProfiler) (pc : List Nat)
    (hon : g.pc_profiling_on = true) (X : Primitive) :
    sampled (pc_profile_check fa g pc) X
      = if firstMatch fa (pc.getD 8 0) = some X then (sampled g X + 1) % 2 ^ 32
        else sampled g X := by
  rw [pc_profile_check_cases fa g pc hon, firstMatch_cases]
  by_cases h1 : inInterval fa (pc.getD 8 0) Primitive.ProcessMessageBlock
  · simp only [if_pos h1]; cases X <;> simp [sampled]
  simp only [if_neg h1]
  by_cases h2 : inInterval fa (pc.getD 8 0) Primitive.PadMessage
  · simp only [if_pos h2]; cases X <;> simp [sampled]
  simp only [if_neg h2]
  by_cases h3 : inInterval fa (pc.getD 8 0) Primitive.Reset
  · simp only [if_pos h3]; cases X <;> simp [sampled]
  simp only [if_neg h3]
  by_cases h4 : inInterval fa (pc.getD 8 0) Primitive.Input
  · simp only [if_pos h4]; cases X <;> simp [sampled]
  simp only [if_neg h4]
  by_cases h5 : inInterval fa (pc.getD 8 0) Primitive.Result
  · simp only [if_pos h5]; cases X <;> simp [sampled]
  · simp only [if_neg h5]; cases X <;> simp [sampled]

/-! ## The primitives compiled with `DEBUG` -/

theorem SameOuter_refl (g : StaticProfiler) : SameOuter g g := ⟨rfl, rfl, rfl, rfl⟩

theorem SameOuter_trans (g g1 g2 : StaticProfiler) (h1 : SameOuter g g1)
    (h2 : SameOuter g1 g2) : SameOuter g g2 :=
  ⟨h2.1.trans h1.1, h2.2.1.trans h1.2.1, h2.2.2.1.trans h1.2.2.1, h2.2.2.2.trans h1.2.2.2⟩

theorem INCREMENT_off (c : Nat) : INCREMENT_STATIC_COUNT c false = c := rfl

theorem process_DEBUG (g : StaticProfiler) (ctx : ISHAContext) :
    (ISHAProcessMessageBlock_DEBUG g ctx).2 = ISHAProcessMessageBlock ctx
    ∧ SameOuter g (ISHAProcessMessageBlock_DEBUG g ctx).1
    ∧ (g.static_profiling_on = false → (ISHAProcessMessageBlock_DEBUG g ctx).1 = g) := by
  refine ⟨rfl, ⟨rfl, rfl, rfl, rfl⟩, ?_⟩
  intro h
  unfold ISHAProcessMessageBlock_DEBUG INCREMENT_STATIC_COUNT
  cases g
  simp_all

theorem pad_DEBUG_fst (g : StaticProfiler) (ctx : ISHAContext) :
    (ISHAPadMessage_DEBUG g ctx).1
      = { g with
          ISHAPadMessageCount :=
            INCREMENT_STATIC_COUNT g.ISHAPadMessageCount g.static_profiling_on,
          ISHAProcessMessageBlockCount :=
            if ctx.MB_Idx + 1 > 55 then
              INCREMENT_STATIC_COUNT
                (INCREMENT_STATIC_COUNT g.ISHAProcessMessageBlockCount g.static_profiling_on)
                g.static_profiling_on
            else INCREMENT_STATIC_COUNT g.ISHAProcessMessageBlockCount g.static_profiling_on } := by
  unfold ISHAPadMessage_DEBUG ISHAProcessMessageBlock_DEBUG
  simp only
  split_ifs <;> rfl

theorem pad_DEBUG_snd (g : StaticProfiler) (ctx : ISHAContext) :
    (ISHAPadMessage_DEBUG g ctx).2 = ISHAPadMessage ctx := by
  unfold ISHAPadMessage_DEBUG ISHAPadMessage ISHAProcessMessageBlock_DEBUG
  simp only
  split_ifs <;> rfl

theorem pad_DEBUG (g : StaticProfiler) (ctx : ISHAContext) :
    SameOuter g (ISHAPadMessage_DEBUG g ctx).1
    ∧ (g.static_profiling_on = false → (ISHAPadMessage_DEBUG g ctx).1 = g) := by
  rw [pad_DEBUG_fst]
  refine ⟨⟨rfl, rfl, rfl, rfl⟩, ?_⟩
  intro h
  unfold INCREMENT_STATIC_COUNT
  cases g
  simp_all

theorem body_eq_chunk (ctx : ISHAContext) (msg : List Nat) :
    (ISHAInput_body ctx msg).1
      = if (ISHAInput_chunk ctx msg).MB_Idx = 64 then
          ISHAProcessMessageBlock (ISHAInput_chunk ctx msg)
        else ISHAInput_chunk ctx msg := rfl

theorem body_DEBUG_eq (g : StaticProfiler) (ctx : ISHAContext) (msg : List Nat) :
    ISHAInput_body_DEBUG g ctx msg
      = ((if (ISHAInput_chunk ctx msg).MB_Idx = 64 then
            ISHAProcessMessageBlock_DEBUG g (ISHAInput_chunk ctx msg)
          else (g, ISHAInput_chunk ctx msg)).1,
         (if (ISHAInput_chunk ctx msg).MB_Idx = 64 then
            ISHAProcessMessageBlock_DEBUG g (ISHAInput_chunk ctx msg)
          else (g, ISHAInput_chunk ctx msg)).2,
         (ISHAInput_body ctx msg).2) := rfl

theorem body_DEBUG (g : StaticProfiler) (ctx : ISHAContext) (msg : List Nat) :
    (ISHAInput_body_DEBUG g ctx msg).2 = ISHAInput_body ctx msg
    ∧ SameOuter g (ISHAInput_body_DEBUG g ctx msg).1
    ∧ (g.static_profiling_on = false → (ISHAInput_body_DEBUG g ctx msg).1 = g) := by
  rw [body_DEBUG_eq]
  have hb := body_eq_chunk ctx msg
  by_cases h : (ISHAInput_chunk ctx msg).MB_Idx = 64
  · rw [if_pos h] at hb ⊢
    refine ⟨?_, (process_DEBUG g (ISHAInput_chunk ctx msg)).2.1,
      (process_DEBUG g (ISHAInput_chunk ctx msg)).2.2⟩
    apply Prod.ext
    · exact hb.symm
    · rfl
  · rw [if_neg h] at hb ⊢
    refine ⟨?_, SameOuter_refl g, fun _ => rfl⟩
    apply Prod.ext
    · exact hb.symm
    · rfl

theorem loop_DEBUG (fuel : Nat) :
    ∀ (g : StaticProfiler) (ctx : ISHAContext) (msg : List Nat),
      (ISHAInput_loop_DEBUG fuel g ctx msg).2 = ISHAInput_loop fuel ctx msg
      ∧ SameOuter g (ISHAInput_loop_DEBUG fuel g ctx msg).1
      ∧ (g.static_profiling_on = false → (ISHAInput_loop_DEBUG fuel g ctx msg).1 = g) := by
  induction fuel with
  | zero => intro g ctx msg; exact ⟨rfl, SameOuter_refl g, fun _ => rfl⟩
  | succ k ih =>
    intro g ctx msg
    rw [ISHAInput_loop_DEBUG, ISHAInput_loop]
    obtain ⟨b1, b2, b3⟩ := body_DEBUG g ctx msg
    split_ifs
    · obtain ⟨r1, r2, r3⟩ := ih (ISHAInput_body_DEBUG g ctx msg).1
        (ISHAInput_body_DEBUG g ctx msg).2.1 (ISHAInput_body_DEBUG g ctx msg).2.2
      refine ⟨?_, SameOuter_trans _ _ _ b2 r2, ?_⟩
      · rw [r1, ← b1]
      · intro h
        have hb := b3 h
        rw [r3 (by rw [hb]; exact h), hb]
    · exact ⟨rfl, SameOuter_refl g, fun _ => rfl⟩

theorem ISHAInput_DEBUG_spec (g : StaticProfiler) (ctx : ISHAContext) (msg : List Nat) :
    (ISHAInput_DEBUG g ctx msg).2 = ISHAInput ctx msg
    ∧ (ISHAInput_DEBUG g ctx msg).1.ISHAInputCount
        = INCREMENT_STATIC_COUNT g.ISHAInputCount g.static_profiling_on
    ∧ (ISHAInput_DEBUG g ctx msg).1.ISHAResultCount = g.ISHAResultCount
    ∧ (ISHAInput_DEBUG g ctx msg).1.ISHAResetCount = g.ISHAResetCount
    ∧ (ISHAInput_DEBUG g ctx msg).1.static_profiling_on = g.static_profiling_on
    ∧ (g.static_profiling_on = false → (ISHAInput_DEBUG g ctx msg).1 = g) := by
  have e1 : g.static_profiling_on = false →
      ({ g with ISHAInputCount :=
          INCREMENT_STATIC_COUNT g.ISHAInputCount g.static_profiling_on } : StaticProfiler)
        = g := by
    intro h; unfold INCREMENT_STATIC_COUNT; cases g; simp_all
  unfold ISHAInput_DEBUG ISHAInput
  simp only
  split_ifs
  · exact ⟨rfl, rfl, rfl, rfl, rfl, e1⟩
  · exact ⟨rfl, rfl, rfl, rfl, rfl, e1⟩
  · obtain ⟨r1, r2, r3⟩ := loop_DEBUG (msg.length + 1)
      { g with ISHAInputCount :=
          INCREMENT_STATIC_COUNT g.ISHAInputCount g.static_profiling_on } ctx msg
    refine ⟨?_, r2.2.1, r2.2.2.1, r2.1, r2.2.2.2, ?_⟩
    · show (ISHAInput_loop_DEBUG _ _ _ _).2.1 = _
      rw [r1]
    · intro h
      show (ISHAInput_loop_DEBUG _ _ _ _).1 = g
      rw [r3 h, e1 h]

theorem ISHAResult_DEBUG_spec (g : StaticProfiler) (ctx : ISHAContext) (out : List Nat) :
    (ISHAResult_DEBUG g ctx out).2 = ISHAResult ctx out
    ∧ (ISHAResult_DEBUG g ctx out).1.ISHAResultCount
        = INCREMENT_STATIC_COUNT g.ISHAResultCount g.static_profiling_on
    ∧ (ISHAResult_DEBUG g ctx out).1.ISHAInputCount = g.ISHAInputCount
    ∧ (ISHAResult_DEBUG g ctx out).1.ISHAResetCount = g.ISHAResetCount
    ∧ (ISHAResult_DEBUG g ctx out).1.static_profiling_on = g.static_profiling_on
    ∧ (g.static_profiling_on = false → (ISHAResult_DEBUG g ctx out).1 = g) := by
  have e1 : g.static_profiling_on = false →
      ({ g with ISHAResultCount :=
          INCREMENT_STATIC_COUNT g.ISHAResultCount g.static_profiling_on } : StaticProfiler)
        = g := by
    intro h; unfold INCREMENT_STATIC_COUNT; cases g; simp_all
  unfold ISHAResult_DEBUG ISHAResult
  simp only
  by_cases hK : ctx.Corrupted = true
  · rw [if_pos hK, if_pos hK]
    exact ⟨rfl, rfl, rfl, rfl, rfl, e1⟩
  · rw [if_neg hK, if_neg hK]
    by_cases hC : ctx.Computed = true
    · simp only [hC, Bool.not_true, Bool.false_eq_true, if_false]
      refine ⟨?_, ?_, ?_, ?_, ?_, e1⟩ <;> first | rfl | trivial
    · have hC' : ctx.Computed = false := by simpa using hC
      simp only [hC', Bool.not_false, if_true]
      obtain ⟨p2, p3⟩ := pad_DEBUG
        { g with ISHAResultCount :=
            INCREMENT_STATIC_COUNT g.ISHAResultCount g.static_profiling_on } ctx
      refine ⟨?_, p2.2.2.1, p2.2.1, p2.1, p2.2.2.2, ?_⟩
      · rw [pad_DEBUG_snd]
      · intro h
        rw [p3 h, e1 h]

theorem firstMatch_some (fa : FunctionAddresses) (a : Nat) (X : Primitive)
    (hin : inInterval fa a X) (hfirst : ∀ Y, rank Y < rank X → ¬ inInterval fa a Y) :
    firstMatch fa a = some X := by
  rw [firstMatch_cases]
  cases X
  · rw [if_pos hin]
  · rw [if_neg (hfirst Primitive.ProcessMessageBlock (by decide)), if_pos hin]
  · rw [if_neg (hfirst Primitive.ProcessMessageBlock (by decide)),
      if_neg (hfirst Primitive.PadMessage (by decide)), if_pos hin]
  · rw [if_neg (hfirst Primitive.ProcessMessageBlock (by decide)),
      if_neg (hfirst Primitive.PadMessage (by decide)),
      if_neg (hfirst Primitive.Reset (by decide)), if_pos hin]
  · rw [if_neg (hfirst Primitive.ProcessMessageBlock (by decide)),
      if_neg (hfirst Primitive.PadMessage (by decide)),
      if_neg (hfirst Primitive.Reset (by decide)),
      if_neg (hfirst Primitive.Input (by decide)), if_pos hin]

theorem firstMatch_is_first (fa : FunctionAddresses) (a : Nat) (X : Primitive)
    (h : firstMatch fa a = some X) :
    inInterval fa a X ∧ ∀ Y, rank Y < rank X → ¬ inInterval fa a Y := by
  rw [firstMatch_cases] at h
  by_cases h1 : inInterval fa a Primitive.ProcessMessageBlock
  · rw [if_pos h1] at h
    cases h
    exact ⟨h1, fun Y hY => absurd hY (Nat.not_lt_zero _)⟩
  rw [if_neg h1] at h
  by_cases h2 : inInterval fa a Primitive.PadMessage
  · rw [if_pos h2] at h
    cases h
    refine ⟨h2, fun Y hY => ?_⟩
    cases Y <;> first | assumption | exact absurd hY (by decide)
  rw [if_neg h2] at h
  by_cases h3 : inInterval fa a Primitive.Reset
  · rw [if_pos h3] at h
    cases h
    refine ⟨h3, fun Y hY => ?_⟩
    cases Y <;> first | assumption | exact absurd hY (by decide)
  rw [if_neg h3] at h
  by_cases h4 : inInterval fa a Primitive.Input
  · rw [if_pos h4] at h
    cases h
    refine ⟨h4, fun Y hY => ?_⟩
    cases Y <;> first | assumption | exact absurd hY (by decide)
  rw [if_neg h4] at h
  by_cases h5 : inInterval fa a Primitive.Result
  · rw [if_pos h5] at h
    cases h
    refine ⟨h5, fun Y hY => ?_⟩
    cases Y <;> first | assumption | exact absurd hY (by decide)
  · rw [if_neg h5] at h
    cases h

theorem firstMatch_none (fa : FunctionAddresses) (a : Nat) (h : firstMatch fa a = none) :
    ∀ Y, ¬ inInterval fa a Y := by
  rw [firstMatch_cases] at h
  intro Y hY
  by_cases h1 : inInterval fa a Primitive.ProcessMessageBlock
  · rw [if_pos h1] at h; cases h
  rw [if_neg h1] at h
  by_cases h2 : inInterval fa a Primitive.PadMessage
  · rw [if_pos h2] at h; cases h
  rw [if_neg h2] at h
  by_cases h3 : inInterval fa a Primitive.Reset
  · rw [if_pos h3] at h; cases h
  rw [if_neg h3] at h
  by_cases h4 : inInterval fa a Primitive.Input
  · rw [if_pos h4] at h; cases h
  rw [if_neg h4] at h
  by_cases h5 : inInterval fa a Primitive.Result
  · rw [if_pos h5] at h; cases h
  · cases Y <;> contradiction

theorem sampled_on (g : PCProfiler) (X : Primitive) :
    sampled (pc_profile_on g) X = sampled g X := by
  cases X <;> rfl

/-! # The claims, continued -/

/-- C11. Corruption is sticky: on a context with `Corrupted` set, every `ISHAInput` call
and every `ISHAResult` call leaves the whole context as it is, `Corrupted` included, and
the output buffer too; the internal operations `ISHAPadMessage` and
`ISHAProcessMessageBlock` do not clear `Corrupted` either. -/
theorem corruption_sticky (ctx : ISHAContext) (message_array digest_out : List Nat)
    (hK : ctx.Corrupted = true) :
    ISHAInput ctx message_array = ctx
    ∧ ISHAResult ctx digest_out = (ctx, digest_out)
    ∧ (ISHAPadMessage ctx).Corrupted = true
    ∧ (ISHAProcessMessageBlock ctx).Corrupted = true := by
  refine ⟨ISHAInput_of_corrupted ctx message_array hK, ?_, ?_, ?_⟩
  · unfold ISHAResult
    rw [if_pos hK]
  · rw [(ISHAPadMessage_frame ctx).2, hK]
  · rw [process_Corrupted, hK]

/-- C12. Zero-length absorb is a no-op in every state: `ISHAInput` with length 0 leaves
the entire context unchanged, whatever its flags are. -/
theorem zero_length_absorb (ctx : ISHAContext) : ISHAInput ctx [] = ctx := by
  simp [ISHAInput]

/-- C13. Bit-length accounting: on a context that is neither computed nor corrupted, with
`MB_Idx < 64` and counter value `N`, an input of `n` bytes with `N + 8 * n < 2 ^ 64`
leaves the counter at `N + 8 * n`, both halves 32-bit values, and the context not
corrupted; from a reset context the counter is `8 * n`. -/
theorem bit_length_accounting (iv : Words5) (ctx : ISHAContext) (message_array : List Nat)
    (hC : ctx.Computed = false) (hK : ctx.Corrupted = false) (hidx : ctx.MB_Idx < 64)
    (hlo : ctx.Length_Low < 2 ^ 32) (hhi : ctx.Length_High < 2 ^ 32)
    (hN : bitCount ctx + 8 * message_array.length < 2 ^ 64) :
    bitCount (ISHAInput ctx message_array) = bitCount ctx + 8 * message_array.length
    ∧ (ISHAInput ctx message_array).Corrupted = false
    ∧ (ISHAInput ctx message_array).Length_Low < 2 ^ 32
    ∧ (ISHAInput ctx message_array).Length_High < 2 ^ 32
    ∧ bitCount (ISHAInput (ISHAReset iv ctx) message_array) = 8 * message_array.length
    ∧ (ISHAInput (ISHAReset iv ctx) message_array).Corrupted = false := by
  obtain ⟨a1, a2, a3, a4⟩ := ISHAInput_counter message_array.length ctx message_array
    (le_refl _) hC hK hidx hlo hhi hN
  have h0 : bitCount (ISHAReset iv ctx) = 0 := by simp [bitCount, ISHAReset]
  obtain ⟨r1, r2, _, _⟩ := ISHAInput_counter message_array.length (ISHAReset iv ctx)
    message_array (le_refl _) rfl rfl (by show (0 : Nat) < 64; norm_num)
    (by show (0 : Nat) < 2 ^ 32; norm_num) (by show (0 : Nat) < 2 ^ 32; norm_num)
    (by rw [h0]; omega)
  refine ⟨a1, a2, a3, a4, ?_, r2⟩
  rw [r1, h0]; omega

/-- C14. Counter wrap-around sets corrupted: on a context that is neither computed nor
corrupted, with `MB_Idx < 64` and counter value `N`, an input of `n` bytes with
`2 ^ 64 ≤ N + 8 * n` leaves the context corrupted.  The loop stops at the end of the chunk
in which the counter wraps: the bytes from position `wrapEnd` on are unread, and the
context is the one that the first `wrapEnd` bytes alone would leave. -/
theorem counter_wrap_corrupts (ctx : ISHAContext) (message_array : List Nat)
    (hC : ctx.Computed = false) (hK : ctx.Corrupted = false) (hidx : ctx.MB_Idx < 64)
    (hlo : ctx.Length_Low < 2 ^ 32) (hhi : ctx.Length_High < 2 ^ 32)
    (hN : 2 ^ 64 ≤ bitCount ctx + 8 * message_array.length) :
    (ISHAInput ctx message_array).Corrupted = true
    ∧ (ISHAInput_loop (message_array.length + 1) ctx message_array).2
        = message_array.drop (wrapEnd ctx.MB_Idx (bitCount ctx) message_array.length)
    ∧ ISHAInput ctx message_array
        = ISHAInput ctx
            (message_array.take (wrapEnd ctx.MB_Idx (bitCount ctx) message_array.length))
    ∧ 2 ^ 64 ≤ bitCount ctx + 8 * wrapEnd ctx.MB_Idx (bitCount ctx) message_array.length
    ∧ wrapEnd ctx.MB_Idx (bitCount ctx) message_array.length
        < wrapBytes (bitCount ctx) + 64 := by
  have hNlt : bitCount ctx < 2 ^ 64 := by unfold bitCount; omega
  have hpos : message_array.length ≠ 0 := by omega
  obtain ⟨w1, w2, w3⟩ := loop_wrap (message_array.length + 1) ctx message_array
    (by omega) hK hidx hlo hhi hN
  have hin : ISHAInput ctx message_array
      = (ISHAInput_loop (message_array.length + 1) ctx message_array).1 := by
    unfold ISHAInput
    rw [if_neg hpos, if_neg (by simp [hC, hK])]
  have hwe1 : 1 ≤ wrapEnd ctx.MB_Idx (bitCount ctx) message_array.length := by
    unfold wrapEnd wrapBytes; omega
  have hwe2 : wrapEnd ctx.MB_Idx (bitCount ctx) message_array.length
      ≤ message_array.length := by
    unfold wrapEnd; omega
  refine ⟨by rw [hin]; exact w1, w2, ?_, ?_, ?_⟩
  · rw [hin, w3]
    unfold ISHAInput
    rw [if_neg (by rw [List.length_take]; omega), if_neg (by simp [hC, hK])]
    rw [loop_fuel
      ((message_array.take
        (wrapEnd ctx.MB_Idx (bitCount ctx) message_array.length)).length + 1)
      (message_array.length + 1) ctx _ hidx (by omega)
      (by rw [List.length_take]; omega)]
  · unfold wrapEnd wrapBytes; omega
  · unfold wrapEnd wrapBytes; omega

/-- C16, counterexample.  With the sample addresses, the saved program counter `1115` lies
inside the registered interval of `ISHAPadMessage`, `[1110, 1320]`, and also inside that of
`ISHAProcessMessageBlock`, `[1000, 1120]`, which is queried first: the sampled counter
of `ISHAPadMessage` is unchanged and that of `ISHAProcessMessageBlock` is incremented. -/
theorem sampler_attribution_counterexample :
    samplerOn.pc_profiling_on = true
    ∧ inInterval sampleAddresses (sampleFrame.getD 8 0) Primitive.PadMessage
    ∧ sampled (pc_profile_check sampleAddresses samplerOn sampleFrame) Primitive.PadMessage
        = sampled samplerOn Primitive.PadMessage
    ∧ sampled (pc_profile_check sampleAddresses samplerOn sampleFrame)
        Primitive.ProcessMessageBlock
        = sampled samplerOn Primitive.ProcessMessageBlock + 1 := by
  refine ⟨rfl, by decide, by decide, by decide⟩

/-- C16, amended.  With PC sampling enabled, when the saved program counter (word 8 of the
frame) lies inside the registered interval of primitive `X` and inside the registered
interval of no primitive that is queried before `X`, `pc_profile_check` increments the
sampled counter of `X` by one, modulo `2 ^ 32`, and changes no other sampled counter. -/
theorem sampler_attribution (fa : FunctionAddresses) (g : PCProfiler) (pc : List Nat)
    (X : Primitive) (hon : g.pc_profiling_on = true)
    (hin : inInterval fa (pc.getD 8 0) X)
    (hfirst : ∀ Y, rank Y < rank X → ¬ inInterval fa (pc.getD 8 0) Y) :
    sampled (pc_profile_check fa g pc) X = (sampled g X + 1) % 2 ^ 32
    ∧ ∀ Y, Y ≠ X → sampled (pc_profile_check fa g pc) Y = sampled g Y := by
  have hf := firstMatch_some fa (pc.getD 8 0) X hin hfirst
  refine ⟨?_, ?_⟩
  · rw [pc_profile_check_sampled fa g pc hon X, if_pos hf]
  · intro Y hY
    rw [pc_profile_check_sampled fa g pc hon Y, hf, if_neg (by simpa using hY.symm)]

/-- C17. Sampler first-match classification: with PC sampling enabled, `pc_profile_check`
increments by one, modulo `2 ^ 32`, the sampled counter of the first primitive in the
order `ISHAProcessMessageBlock`, `ISHAPadMessage`, `ISHAReset`, `ISHAInput`, `ISHAResult`
whose registered interval contains the saved program counter, and no other counter; when
no interval contains it, the five sampled counters are unchanged. -/
theorem sampler_first_match (fa : FunctionAddresses) (g : PCProfiler) (pc : List Nat)
    (hon : g.pc_profiling_on = true) :
    (∀ X, sampled (pc_profile_check fa g pc) X
        = if firstMatch fa (pc.getD 8 0) = some X then (sampled g X + 1) % 2 ^ 32
          else sampled g X)
    ∧ (∀ X, firstMatch fa (pc.getD 8 0) = some X →
        inInterval fa (pc.getD 8 0) X
        ∧ ∀ Y, rank Y < rank X → ¬ inInterval fa (pc.getD 8 0) Y)
    ∧ ((∀ Y, ¬ inInterval fa (pc.getD 8 0) Y) →
        ∀ X, sampled (pc_profile_check fa g pc) X = sampled g X) := by
  refine ⟨fun X => pc_profile_check_sampled fa g pc hon X,
    fun X h => firstMatch_is_first fa _ X h, ?_⟩
  intro hnone X
  rw [pc_profile_check_sampled fa g pc hon X]
  by_cases hf : firstMatch fa (pc.getD 8 0) = some X
  · exact absurd (firstMatch_is_first fa _ X hf).1 (hnone X)
  · rw [if_neg hf]

/-- C18. Sampler toggling: after `pc_profile_off`, `pc_profile_check` leaves the state of
the sampler, its five counters included, unchanged for every frame and every registry;
after `pc_profile_on` the flag is true and `pc_profile_check` classifies again. -/
theorem sampler_toggling (fa : FunctionAddresses) (g : PCProfiler) (pc : List Nat) :
    pc_profile_check fa (pc_profile_off g) pc = pc_profile_off g
    ∧ (∀ X, sampled (pc_profile_check fa (pc_profile_off g) pc) X = sampled g X)
    ∧ (pc_profile_on g).pc_profiling_on = true
    ∧ (∀ X, sampled (pc_profile_check fa (pc_profile_on g) pc) X
        = if firstMatch fa (pc.getD 8 0) = some X then (sampled g X + 1) % 2 ^ 32
          else sampled g X) := by
  have hoff : pc_profile_check fa (pc_profile_off g) pc = pc_profile_off g := by
    unfold pc_profile_check
    rw [if_pos (by rfl)]
  refine ⟨hoff, ?_, rfl, ?_⟩
  · intro X
    rw [hoff]
    cases X <;> rfl
  · intro X
    rw [pc_profile_check_sampled fa (pc_profile_on g) pc rfl X, sampled_on]

/-- C19, evaluated on a failing input.  `static_profile_off` leaves the enable flag true in
every state; called on the state with profiling enabled and all counters at zero, it is
followed by an `ISHAInput` call and an `ISHAResult` call that still count. -/
theorem static_profile_off_leaves_on :
    (∀ g : StaticProfiler, (static_profile_off g).static_profiling_on = true)
    ∧ (ISHAInput_DEBUG (static_profile_off countersOn) zeroContext [1]).1.ISHAInputCount = 1
    ∧ (ISHAResult_DEBUG (static_profile_off countersOn) zeroContext
        (List.replicate 20 0)).1.ISHAResultCount = 1 := by
  refine ⟨fun _ => rfl, ?_, ?_⟩
  · rw [(ISHAInput_DEBUG_spec _ _ _).2.1]
    rfl
  · rw [(ISHAResult_DEBUG_spec _ _ _).2.1]
    rfl

/-- C20. Call counters count every entry: with static profiling enabled, every call of
`ISHAInput` increments `ISHAInputCount` by one modulo `2 ^ 32` and every call of
`ISHAResult` increments `ISHAResultCount` by one modulo `2 ^ 32`, for every context and
every input, so on every path; neither call changes the other counter, and the context
and the output are those of the functions without the counters. -/
theorem call_counters_count_entries (g : StaticProfiler) (ctx : ISHAContext)
    (message_array digest_out : List Nat) (hon : g.static_profiling_on = true) :
    (ISHAInput_DEBUG g ctx message_array).1.ISHAInputCount = (g.ISHAInputCount + 1) % 2 ^ 32
    ∧ (ISHAResult_DEBUG g ctx digest_out).1.ISHAResultCount
        = (g.ISHAResultCount + 1) % 2 ^ 32
    ∧ (ISHAInput_DEBUG g ctx message_array).1.ISHAResultCount = g.ISHAResultCount
    ∧ (ISHAResult_DEBUG g ctx digest_out).1.ISHAInputCount = g.ISHAInputCount
    ∧ (ISHAInput_DEBUG g ctx message_array).2 = ISHAInput ctx message_array
    ∧ (ISHAResult_DEBUG g ctx digest_out).2 = ISHAResult ctx digest_out := by
  obtain ⟨i1, i2, i3, _, _, _⟩ := ISHAInput_DEBUG_spec g ctx message_array
  obtain ⟨r1, r2, r3, _, _, _⟩ := ISHAResult_DEBUG_spec g ctx digest_out
  refine ⟨?_, ?_, i3, r3, i1, r1⟩
  · rw [i2, hon]; rfl
  · rw [r2, hon]; rfl

/-! # Witnesses, continued -/

theorem corruption_sticky_witness :
    ISHAInput { zeroContext with Corrupted := true } [1, 2, 3]
        = { zeroContext with Corrupted := true }
    ∧ ISHAResult { zeroContext with Corrupted := true } (List.replicate 20 170)
        = ({ zeroContext with Corrupted := true }, List.replicate 20 170)
    ∧ (ISHAPadMessage { zeroContext with Corrupted := true }).Corrupted = true
    ∧ (ISHAProcessMessageBlock { zeroContext with Corrupted := true }).Corrupted = true :=
  corruption_sticky { zeroContext with Corrupted := true } [1, 2, 3] (List.replicate 20 170) rfl

theorem bit_length_accounting_witness :
    bitCount (ISHAInput { zeroContext with Length_Low := 4294967288 } [1, 2, 3])
        = bitCount { zeroContext with Length_Low := 4294967288 } + 8 * [1, 2, 3].length
    ∧ (ISHAInput { zeroContext with Length_Low := 4294967288 } [1, 2, 3]).Corrupted = false
    ∧ (ISHAInput { zeroContext with Length_Low := 4294967288 } [1, 2, 3]).Length_Low < 2 ^ 32
    ∧ (ISHAInput { zeroContext with Length_Low := 4294967288 } [1, 2, 3]).Length_High < 2 ^ 32
    ∧ bitCount (ISHAInput (ISHAReset sampleIV { zeroContext with Length_Low := 4294967288 })
        [1, 2, 3]) = 8 * [1, 2, 3].length
    ∧ (ISHAInput (ISHAReset sampleIV { zeroContext with Length_Low := 4294967288 })
        [1, 2, 3]).Corrupted = false :=
  bit_length_accounting sampleIV { zeroContext with Length_Low := 4294967288 } [1, 2, 3]
    rfl rfl (by decide) (by decide) (by decide) (by decide)

theorem counter_wrap_corrupts_witness :
    (ISHAInput { zeroContext with Length_High := 4294967295, Length_Low := 4294967288 }
        [1, 2]).Corrupted = true
    ∧ (ISHAInput_loop ([1, 2].length + 1)
        { zeroContext with Length_High := 4294967295, Length_Low := 4294967288 } [1, 2]).2
        = [1, 2].drop (wrapEnd
            ({ zeroContext with Length_High := 4294967295,
                                Length_Low := 4294967288 } : ISHAContext).MB_Idx
            (bitCount { zeroContext with Length_High := 4294967295, Length_Low := 4294967288 })
            [1, 2].length)
    ∧ ISHAInput { zeroContext with Length_High := 4294967295, Length_Low := 4294967288 } [1, 2]
        = ISHAInput { zeroContext with Length_High := 4294967295, Length_Low := 4294967288 }
            ([1, 2].take (wrapEnd
              ({ zeroContext with Length_High := 4294967295,
                                  Length_Low := 4294967288 } : ISHAContext).MB_Idx
              (bitCount
                { zeroContext with Length_High := 4294967295, Length_Low := 4294967288 })
              [1, 2].length))
    ∧ 2 ^ 64 ≤ bitCount { zeroContext with Length_High := 4294967295, Length_Low := 4294967288 }
        + 8 * wrapEnd
            ({ zeroContext with Length_High := 4294967295,
                                Length_Low := 4294967288 } : ISHAContext).MB_Idx
            (bitCount { zeroContext with Length_High := 4294967295, Length_Low := 4294967288 })
            [1, 2].length
    ∧ wrapEnd
        ({ zeroContext with Length_High := 4294967295,
                            Length_Low := 4294967288 } : ISHAContext).MB_Idx
        (bitCount { zeroContext with Length_High := 4294967295, Length_Low := 4294967288 })
        [1, 2].length
        < wrapBytes
            (bitCount { zeroContext with Length_High := 4294967295, Length_Low := 4294967288 })
          + 64 :=
  counter_wrap_corrupts
    { zeroContext with Length_High := 4294967295, Length_Low := 4294967288 } [1, 2]
    rfl rfl (by decide) (by decide) (by decide) (by decide)

theorem sampler_attribution_witness :
    sampled (pc_profile_check sampleAddresses samplerOn [0, 0, 0, 0, 0, 0, 0, 0, 1200])
        Primitive.PadMessage = (sampled samplerOn Primitive.PadMessage + 1) % 2 ^ 32
    ∧ ∀ Y, Y ≠ Primitive.PadMessage →
        sampled (pc_profile_check sampleAddresses samplerOn [0, 0, 0, 0, 0, 0, 0, 0, 1200]) Y
          = sampled samplerOn Y :=
  sampler_attribution sampleAddresses samplerOn [0, 0, 0, 0, 0, 0, 0, 0, 1200]
    Primitive.PadMessage rfl (by decide)
    (by intro Y hY; cases Y <;> first | exact absurd hY (by decide) | decide)

theorem sampler_first_match_witness :
    (∀ X, sampled (pc_profile_check sampleAddresses samplerOn sampleFrame) X
        = if firstMatch sampleAddresses (sampleFrame.getD 8 0) = some X
          then (sampled samplerOn X + 1) % 2 ^ 32 else sampled samplerOn X)
    ∧ (∀ X, firstMatch sampleAddresses (sampleFrame.getD 8 0) = some X →
        inInterval sampleAddresses (sampleFrame.getD 8 0) X
        ∧ ∀ Y, rank Y < rank X → ¬ inInterval sampleAddresses (sampleFrame.getD 8 0) Y)
    ∧ ((∀ Y, ¬ inInterval sampleAddresses (sampleFrame.getD 8 0) Y) →
        ∀ X, sampled (pc_profile_check sampleAddresses samplerOn sampleFrame) X
          = sampled samplerOn X) :=
  sampler_first_match sampleAddresses samplerOn sampleFrame rfl

theorem call_counters_count_entries_witness :
    (ISHAInput_DEBUG countersOn { zeroContext with Computed := true } [1]).1.ISHAInputCount
        = (countersOn.ISHAInputCount + 1) % 2 ^ 32
    ∧ (ISHAResult_DEBUG countersOn { zeroContext with Computed := true }
        (List.replicate 20 0)).1.ISHAResultCount = (countersOn.ISHAResultCount + 1) % 2 ^ 32
    ∧ (ISHAInput_DEBUG countersOn { zeroContext with Computed := true } [1]).1.ISHAResultCount
        = countersOn.ISHAResultCount
    ∧ (ISHAResult_DEBUG countersOn { zeroContext with Computed := true }
        (List.replicate 20 0)).1.ISHAInputCount = countersOn.ISHAInputCount
    ∧ (ISHAInput_DEBUG countersOn { zeroContext with Computed := true } [1]).2
        = ISHAInput { zeroContext with Computed := true } [1]
    ∧ (ISHAResult_DEBUG countersOn { zeroContext with Computed := true }
        (List.replicate 20 0)).2
        = ISHAResult { zeroContext with Computed := true } (List.replicate 20 0) :=
  call_counters_count_entries countersOn { zeroContext with Computed := true } [1]
    (List.replicate 20 0) rfl

/-! ## The ring buffer -/

theorem enqueue_loop_elements (cap : Nat) (src : List Nat) (n : Nat) (fuel : Nat) :
    ∀ (i : Nat) (b : Buffer), n - i ≤ fuel →
      (cbfifo_enqueue_loop cap src n fuel i b).elements = b.elements + (n - i) := by
  induction fuel with
  | zero => intro i b h; rw [cbfifo_enqueue_loop]; omega
  | succ k ih =>
    intro i b h
    rw [cbfifo_enqueue_loop]
    by_cases hi : i < n
    · rw [if_pos hi]
      simp only
      rw [ih (i + 1) _ (by omega)]
      split_ifs <;> simp only <;> omega
    · rw [if_neg hi]; omega

theorem dequeue_loop_elements (cap : Nat) (n : Nat) (fuel : Nat) :
    ∀ (i : Nat) (b : Buffer) (dest : List Nat), n - i ≤ fuel → n - i ≤ b.elements →
      (cbfifo_dequeue_loop cap n fuel i b dest).1.elements = b.elements - (n - i) := by
  induction fuel with
  | zero => intro i b dest h _; rw [cbfifo_dequeue_loop]; simp only; omega
  | succ k ih =>
    intro i b dest h he
    rw [cbfifo_dequeue_loop]
    by_cases hi : i < n
    · rw [if_pos hi]
      simp only
      rw [ih (i + 1) _ _ (by omega) (by split_ifs <;> simp only <;> omega)]
      split_ifs <;> simp only <;> omega
    · rw [if_neg hi]; simp only; omega

/-! # The claims: ring buffer -/

/-- C21: for a buffer holding `n ≤ capacity` bytes and a non-null source, `cbfifo_enqueue`
returns `min nbyte (capacity - n)` and the length afterwards is `n` plus the returned
count. -/
theorem enqueue_count (BUFFER_SIZE : Nat) (irq : IrqState) (buffer : Buffer)
    (src : List Nat) (nbyte : Nat)
    (hn : cbfifo_length buffer ≤ cbfifo_capacity BUFFER_SIZE) :
    (cbfifo_enqueue BUFFER_SIZE irq buffer (some src) nbyte).2.2
        = min nbyte (cbfifo_capacity BUFFER_SIZE - cbfifo_length buffer) ∧
      cbfifo_length (cbfifo_enqueue BUFFER_SIZE irq buffer (some src) nbyte).2.1
        = cbfifo_length buffer
          + (cbfifo_enqueue BUFFER_SIZE irq buffer (some src) nbyte).2.2 := by
  unfold cbfifo_length cbfifo_capacity at *
  unfold cbfifo_enqueue
  simp only [cbfifo_capacity]
  by_cases h0 : nbyte = 0 ∨ buffer.elements = BUFFER_SIZE
  · rw [if_pos h0]
    simp only
    rcases h0 with h0 | h0 <;> omega
  · rw [if_neg h0]
    simp only
    rw [enqueue_loop_elements _ _ _ _ _ _ (by omega)]
    split_ifs <;> omega

/-- C22: for a non-null destination, `cbfifo_dequeue` returns `min nbyte n` where `n` is the
number of stored bytes, the length afterwards is `n` minus the returned count, and a
dequeue from an empty buffer returns 0. -/
theorem dequeue_count (BUFFER_SIZE : Nat) (irq : IrqState) (buffer : Buffer)
    (dest : List Nat) (nbyte : Nat) :
    (cbfifo_dequeue BUFFER_SIZE irq buffer (some dest) nbyte).2.2.2
        = min nbyte (cbfifo_length buffer) ∧
      cbfifo_length (cbfifo_dequeue BUFFER_SIZE irq buffer (some dest) nbyte).2.1
        = cbfifo_length buffer
          - (cbfifo_dequeue BUFFER_SIZE irq buffer (some dest) nbyte).2.2.2 ∧
      (cbfifo_length buffer = 0 →
        (cbfifo_dequeue BUFFER_SIZE irq buffer (some dest) nbyte).2.2.2 = 0) := by
  unfold cbfifo_length
  unfold cbfifo_dequeue
  simp only
  by_cases h0 : nbyte = 0 ∨ buffer.elements = 0
  · rw [if_pos h0]
    simp only
    rcases h0 with h0 | h0 <;> exact ⟨by omega, by omega, fun _ => trivial⟩
  · rw [if_neg h0]
    simp only
    have hk : (if nbyte ≤ buffer.elements then nbyte else buffer.elements)
        = min nbyte buffer.elements := by split_ifs <;> omega
    rw [hk, dequeue_loop_elements BUFFER_SIZE (min nbyte buffer.elements) _ 0 buffer dest
      (by omega) (by omega)]
    exact ⟨rfl, by omega, fun h => by omega⟩

/-- C23: called with a `NULL` pointer or with `nbyte = 0`, `cbfifo_enqueue` and
`cbfifo_dequeue` return 0 and leave `head`, `tail`, `elements` and the stored bytes as they
were; after `cbfifo_reset` the length is 0. -/
theorem rejected_requests (BUFFER_SIZE : Nat) (irq : IrqState) (buffer : Buffer)
    (buf : Option (List Nat)) (nbyte : Nat) (h : buf = none ∨ nbyte = 0) :
    (cbfifo_enqueue BUFFER_SIZE irq buffer buf nbyte).2.2 = 0 ∧
      (cbfifo_enqueue BUFFER_SIZE irq buffer buf nbyte).2.1 = buffer ∧
      (cbfifo_dequeue BUFFER_SIZE irq buffer buf nbyte).2.2.2 = 0 ∧
      (cbfifo_dequeue BUFFER_SIZE irq buffer buf nbyte).2.1 = buffer ∧
      (cbfifo_dequeue BUFFER_SIZE irq buffer buf nbyte).2.2.1 = buf ∧
      cbfifo_length (cbfifo_reset buffer) = 0 := by
  unfold cbfifo_enqueue cbfifo_dequeue
  cases buf with
  | none => exact ⟨rfl, rfl, rfl, rfl, rfl, rfl⟩
  | some l =>
    have h0 : nbyte = 0 := by
      rcases h with h | h
      · cases h
      · exact h
    subst h0
    simp only [true_or, if_true]
    refine ⟨?_, ?_, ?_, ?_, ?_, ?_⟩ <;> first | rfl | trivial

/-! # Witnesses: ring buffer -/

theorem enqueue_count_witness :
    cbfifo_length ⟨[0, 0, 0, 0], 0, 0, 0⟩ ≤ cbfifo_capacity 4 ∧
      (cbfifo_enqueue 4 ⟨0, 0⟩ ⟨[0, 0, 0, 0], 0, 0, 0⟩ (some [1, 2, 3, 4, 5, 6]) 6).2.2
        = min 6 (cbfifo_capacity 4 - cbfifo_length ⟨[0, 0, 0, 0], 0, 0, 0⟩) :=
  ⟨by decide, (enqueue_count 4 ⟨0, 0⟩ ⟨[0, 0, 0, 0], 0, 0, 0⟩ [1, 2, 3, 4, 5, 6] 6
    (by decide)).1⟩

theorem rejected_requests_witness :
    ((none : Option (List Nat)) = none ∨ 3 = 0) ∧
      (cbfifo_enqueue 4 ⟨0, 0⟩ ⟨[7, 8, 0, 0], 0, 2, 2⟩ none 3).2.1
        = ⟨[7, 8, 0, 0], 0, 2, 2⟩ :=
  ⟨Or.inl rfl, (rejected_requests 4 ⟨0, 0⟩ ⟨[7, 8, 0, 0], 0, 2, 2⟩ none 3 (Or.inl rfl)).2.1⟩

/-! ## Sorting the sample buffer -/

theorem toUint16_toInt16 (v : Nat) (h : v < 65536) : toUint16 (toInt16 v) = v := by
  unfold toUint16 toInt16
  split_ifs <;> omega

theorem getD_here (a r : List Nat) (x : Nat) : (a ++ x :: r).getD a.length 0 = x := by
  induction a with
  | nil => rfl
  | cons b a ih => simpa using ih

theorem getD_next (a r : List Nat) (x y : Nat) :
    (a ++ x :: y :: r).getD (a.length + 1) 0 = y := by
  induction a with
  | nil => rfl
  | cons b a ih => simpa using ih

theorem set_here (a r : List Nat) (x v : Nat) :
    (a ++ x :: r).set a.length v = a ++ v :: r := by
  induction a with
  | nil => rfl
  | cons b a ih => simp

theorem set_next (a r : List Nat) (x y v : Nat) :
    (a ++ x :: y :: r).set (a.length + 1) v = a ++ x :: v :: r := by
  induction a with
  | nil => rfl
  | cons b a ih => simp

theorem swap_adjacent (a r : List Nat) (x y : Nat) (hx : x < 65536) :
    swap (a ++ x :: y :: r) a.length (a.length + 1) = a ++ y :: x :: r := by
  unfold swap
  simp only
  rw [getD_here, getD_next, set_here, set_next, toUint16_toInt16 x hx]

theorem bubble_length (l : List Nat) : ∀ x, (bubble x l).length = l.length + 1 := by
  induction l with
  | nil => intro x; rfl
  | cons y l ih => intro x; rw [bubble]; split_ifs <;> simp [ih]

theorem bubble_perm (l : List Nat) : ∀ x, List.Perm (bubble x l) (x :: l) := by
  induction l with
  | nil => intro x; exact List.Perm.refl _
  | cons y l ih =>
    intro x
    rw [bubble]
    split_ifs
    · exact ((ih x).cons y).trans (List.Perm.swap x y l)
    · exact (ih y).cons x

theorem bubble_last (l : List Nat) :
    ∀ x, ∃ init m, bubble x l = init ++ [m] ∧ (∀ z ∈ init, z ≤ m) ∧ x ≤ m := by
  induction l with
  | nil => intro x; exact ⟨[], x, rfl, by simp, le_refl _⟩
  | cons y l ih =>
    intro x
    rw [bubble]
    split_ifs with h
    · obtain ⟨init, m, he, hi, hm⟩ := ih x
      refine ⟨y :: init, m, by rw [he]; rfl, ?_, hm⟩
      intro z hz
      rcases List.mem_cons.1 hz with rfl | hz
      · omega
      · exact hi z hz
    · obtain ⟨init, m, he, hi, hm⟩ := ih y
      refine ⟨x :: init, m, by rw [he]; rfl, ?_, by omega⟩
      intro z hz
      rcases List.mem_cons.1 hz with rfl | hz
      · omega
      · exact hi z hz

theorem inner_bubble (n i : Nat) (suf : List Nat) (l : List Nat) :
    ∀ (fuel : Nat) (a : List Nat) (x : Nat), l.length ≤ fuel →
      a.length + l.length + 1 + i = n → x < 65536 → (∀ z ∈ l, z < 65536) →
      bubbleSort_inner n i fuel a.length (a ++ x :: l ++ suf) = a ++ bubble x l ++ suf := by
  induction l with
  | nil =>
    intro fuel a x _ hn _ _
    cases fuel with
    | zero => rfl
    | succ k =>
      rw [bubbleSort_inner, if_neg (by simp at hn; omega)]
      rfl
  | cons y l ih =>
    intro fuel a x hf hn hx hl
    cases fuel with
    | zero => simp at hf
    | succ k =>
      simp only [List.length_cons] at hf hn
      rw [bubbleSort_inner, if_pos (by omega)]
      have hy : y < 65536 := hl y (List.mem_cons_self _ _)
      have hl1 : ∀ z ∈ l, z < 65536 := fun z hz => hl z (List.mem_cons_of_mem _ hz)
      have hgx : (a ++ x :: y :: l ++ suf).getD a.length 0 = x := by
        have := getD_here a (y :: l ++ suf) x
        simpa using this
      have hgy : (a ++ x :: y :: l ++ suf).getD (a.length + 1) 0 = y := by
        have := getD_next a (l ++ suf) x y
        simpa using this
      simp only [hgx, hgy]
      rw [bubble]
      by_cases hxy : x > y
      · rw [if_pos hxy, if_pos hxy]
        have hs : swap (a ++ x :: y :: l ++ suf) a.length (a.length + 1)
            = (a ++ [y]) ++ x :: l ++ suf := by
          have := swap_adjacent a (l ++ suf) x y hx
          simpa using this
        rw [hs]
        have := ih k (a ++ [y]) x (by omega) (by simp; omega) hx hl1
        simp only [List.length_append, List.length_singleton] at this
        rw [this]
        simp
      · rw [if_neg hxy, if_neg hxy]
        have hs : a ++ x :: y :: l ++ suf = (a ++ [x]) ++ y :: l ++ suf := by simp
        rw [hs]
        have := ih k (a ++ [x]) y (by omega) (by simp; omega) hy hl1
        simp only [List.length_append, List.length_singleton] at this
        rw [this]
        simp

theorem outer_sorts (n : Nat) (suf : List Nat) :
    ∀ (fuel i : Nat) (P S : List Nat), P.length + i = n → n ≤ fuel + i + 1 →
      List.Sorted (· ≤ ·) S → (∀ p ∈ P, ∀ s ∈ S, p ≤ s) → (∀ p ∈ P, p < 65536) →
      ∃ R, bubbleSort_outer n fuel i (P ++ S ++ suf) = R ++ suf ∧
        List.Sorted (· ≤ ·) R ∧ List.Perm R (P ++ S) := by
  have short : ∀ (P S : List Nat), P.length ≤ 1 → List.Sorted (· ≤ ·) S →
      (∀ p ∈ P, ∀ s ∈ S, p ≤ s) → List.Sorted (· ≤ ·) (P ++ S) := by
    intro P S hP hS hPS
    match P, hP, hPS with
    | [], _, _ => exact hS
    | [p], _, hPS =>
      exact List.sorted_cons.2 ⟨fun s hs => hPS p (List.mem_singleton_self p) s hs, hS⟩
    | _ :: _ :: _, hP, _ => simp at hP
  intro fuel
  induction fuel with
  | zero =>
    intro i P S hlen hf hS hPS _
    exact ⟨P ++ S, rfl, short P S (by omega) hS hPS, List.Perm.refl _⟩
  | succ k ih =>
    intro i P S hlen hf hS hPS hP
    rw [bubbleSort_outer]
    by_cases hi : (i : Int) < (n : Int) - 1
    · rw [if_pos hi]
      match P, hlen, hPS, hP with
      | [], hlen, _, _ => simp at hlen; omega
      | x :: l, hlen, hPS, hP =>
        simp only [List.length_cons] at hlen
        have hin := inner_bubble n i (S ++ suf) l n [] x (by omega)
          (by simp only [List.length_nil]; omega) (hP x (List.mem_cons_self _ _))
          (fun z hz => hP z (List.mem_cons_of_mem _ hz))
        simp only [List.length_nil, List.nil_append] at hin
        have harr : x :: l ++ S ++ suf = x :: l ++ (S ++ suf) := by simp
        rw [harr, hin]
        obtain ⟨init, m, he, him, _⟩ := bubble_last l x
        have hperm := bubble_perm l x
        have hblen := bubble_length l x
        rw [he] at hperm hblen
        have hmem : ∀ z ∈ init ++ [m], z ∈ x :: l := fun z hz => hperm.subset hz
        have hm : m ∈ x :: l := hmem m (by simp)
        have hinit : ∀ z ∈ init, z ∈ x :: l := fun z hz => hmem z (by simp [hz])
        simp only [List.length_append, List.length_singleton] at hblen
        obtain ⟨R, hR, hRs, hRp⟩ := ih (i + 1) init (m :: S) (by omega) (by omega)
          (List.sorted_cons.2 ⟨fun s hs => hPS m hm s hs, hS⟩)
          (by
            intro p hp s hs
            rcases List.mem_cons.1 hs with rfl | hs
            · exact him p hp
            · exact hPS p (hinit p hp) s hs)
          (fun p hp => hP p (hinit p hp))
        refine ⟨R, ?_, hRs, ?_⟩
        · rw [← hR, he]
          simp
        · refine hRp.trans ?_
          have : init ++ m :: S = (init ++ [m]) ++ S := by simp
          rw [this]
          exact hperm.append_right S
    · rw [if_neg hi]
      exact ⟨P ++ S, rfl, short P S (by omega) hS hPS, List.Perm.refl _⟩

/-! # The claims: sample buffer -/

/-- C24: for an array of `uint16_t` values with at least `n` elements, `bubbleSort arr n`
leaves the first `n` elements in ascending order and a permutation of the `n` elements
that were there at the call; the elements after them stay as they were. -/
theorem bubbleSort_sorts (arr : List Nat) (n : Nat) (hlen : n ≤ arr.length)
    (hel : ∀ x ∈ arr, x < 65536) :
    List.Sorted (· ≤ ·) ((bubbleSort arr n).take n) ∧
      List.Perm ((bubbleSort arr n).take n) (arr.take n) ∧
      (bubbleSort arr n).drop n = arr.drop n := by
  obtain ⟨R, hR, hs, hp⟩ := outer_sorts n (arr.drop n) n 0 (arr.take n) []
    (by simp; omega) (by omega) List.sorted_nil (by simp)
    (fun p hp => hel p (List.mem_of_mem_take hp))
  simp only [List.append_nil, List.take_append_drop] at hR hp
  have hRlen : R.length = n := by
    rw [hp.length_eq, List.length_take]; omega
  unfold bubbleSort
  rw [hR]
  refine ⟨?_, ?_, ?_⟩
  · rw [← hRlen, List.take_left]; exact hs
  · rw [← hRlen, List.take_left]; rw [hRlen]; exact hp
  · rw [← hRlen, List.drop_left]

/-! # Witnesses: sample buffer -/

theorem bubbleSort_sorts_witness :
    List.Sorted (· ≤ ·) ((bubbleSort [5, 3, 65535, 1, 9] 4).take 4) ∧
      List.Perm ((bubbleSort [5, 3, 65535, 1, 9] 4).take 4) ([5, 3, 65535, 1, 9].take 4) ∧
      (bubbleSort [5, 3, 65535, 1, 9] 4).drop 4 = [5, 3, 65535, 1, 9].drop 4 :=
  bubbleSort_sorts [5, 3, 65535, 1, 9] 4 (by decide) (by decide)

/-! ## Averaging the sample buffer -/

theorem compute_avg_loop_sum (fuel : Nat) :
    ∀ (i : Nat) (st : AdcState), st.ADC_buffer.length = 1024 → 1024 - i ≤ fuel →
      compute_avg_loop fuel i st
        = { st with sum := (st.sum % 2 ^ 32 + (st.ADC_buffer.drop i).sum) % 2 ^ 32 } ∨
      (1024 ≤ i ∧ compute_avg_loop fuel i st = st) := by
  induction fuel with
  | zero =>
    intro i st _ hf
    exact Or.inr ⟨by omega, rfl⟩
  | succ k ih =>
    intro i st hlen hf
    rw [compute_avg_loop]
    by_cases hi : i < 1024
    · rw [if_pos hi]
      left
      have hd : st.ADC_buffer.drop i = st.ADC_buffer.getD i 0 :: st.ADC_buffer.drop (i + 1) := by
        rw [List.getD_eq_getElem _ _ (by omega)]
        exact List.drop_eq_getElem_cons (by omega)
      rcases ih (i + 1) { st with sum := (st.sum + st.ADC_buffer.getD i 0) % 2 ^ 32 } hlen
        (by omega) with h | ⟨h1, h⟩
      · rw [h, hd]
        simp only [List.sum_cons, Nat.mod_mod]
        congr 1
        omega
      · rw [h, hd]
        have : st.ADC_buffer.drop (i + 1) = [] := List.drop_eq_nil_of_le (by omega)
        rw [this]
        simp only [List.sum_cons, List.sum_nil, Nat.add_zero]
        congr 1
        omega
    · rw [if_neg hi]
      exact Or.inr ⟨by omega, rfl⟩

theorem compute_avg_spec (st : AdcState) (hlen : st.ADC_buffer.length = 1024) :
    compute_avg st
      = { st with
          sum := (st.sum % 2 ^ 32 + st.ADC_buffer.sum) % 2 ^ 32,
          avg := (st.sum % 2 ^ 32 + st.ADC_buffer.sum) % 2 ^ 32 / 1024 % 65536 } := by
  unfold compute_avg
  rcases compute_avg_loop_sum 1024 0 st hlen (by omega) with h | ⟨h, _⟩
  · rw [h]; rfl
  · omega

theorem compute_avg_first_call (samples : List Nat) (hlen : samples.length = 1024)
    (hel : ∀ x ∈ samples, x < 65536) :
    (compute_avg (adcStart samples)).avg = samples.sum / 1024 := by
  have hs : samples.sum ≤ samples.length • 65535 :=
    List.sum_le_card_nsmul samples 65535 (fun x hx => by have := hel x hx; omega)
  rw [hlen, smul_eq_mul] at hs
  rw [compute_avg_spec _ hlen]
  simp only [adcStart]
  omega

theorem compute_avg_second_call (samples : List Nat) (hlen : samples.length = 1024)
    (hel : ∀ x ∈ samples, x < 65536) :
    (compute_avg (compute_avg (adcStart samples))).avg = (2 * samples.sum / 1024) % 65536 ∧
      (compute_avg (compute_avg (adcStart samples))).ADC_buffer = samples := by
  have hs : samples.sum ≤ samples.length • 65535 :=
    List.sum_le_card_nsmul samples 65535 (fun x hx => by have := hel x hx; omega)
  rw [hlen, smul_eq_mul] at hs
  have h1 := compute_avg_spec (adcStart samples) hlen
  have h2 := compute_avg_spec (compute_avg (adcStart samples)) (by rw [h1]; exact hlen)
  rw [h2, h1]
  simp only [adcStart]
  refine ⟨?_, trivial⟩
  omega

/-- C25: the accumulator `sum` is not cleared, so a later call of `compute_avg` adds the
samples to the total of the earlier calls: with 1024 samples of value 1000 the first call
after start-up leaves `avg = 1000`, and the second call on the same samples, whose mean
is still 1000, leaves `avg = 2000`. -/
theorem compute_avg_accumulates :
    (compute_avg (adcStart (List.replicate 1024 1000))).avg = 1000 ∧
      (compute_avg (compute_avg (adcStart (List.replicate 1024 1000)))).avg = 2000 ∧
      (compute_avg (compute_avg (adcStart (List.replicate 1024 1000)))).ADC_buffer.sum
          / 1024 = 1000 := by
  have hlen : (List.replicate 1024 1000).length = 1024 := List.length_replicate _ _
  have hel : ∀ x ∈ List.replicate 1024 1000, x < 65536 := by
    intro x hx
    rw [List.eq_of_mem_replicate hx]
    omega
  have hsum : (List.replicate 1024 1000).sum = 1024000 := by
    rw [List.sum_replicate, smul_eq_mul]
  have h2 := compute_avg_second_call _ hlen hel
  refine ⟨?_, ?_, ?_⟩
  · rw [compute_avg_first_call _ hlen hel, hsum]
  · rw [h2.1, hsum]
  · rw [h2.2, hsum]

/-! ## Number parsing -/

theorem dec_digit (c : Char) (h : c ∈ decDigits) :
    c.toNat ≠ 0 ∧ ('0'.toNat ≤ c.toNat ∧ c.toNat ≤ '9'.toNat) ∧
      c.toNat - '0'.toNat = digitValue c ∧ c ≠ 'x' ∧ c ≠ 'X' := by
  simp only [decDigits, String.toList, List.mem_cons, List.mem_nil_iff, or_false] at h
  rcases h with rfl | rfl | rfl | rfl | rfl | rfl | rfl | rfl | rfl | rfl <;> decide

theorem hex_digit (c : Char) (h : c ∈ hexDigits) :
    c.toNat ≠ 0 ∧ hexCharToUint c = digitValue c := by
  simp only [hexDigits, String.toList, List.mem_cons, List.mem_nil_iff, or_false] at h
  rcases h with rfl | rfl | rfl | rfl | rfl | rfl | rfl | rfl | rfl | rfl | rfl | rfl | rfl
    | rfl | rfl | rfl | rfl | rfl | rfl | rfl | rfl | rfl <;> decide

theorem stringToUint_dec_digits (ds : List Char) :
    ∀ acc : Nat, (∀ c ∈ ds, c ∈ decDigits) →
      stringToUint_dec ds (acc % 2 ^ 32)
        = (ds.foldl (fun v c => v * 10 + digitValue c) acc) % 2 ^ 32 := by
  induction ds with
  | nil => intro acc _; simp [stringToUint_dec]
  | cons c rest ih =>
    intro acc h
    obtain ⟨h0, hr, hv, _⟩ := dec_digit c (h c (List.mem_cons_self _ _))
    rw [stringToUint_dec, if_neg h0, if_pos hr, hv, List.foldl_cons,
      ← ih (acc * 10 + digitValue c) (fun d hd => h d (List.mem_cons_of_mem _ hd))]
    congr 1
    simp only [DECOFFSET]
    omega

theorem stringToUint_hex_digits (ds : List Char) :
    ∀ acc : Nat, (∀ c ∈ ds, c ∈ hexDigits) →
      stringToUint_hex ds (acc % 2 ^ 32)
        = (ds.foldl (fun v c => v * 16 + digitValue c) acc) % 2 ^ 32 := by
  induction ds with
  | nil => intro acc _; simp [stringToUint_hex]
  | cons c rest ih =>
    intro acc h
    obtain ⟨h0, hv⟩ := hex_digit c (h c (List.mem_cons_self _ _))
    rw [stringToUint_hex, if_neg h0, hv, List.foldl_cons,
      ← ih (acc * 16 + digitValue c) (fun d hd => h d (List.mem_cons_of_mem _ hd))]
    congr 1
    simp only [HEXOFFSET]
    omega

theorem stringToUint_dec_rejects (str : List Char) :
    ∀ acc : Nat, (∀ c ∈ str, c.toNat ≠ 0) →
      (∃ c ∈ str, ¬ ('0'.toNat ≤ c.toNat ∧ c.toNat ≤ '9'.toNat)) →
      stringToUint_dec str acc = ERROR := by
  induction str with
  | nil => intro acc _ h; obtain ⟨c, hc, _⟩ := h; cases hc
  | cons d rest ih =>
    intro acc h0 h
    rw [stringToUint_dec, if_neg (h0 d (List.mem_cons_self _ _))]
    by_cases hd : '0'.toNat ≤ d.toNat ∧ d.toNat ≤ '9'.toNat
    · rw [if_pos hd]
      apply ih _ (fun c hc => h0 c (List.mem_cons_of_mem _ hc))
      obtain ⟨c, hc, hn⟩ := h
      rcases List.mem_cons.1 hc with rfl | hc
      · exact absurd hd hn
      · exact ⟨c, hc, hn⟩
    · rw [if_neg hd]

theorem stringToUint_rejects_decimal (str : List Char) (h0 : ∀ c ∈ str, c.toNat ≠ 0)
    (hp : ¬ (str.getD 0 (Char.ofNat 0) = '0'
      ∧ (str.getD 1 (Char.ofNat 0) = 'x' ∨ str.getD 1 (Char.ofNat 0) = 'X')))
    (h : ∃ c ∈ str, ¬ ('0'.toNat ≤ c.toNat ∧ c.toNat ≤ '9'.toNat)) :
    stringToUint str = ERROR := by
  rw [stringToUint, if_neg hp]
  exact stringToUint_dec_rejects str 0 h0 h

/-! # The claims: number parsing -/

/-- C26: the hexadecimal branch of `stringToUint` adds the error value of `hexCharToUint`
into the result and goes on: for the string `0x1G`, in which `G` is no hexadecimal digit,
it returns 15 and not the error value, and 15 passes the check `color > 0xFFFFFF` of the
`LED` command; for `0xG1` it returns `0xFFFFFFF1`, and for the empty string 0. -/
theorem stringToUint_hex_unchecked :
    hexCharToUint 'G' = ERROR ∧
      stringToUint "0x1G".toList = 15 ∧
      ¬ (stringToUint "0x1G".toList > 0xFFFFFF) ∧
      stringToUint "0xG1".toList = 0xFFFFFFF1 ∧
      stringToUint "".toList = 0 := by
  decide

/-- C27: for a list of decimal digits that denotes a value below `2 ^ 32`,
`stringToUint` returns that value, and for `0x` or `0X` followed by a list of hexadecimal
digits of either case that denotes a value below `2 ^ 32`, it returns that value. -/
theorem stringToUint_valid (ds : List Char) :
    ((∀ c ∈ ds, c ∈ decDigits) → numeral 10 ds < 2 ^ 32 →
        stringToUint ds = numeral 10 ds) ∧
      ((∀ c ∈ ds, c ∈ hexDigits) → numeral 16 ds < 2 ^ 32 →
        stringToUint ('0' :: 'x' :: ds) = numeral 16 ds ∧
          stringToUint ('0' :: 'X' :: ds) = numeral 16 ds) := by
  constructor
  · intro h hv
    have hp : ¬ (ds.getD 0 (Char.ofNat 0) = '0'
        ∧ (ds.getD 1 (Char.ofNat 0) = 'x' ∨ ds.getD 1 (Char.ofNat 0) = 'X')) := by
      match ds, h with
      | [], _ => decide
      | [a], _ =>
        intro hc
        have hn : ([a] : List Char).getD 1 (Char.ofNat 0) = Char.ofNat 0 := rfl
        rw [hn] at hc
        exact absurd hc.2 (by decide)
      | a :: b :: r, h =>
        obtain ⟨_, _, _, hx, hX⟩ := dec_digit b (h b (by simp))
        intro hc
        rcases hc.2 with hc | hc
        · exact hx hc
        · exact hX hc
    rw [stringToUint, if_neg hp]
    have := stringToUint_dec_digits ds 0 h
    rw [Nat.zero_mod] at this
    rw [this]
    exact Nat.mod_eq_of_lt hv
  · intro h hv
    have := stringToUint_hex_digits ds 0 h
    rw [Nat.zero_mod] at this
    have hx : stringToUint ('0' :: 'x' :: ds) = stringToUint_hex ds 0 := by
      rw [stringToUint, if_pos ⟨rfl, Or.inl rfl⟩]
      rfl
    have hX : stringToUint ('0' :: 'X' :: ds) = stringToUint_hex ds 0 := by
      rw [stringToUint, if_pos ⟨rfl, Or.inr rfl⟩]
      rfl
    rw [hx, hX, this]
    exact ⟨Nat.mod_eq_of_lt hv, Nat.mod_eq_of_lt hv⟩

/-! # Witnesses: number parsing -/

theorem stringToUint_valid_witness :
    stringToUint "16777215".toList = numeral 10 "16777215".toList ∧
      stringToUint "0xfF00aB".toList = numeral 16 "fF00aB".toList :=
  ⟨(stringToUint_valid "16777215".toList).1 (by decide) (by decide),
    ((stringToUint_valid "fF00aB".toList).2 (by decide) (by decide)).1⟩

/-! ## Counters of one finalisation -/

theorem INCREMENT_on (c : Nat) : INCREMENT_STATIC_COUNT c true = (c + 1) % 2 ^ 32 := rfl

theorem ISHAResult_DEBUG_skip (g : StaticProfiler) (ctx : ISHAContext) (out : List Nat)
    (h : ctx.Corrupted = true ∨ ctx.Computed = true) :
    (ISHAResult_DEBUG g ctx out).1.ISHAProcessMessageBlockCount
        = g.ISHAProcessMessageBlockCount ∧
      (ISHAResult_DEBUG g ctx out).1.ISHAPadMessageCount = g.ISHAPadMessageCount := by
  unfold ISHAResult_DEBUG
  simp only
  by_cases hK : ctx.Corrupted = true
  · rw [if_pos hK]
    exact ⟨rfl, rfl⟩
  · rw [if_neg hK]
    have hC : ctx.Computed = true := by
      rcases h with h | h
      · exact absurd h hK
      · exact h
    simp only [hC, Bool.not_true, Bool.false_eq_true, if_false]
    exact ⟨trivial, trivial⟩

theorem ISHAResult_DEBUG_pads (g : StaticProfiler) (ctx : ISHAContext) (out : List Nat)
    (hK : ctx.Corrupted = false) (hC : ctx.Computed = false) :
    (ISHAResult_DEBUG g ctx out).1.ISHAProcessMessageBlockCount
        = (if ctx.MB_Idx + 1 > 55 then
            INCREMENT_STATIC_COUNT
              (INCREMENT_STATIC_COUNT g.ISHAProcessMessageBlockCount g.static_profiling_on)
              g.static_profiling_on
          else INCREMENT_STATIC_COUNT g.ISHAProcessMessageBlockCount g.static_profiling_on) ∧
      (ISHAResult_DEBUG g ctx out).1.ISHAPadMessageCount
        = INCREMENT_STATIC_COUNT g.ISHAPadMessageCount g.static_profiling_on ∧
      (ISHAResult_DEBUG g ctx out).2.1.Computed = true ∧
      (ISHAResult_DEBUG g ctx out).2.1.Corrupted = false := by
  unfold ISHAResult_DEBUG
  simp only [hK, hC, Bool.false_eq_true, if_false, Bool.not_false, if_true]
  rw [pad_DEBUG_fst, pad_DEBUG_snd]
  refine ⟨rfl, rfl, trivial, ?_⟩
  show (ISHAPadMessage ctx).Corrupted = false
  rw [(ISHAPadMessage_frame ctx).2]
  exact hK

/-! # The claims: padding blocks -/

/-- C28: on a context that is neither computed nor corrupted, with `MB_Idx = r < 64`, the
first call of `ISHAResult` enters `ISHAProcessMessageBlock` twice when `r + 1 > 55` and
once otherwise, and a second call of `ISHAResult` does not enter it: with counting
enabled the counter of `ISHAProcessMessageBlock` goes up by two or by one, and stays
after the second call. -/
theorem padding_block_count (g : StaticProfiler) (ctx : ISHAContext) (out out1 : List Nat)
    (hon : g.static_profiling_on = true) (hK : ctx.Corrupted = false)
    (hC : ctx.Computed = false) (hr : ctx.MB_Idx < 64)
    (hg : g.ISHAProcessMessageBlockCount + 2 < 2 ^ 32) :
    (ISHAResult_DEBUG g ctx out).1.ISHAProcessMessageBlockCount
        = g.ISHAProcessMessageBlockCount + (if ctx.MB_Idx + 1 > 55 then 2 else 1) ∧
      (55 ≤ ctx.MB_Idx ∧ ctx.MB_Idx ≤ 63 →
        (ISHAResult_DEBUG g ctx out).1.ISHAProcessMessageBlockCount
          = g.ISHAProcessMessageBlockCount + 2) ∧
      (ctx.MB_Idx ≤ 54 →
        (ISHAResult_DEBUG g ctx out).1.ISHAProcessMessageBlockCount
          = g.ISHAProcessMessageBlockCount + 1) ∧
      (ISHAResult_DEBUG (ISHAResult_DEBUG g ctx out).1 (ISHAResult_DEBUG g ctx out).2.1
          out1).1.ISHAProcessMessageBlockCount
        = (ISHAResult_DEBUG g ctx out).1.ISHAProcessMessageBlockCount := by
  obtain ⟨h1, _, h3, _⟩ := ISHAResult_DEBUG_pads g ctx out hK hC
  have h2 := (ISHAResult_DEBUG_skip (ISHAResult_DEBUG g ctx out).1
    (ISHAResult_DEBUG g ctx out).2.1 out1 (Or.inr h3)).1
  rw [hon, INCREMENT_on, INCREMENT_on] at h1
  refine ⟨?_, ?_, ?_, h2⟩
  · rw [h1]; split_ifs <;> omega
  · intro h; rw [h1, if_pos (by omega)]; omega
  · intro h; rw [h1, if_neg (by omega)]; omega

/-! # Witnesses: padding blocks -/

theorem padding_block_count_witness :
    (ISHAResult_DEBUG countersOn { zeroContext with MB_Idx := 55 }
        (List.replicate 20 0)).1.ISHAProcessMessageBlockCount = 0 + 2 :=
  (padding_block_count countersOn { zeroContext with MB_Idx := 55 } (List.replicate 20 0)
    (List.replicate 20 0) rfl rfl rfl (by decide) (by decide)).2.1 ⟨by decide, by decide⟩

/-! ## Bounds of the sampler intervals -/

theorem GetFunctionAddress_primitive (fa : FunctionAddresses) (X : Primitive) (s e : Nat) :
    GetFunctionAddress fa (primitiveName X) s e
      = (startAddress fa X, (endMarker fa X + 20) % 2 ^ 32) := by
  cases X
  · exact GetFunctionAddress_ISHAProcessMessageBlock fa s e
  · exact GetFunctionAddress_ISHAPadMessage fa s e
  · exact GetFunctionAddress_ISHAReset fa s e
  · exact GetFunctionAddress_ISHAInput fa s e
  · exact GetFunctionAddress_ISHAResult fa s e

theorem interval_eq (fa : FunctionAddresses) (X : Primitive) :
    interval fa X = (startAddress fa X, (endMarker fa X + 20) % 2 ^ 32) := by
  cases X <;> rfl

theorem inInterval_iff (fa : FunctionAddresses) (a : Nat) (X : Primitive) :
    inInterval fa a X ↔ (startAddress fa X ≤ a ∧ a ≤ (endMarker fa X + 20) % 2 ^ 32) := by
  unfold inInterval
  rw [interval_eq]

/-! # The claims: sampler intervals -/

/-- C30: for each primitive, `GetFunctionAddress` returns the start address `s` and the
recorded end marker `e` plus 20, as a 32-bit value, whatever `*start` and `*end` held
before the query; and when no primitive queried earlier has matched, `pc_profile_check`
counts a sampled address `a` for the primitive exactly when `s ≤ a ≤ (e + 20) mod 2 ^ 32`,
both ends included. -/
theorem sampler_interval_bounds (fa : FunctionAddresses) (g : PCProfiler) (pc : List Nat)
    (X : Primitive) (hon : g.pc_profiling_on = true)
    (hfirst : ∀ Y, rank Y < rank X →
      ¬ (startAddress fa Y ≤ pc.getD 8 0 ∧ pc.getD 8 0 ≤ (endMarker fa Y + 20) % 2 ^ 32)) :
    (∀ s e, GetFunctionAddress fa (primitiveName X) s e
        = (startAddress fa X, (endMarker fa X + 20) % 2 ^ 32)) ∧
      ((startAddress fa X ≤ pc.getD 8 0 ∧ pc.getD 8 0 ≤ (endMarker fa X + 20) % 2 ^ 32) →
        sampled (pc_profile_check fa g pc) X = (sampled g X + 1) % 2 ^ 32) ∧
      (¬ (startAddress fa X ≤ pc.getD 8 0 ∧ pc.getD 8 0 ≤ (endMarker fa X + 20) % 2 ^ 32) →
        sampled (pc_profile_check fa g pc) X = sampled g X) := by
  refine ⟨fun s e => GetFunctionAddress_primitive fa X s e, ?_, ?_⟩
  · intro hin
    have hf := firstMatch_some fa (pc.getD 8 0) X ((inInterval_iff fa _ X).2 hin)
      (fun Y hY hc => hfirst Y hY ((inInterval_iff fa _ Y).1 hc))
    rw [pc_profile_check_sampled fa g pc hon X, if_pos hf]
  · intro hout
    have hf : ¬ firstMatch fa (pc.getD 8 0) = some X := fun h =>
      hout ((inInterval_iff fa _ X).1 (firstMatch_is_first fa _ X h).1)
    rw [pc_profile_check_sampled fa g pc hon X, if_neg hf]

/-! # Witnesses: sampler intervals -/

theorem sampler_interval_bounds_witness :
    sampled (pc_profile_check sampleAddresses samplerOn [0, 0, 0, 0, 0, 0, 0, 0, 1320])
        Primitive.PadMessage = (sampled samplerOn Primitive.PadMessage + 1) % 2 ^ 32 :=
  (sampler_interval_bounds sampleAddresses samplerOn [0, 0, 0, 0, 0, 0, 0, 0, 1320]
    Primitive.PadMessage rfl
    (by
      intro Y hY
      cases Y <;> first | exact absurd hY (by decide) | decide)).2.1 (by decide)

/-! ## Counters of one derivation -/

theorem body_DEBUG_pad (g : StaticProfiler) (ctx : ISHAContext) (msg : List Nat) :
    (ISHAInput_body_DEBUG g ctx msg).1.ISHAPadMessageCount = g.ISHAPadMessageCount := by
  rw [body_DEBUG_eq]
  by_cases h : (ISHAInput_chunk ctx msg).MB_Idx = 64
  · rw [if_pos h]; rfl
  · rw [if_neg h]

theorem loop_DEBUG_pad (fuel : Nat) :
    ∀ (g : StaticProfiler) (ctx : ISHAContext) (msg : List Nat),
      (ISHAInput_loop_DEBUG fuel g ctx msg).1.ISHAPadMessageCount = g.ISHAPadMessageCount := by
  induction fuel with
  | zero => intro g ctx msg; rfl
  | succ k ih =>
    intro g ctx msg
    rw [ISHAInput_loop_DEBUG]
    split_ifs
    · rw [ih, body_DEBUG_pad]
    · rfl

theorem ISHAInput_DEBUG_pad (g : StaticProfiler) (ctx : ISHAContext) (msg : List Nat) :
    (ISHAInput_DEBUG g ctx msg).1.ISHAPadMessageCount = g.ISHAPadMessageCount := by
  unfold ISHAInput_DEBUG
  simp only
  split_ifs
  · rfl
  · rfl
  · show (ISHAInput_loop_DEBUG _ _ _ _).1.ISHAPadMessageCount = _
    rw [loop_DEBUG_pad]

/-- What one group of calls `ISHAInput`, `ISHAResult` adds to the counters, on a context
that is absorbing and whose bit counter has room for the message. -/
theorem round_counts (g : StaticProfiler) (ctx : ISHAContext) (msg out : List Nat)
    (hon : g.static_profiling_on = true) (hC : ctx.Computed = false)
    (hK : ctx.Corrupted = false) (hA : Aligned ctx) (hhi : ctx.Length_High < 2 ^ 32)
    (hb : bitCount ctx + 8 * msg.length < 2 ^ 64) :
    (ISHAResult_DEBUG (ISHAInput_DEBUG g ctx msg).1 (ISHAInput_DEBUG g ctx msg).2
        out).1.ISHAResetCount = g.ISHAResetCount ∧
      (ISHAResult_DEBUG (ISHAInput_DEBUG g ctx msg).1 (ISHAInput_DEBUG g ctx msg).2
        out).1.ISHAInputCount = (g.ISHAInputCount + 1) % 2 ^ 32 ∧
      (ISHAResult_DEBUG (ISHAInput_DEBUG g ctx msg).1 (ISHAInput_DEBUG g ctx msg).2
        out).1.ISHAResultCount = (g.ISHAResultCount + 1) % 2 ^ 32 ∧
      (ISHAResult_DEBUG (ISHAInput_DEBUG g ctx msg).1 (ISHAInput_DEBUG g ctx msg).2
        out).1.ISHAPadMessageCount = (g.ISHAPadMessageCount + 1) % 2 ^ 32 ∧
      (ISHAResult_DEBUG (ISHAInput_DEBUG g ctx msg).1 (ISHAInput_DEBUG g ctx msg).2
        out).1.static_profiling_on = true := by
  obtain ⟨i1, i2, i3, i4, i5, _⟩ := ISHAInput_DEBUG_spec g ctx msg
  have i6 := ISHAInput_DEBUG_pad g ctx msg
  obtain ⟨_, k2, _, _⟩ := ISHAInput_counter msg.length ctx msg (le_refl _) hC hK hA.1 hA.2.1
    hhi hb
  obtain ⟨k1, _⟩ := ISHAInput_keeps msg.length ctx msg (le_refl _) hC hA
  generalize ISHAInput_DEBUG g ctx msg = r at *
  rw [← i1] at k1 k2
  obtain ⟨_, r2, r3, r4, r5, _⟩ := ISHAResult_DEBUG_spec r.1 r.2 out
  obtain ⟨_, p2, _, _⟩ := ISHAResult_DEBUG_pads r.1 r.2 out k2 k1
  rw [r4, r3, r2, p2, r5, i4, i2, i3, i6, i5, hon]
  exact ⟨rfl, rfl, rfl, rfl, rfl⟩

theorem reset_round_counts (iv : Words5) (g : StaticProfiler) (ctx : ISHAContext)
    (msg out : List Nat) (hon : g.static_profiling_on = true)
    (hb : 8 * msg.length < 2 ^ 64) :
    (ISHAResult_DEBUG
        (ISHAInput_DEBUG (countReset g)
          (ISHAReset iv ctx) msg).1
        (ISHAInput_DEBUG (countReset g)
          (ISHAReset iv ctx) msg).2 out).1.ISHAResetCount
        = (g.ISHAResetCount + 1) % 2 ^ 32 ∧
      (ISHAResult_DEBUG
        (ISHAInput_DEBUG (countReset g)
          (ISHAReset iv ctx) msg).1
        (ISHAInput_DEBUG (countReset g)
          (ISHAReset iv ctx) msg).2 out).1.ISHAInputCount
        = (g.ISHAInputCount + 1) % 2 ^ 32 ∧
      (ISHAResult_DEBUG
        (ISHAInput_DEBUG (countReset g)
          (ISHAReset iv ctx) msg).1
        (ISHAInput_DEBUG (countReset g)
          (ISHAReset iv ctx) msg).2 out).1.ISHAResultCount
        = (g.ISHAResultCount + 1) % 2 ^ 32 ∧
      (ISHAResult_DEBUG
        (ISHAInput_DEBUG (countReset g)
          (ISHAReset iv ctx) msg).1
        (ISHAInput_DEBUG (countReset g)
          (ISHAReset iv ctx) msg).2 out).1.ISHAPadMessageCount
        = (g.ISHAPadMessageCount + 1) % 2 ^ 32 ∧
      (ISHAResult_DEBUG
        (ISHAInput_DEBUG (countReset g)
          (ISHAReset iv ctx) msg).1
        (ISHAInput_DEBUG (countReset g)
          (ISHAReset iv ctx) msg).2 out).1.static_profiling_on = true := by
  have hbit : bitCount (ISHAReset iv ctx) + 8 * msg.length < 2 ^ 64 := by
    have : bitCount (ISHAReset iv ctx) = 0 := by simp [bitCount, ISHAReset]
    rw [this]; omega
  obtain ⟨r1, r2, r3, r4, r5⟩ := round_counts (countReset g)
    (ISHAReset iv ctx) msg out hon rfl rfl (reset_Aligned iv ctx)
    (by show (0 : Nat) < 2 ^ 32; norm_num) hbit
  refine ⟨?_, r2, r3, r4, r5⟩
  rw [r1]
  show INCREMENT_STATIC_COUNT g.ISHAResetCount g.static_profiling_on = _
  rw [hon]
  rfl

theorem pbkdf1_loop_DEBUG_counts (iv : Words5) (c : Nat) (hc : c < 2 ^ 32) (fuel : Nat) :
    ∀ (i : Nat) (g : StaticProfiler) (ctx : ISHAContext) (dk : List Nat),
      g.static_profiling_on = true → c - i ≤ fuel →
      g.ISHAResetCount < 2 ^ 32 → g.ISHAInputCount < 2 ^ 32 →
      g.ISHAResultCount < 2 ^ 32 → g.ISHAPadMessageCount < 2 ^ 32 →
      (pbkdf1_loop_DEBUG iv c fuel i g ctx dk).1.ISHAResetCount
          = (g.ISHAResetCount + (c - i)) % 2 ^ 32 ∧
        (pbkdf1_loop_DEBUG iv c fuel i g ctx dk).1.ISHAInputCount
          = (g.ISHAInputCount + (c - i)) % 2 ^ 32 ∧
        (pbkdf1_loop_DEBUG iv c fuel i g ctx dk).1.ISHAResultCount
          = (g.ISHAResultCount + (c - i)) % 2 ^ 32 ∧
        (pbkdf1_loop_DEBUG iv c fuel i g ctx dk).1.ISHAPadMessageCount
          = (g.ISHAPadMessageCount + (c - i)) % 2 ^ 32 := by
  induction fuel with
  | zero =>
    intro i g ctx dk _ hf h1 h2 h3 h4
    rw [pbkdf1_loop_DEBUG]
    simp only
    refine ⟨?_, ?_, ?_, ?_⟩ <;> omega
  | succ k ih =>
    intro i g ctx dk hon hf h1 h2 h3 h4
    rw [pbkdf1_loop_DEBUG]
    by_cases hi : i < c
    · rw [if_pos hi]
      simp only
      have hlen : 8 * (dk.take ISHA_DIGESTLEN).length < 2 ^ 64 := by
        have : (dk.take ISHA_DIGESTLEN).length ≤ 20 := by
          rw [List.length_take]; exact Nat.min_le_left _ _
        omega
      obtain ⟨r1, r2, r3, r4, r5⟩ := reset_round_counts iv g ctx (dk.take ISHA_DIGESTLEN) dk
        hon hlen
      have hi1 : (i + 1) % 2 ^ 32 = i + 1 := Nat.mod_eq_of_lt (by omega)
      rw [hi1]
      generalize ISHAResult_DEBUG
        (ISHAInput_DEBUG (countReset g)
          (ISHAReset iv ctx) (dk.take ISHA_DIGESTLEN)).1
        (ISHAInput_DEBUG (countReset g)
          (ISHAReset iv ctx) (dk.take ISHA_DIGESTLEN)).2 dk = r at *
      obtain ⟨q1, q2, q3, q4⟩ := ih (i + 1) r.1 r.2.1 r.2.2 r5 (by omega)
        (by rw [r1]; omega) (by rw [r2]; omega) (by rw [r3]; omega) (by rw [r4]; omega)
      rw [q1, q2, q3, q4, r1, r2, r3, r4]
      refine ⟨?_, ?_, ?_, ?_⟩ <;> omega
    · rw [if_neg hi]
      simp only
      refine ⟨?_, ?_, ?_, ?_⟩ <;> omega

theorem pbkdf1_DEBUG_counts (iv : Words5) (g : StaticProfiler) (hashContext : ISHAContext)
    (p s : List Nat) (c : Nat) (dk : List Nat) (dkLen : Nat)
    (hon : g.static_profiling_on = true) (hc1 : 1 ≤ c) (hc2 : c < 2 ^ 32)
    (hlen : dkLen ≤ ISHA_DIGESTLEN) (hps : 8 * (p.length + s.length) < 2 ^ 64) :
    (pbkdf1_DEBUG iv g hashContext (some p) (some s) c (some dk) dkLen).2.1
        = error_t.NO_ERROR ∧
      (pbkdf1_DEBUG iv g hashContext (some p) (some s) c (some dk) dkLen).1.ISHAResetCount
        = (g.ISHAResetCount + c) % 2 ^ 32 ∧
      (pbkdf1_DEBUG iv g hashContext (some p) (some s) c (some dk) dkLen).1.ISHAInputCount
        = (g.ISHAInputCount + c + 1) % 2 ^ 32 ∧
      (pbkdf1_DEBUG iv g hashContext (some p) (some s) c (some dk) dkLen).1.ISHAResultCount
        = (g.ISHAResultCount + c) % 2 ^ 32 ∧
      (pbkdf1_DEBUG iv g hashContext (some p) (some s) c (some dk)
          dkLen).1.ISHAPadMessageCount
        = (g.ISHAPadMessageCount + c) % 2 ^ 32 := by
  unfold pbkdf1_DEBUG
  simp only
  rw [if_neg (by omega), if_neg (by omega)]
  simp only
  -- the first call of `ISHAInput`, on the password
  obtain ⟨i1, i2, i3, i4, i5, _⟩ := ISHAInput_DEBUG_spec (countReset g)
    (ISHAReset iv hashContext) p
  have i6 := ISHAInput_DEBUG_pad (countReset g) (ISHAReset iv hashContext) p
  have hbit0 : bitCount (ISHAReset iv hashContext) = 0 := by simp [bitCount, ISHAReset]
  obtain ⟨k1, k2, _, k4⟩ := ISHAInput_counter p.length (ISHAReset iv hashContext) p
    (le_refl _) rfl rfl (reset_Aligned iv hashContext).1 (reset_Aligned iv hashContext).2.1
    (by show (0 : Nat) < 2 ^ 32; norm_num) (by rw [hbit0]; omega)
  obtain ⟨k5, k6⟩ := ISHAInput_keeps p.length (ISHAReset iv hashContext) p (le_refl _) rfl
    (reset_Aligned iv hashContext)
  rw [hbit0] at k1
  generalize ISHAInput_DEBUG (countReset g) (ISHAReset iv hashContext) p = r2 at *
  rw [← i1] at k1 k2 k4 k5 k6
  have hon2 : r2.1.static_profiling_on = true := by rw [i5]; exact hon
  -- the call of `ISHAInput` on the salt and the call of `ISHAResult`
  obtain ⟨r1, q2, q3, q4, q5⟩ := round_counts r2.1 r2.2 s dk hon2 k5 k2 k6 k4
    (by rw [k1]; omega)
  generalize ISHAResult_DEBUG (ISHAInput_DEBUG r2.1 r2.2 s).1 (ISHAInput_DEBUG r2.1 r2.2 s).2
    dk = r4 at *
  have e1 : r4.1.ISHAResetCount = (g.ISHAResetCount + 1) % 2 ^ 32 := by
    rw [r1, i4]
    show INCREMENT_STATIC_COUNT g.ISHAResetCount g.static_profiling_on = _
    rw [hon]; rfl
  have e2 : r4.1.ISHAInputCount = ((g.ISHAInputCount + 1) % 2 ^ 32 + 1) % 2 ^ 32 := by
    rw [q2, i2]
    show (INCREMENT_STATIC_COUNT g.ISHAInputCount g.static_profiling_on + 1) % 2 ^ 32 = _
    rw [hon]; rfl
  have e3 : r4.1.ISHAResultCount = (g.ISHAResultCount + 1) % 2 ^ 32 := by
    rw [q3, i3]; rfl
  have e4 : r4.1.ISHAPadMessageCount = (g.ISHAPadMessageCount + 1) % 2 ^ 32 := by
    rw [q4, i6]; rfl
  obtain ⟨l1, l2, l3, l4⟩ := pbkdf1_loop_DEBUG_counts iv c hc2 c 1 r4.1 r4.2.1 r4.2.2 q5
    (by omega) (by rw [e1]; omega) (by rw [e2]; omega) (by rw [e3]; omega)
    (by rw [e4]; omega)
  rw [l1, l2, l3, l4, e1, e2, e3, e4]
  refine ⟨trivial, ?_, ?_, ?_, ?_⟩ <;> omega

/-! # The claims: counters of one derivation -/

/-- C29: with static profiling enabled and the counters of `ISHAReset`, `ISHAInput`,
`ISHAResult` and `ISHAPadMessage` at 0, a call of `pbkdf1` compiled with `DEBUG` that passes
the parameter checks, with iteration count `c` and a password and a salt of any lengths
whose bit count fits 64 bits, returns `NO_ERROR` and leaves `ISHAResetCount = c`,
`ISHAResultCount = c`, `ISHAPadMessageCount = c` and `ISHAInputCount = (c + 1) mod 2 ^ 32`. -/
theorem derivation_call_counts (iv : Words5) (g : StaticProfiler) (hashContext : ISHAContext)
    (p s : List Nat) (c : Nat) (dk : List Nat) (dkLen : Nat)
    (hon : g.static_profiling_on = true)
    (h0 : g.ISHAResetCount = 0 ∧ g.ISHAInputCount = 0 ∧ g.ISHAResultCount = 0
      ∧ g.ISHAPadMessageCount = 0)
    (hc1 : 1 ≤ c) (hc2 : c < 2 ^ 32) (hlen : dkLen ≤ ISHA_DIGESTLEN)
    (hps : 8 * (p.length + s.length) < 2 ^ 64) :
    (pbkdf1_DEBUG iv g hashContext (some p) (some s) c (some dk) dkLen).2.1
        = error_t.NO_ERROR ∧
      (pbkdf1_DEBUG iv g hashContext (some p) (some s) c (some dk) dkLen).1.ISHAResetCount
        = c ∧
      (pbkdf1_DEBUG iv g hashContext (some p) (some s) c (some dk) dkLen).1.ISHAResultCount
        = c ∧
      (pbkdf1_DEBUG iv g hashContext (some p) (some s) c (some dk)
          dkLen).1.ISHAPadMessageCount = c ∧
      (pbkdf1_DEBUG iv g hashContext (some p) (some s) c (some dk) dkLen).1.ISHAInputCount
        = (c + 1) % 2 ^ 32 := by
  obtain ⟨a0, a1, a2, a3, a4⟩ := pbkdf1_DEBUG_counts iv g hashContext p s c dk dkLen hon hc1
    hc2 hlen hps
  obtain ⟨z1, z2, z3, z4⟩ := h0
  rw [z1] at a1
  rw [z2] at a2
  rw [z3] at a3
  rw [z4] at a4
  refine ⟨a0, ?_, ?_, ?_, ?_⟩
  · rw [a1]; omega
  · rw [a3]; omega
  · rw [a4]; omega
  · rw [a2]; congr 1; omega

/-! # Witnesses: counters of one derivation -/

theorem derivation_call_counts_witness :
    (pbkdf1_DEBUG sampleIV countersOn zeroContext (some [112, 119]) (some []) 3
        (some (List.replicate 20 0)) 20).1.ISHAInputCount = (3 + 1) % 2 ^ 32 :=
  (derivation_call_counts sampleIV countersOn zeroContext [112, 119] [] 3
    (List.replicate 20 0) 20 rfl ⟨rfl, rfl, rfl, rfl⟩ (by decide) (by decide) (by decide)
    (by decide)).2.2.2.2

/-! ## The `DEBUG` build derives the same key -/

theorem pbkdf1_loop_DEBUG_snd (iv : Words5) (c : Nat) (fuel : Nat) :
    ∀ (i : Nat) (g : StaticProfiler) (ctx : ISHAContext) (dk : List Nat)
      (calls : List ISHACall),
      (pbkdf1_loop_DEBUG iv c fuel i g ctx dk).2
        = ((pbkdf1_loop iv c fuel i ctx dk calls).1,
           (pbkdf1_loop iv c fuel i ctx dk calls).2.1) := by
  induction fuel with
  | zero => intro i g ctx dk calls; rfl
  | succ k ih =>
    intro i g ctx dk calls
    rw [pbkdf1_loop_DEBUG, pbkdf1_loop]
    by_cases hi : i < c
    · rw [if_pos hi, if_pos hi]
      simp only
      have e1 := (ISHAInput_DEBUG_spec (countReset g) (ISHAReset iv ctx)
        (dk.take ISHA_DIGESTLEN)).1
      have e2 := (ISHAResult_DEBUG_spec
        (ISHAInput_DEBUG (countReset g) (ISHAReset iv ctx) (dk.take ISHA_DIGESTLEN)).1
        (ISHAInput_DEBUG (countReset g) (ISHAReset iv ctx) (dk.take ISHA_DIGESTLEN)).2 dk).1
      rw [ih _ _ _ _ (calls ++ [ISHACall.Reset, ISHACall.Input ISHA_DIGESTLEN,
        ISHACall.Result]), e2, e1]
    · rw [if_neg hi, if_neg hi]

theorem pbkdf1_DEBUG_snd (iv : Words5) (g : StaticProfiler) (hashContext : ISHAContext)
    (p s : Option (List Nat)) (c : Nat) (dk : Option (List Nat)) (dkLen : Nat) :
    (pbkdf1_DEBUG iv g hashContext p s c dk dkLen).2
      = ((pbkdf1 iv hashContext p s c dk dkLen).err,
         (pbkdf1 iv hashContext p s c dk dkLen).dk) := by
  unfold pbkdf1_DEBUG pbkdf1
  cases p with
  | none => rfl
  | some pBytes =>
    cases s with
    | none => rfl
    | some sBytes =>
      cases dk with
      | none => rfl
      | some dkBytes =>
        simp only
        by_cases h1 : c < 1
        · rw [if_pos h1, if_pos h1]
        · rw [if_neg h1, if_neg h1]
          by_cases h2 : dkLen > ISHA_DIGESTLEN
          · rw [if_pos h2, if_pos h2]
          · rw [if_neg h2, if_neg h2]
            simp only
            have e1 := (ISHAInput_DEBUG_spec (countReset g) (ISHAReset iv hashContext)
              pBytes).1
            have e2 := (ISHAInput_DEBUG_spec
              (ISHAInput_DEBUG (countReset g) (ISHAReset iv hashContext) pBytes).1
              (ISHAInput_DEBUG (countReset g) (ISHAReset iv hashContext) pBytes).2
              sBytes).1
            have e3 := (ISHAResult_DEBUG_spec
              (ISHAInput_DEBUG
                (ISHAInput_DEBUG (countReset g) (ISHAReset iv hashContext) pBytes).1
                (ISHAInput_DEBUG (countReset g) (ISHAReset iv hashContext) pBytes).2
                sBytes).1
              (ISHAInput_DEBUG
                (ISHAInput_DEBUG (countReset g) (ISHAReset iv hashContext) pBytes).1
                (ISHAInput_DEBUG (countReset g) (ISHAReset iv hashContext) pBytes).2
                sBytes).2 dkBytes).1
            rw [pbkdf1_loop_DEBUG_snd iv c c 1 _ _ _
              [ISHACall.Reset, ISHACall.Input pBytes.length, ISHACall.Input sBytes.length,
                ISHACall.Result], e3, e2, e1]

/-! # Witnesses: ring buffer, continued -/

theorem dequeue_count_witness :
    cbfifo_length ⟨[7, 8, 0, 0], 0, 0, 0⟩ = 0 ∧
      (cbfifo_dequeue 4 ⟨0, 0⟩ ⟨[7, 8, 0, 0], 0, 0, 0⟩ (some [0, 0, 0]) 3).2.2.2 = 0 :=
  ⟨rfl, (dequeue_count 4 ⟨0, 0⟩ ⟨[7, 8, 0, 0], 0, 0, 0⟩ [0, 0, 0] 3).2.2 rfl⟩

/-! ## Rotation of a word -/

theorem rotl32_inverse (n w : Nat) (h1 : 1 ≤ n) (h2 : n ≤ 31) (hw : w < 2 ^ 32) :
    rotl32 (32 - n) (rotl32 n w) = w := by
  have hsplit : (2 : Nat) ^ 32 = 2 ^ n * 2 ^ (32 - n) := by
    rw [← pow_add]; congr 1; omega
  have hn : 32 - (32 - n) = n := by omega
  have ha : 0 < 2 ^ n := Nat.two_pow_pos _
  have hb : 0 < 2 ^ (32 - n) := Nat.two_pow_pos _
  unfold rotl32
  rw [hn]
  generalize 2 ^ n = a at *
  generalize 2 ^ (32 - n) = b at *
  rw [hsplit] at hw ⊢
  have hq : w / b < a := by
    apply Nat.div_lt_of_lt_mul
    rw [Nat.mul_comm]; exact hw
  have ht : w % b < b := Nat.mod_lt _ hb
  have hmul : w * a % (a * b) = a * (w % b) := by
    rw [Nat.mul_comm w, Nat.mul_mod_mul_left]
  rw [hmul]
  have h2 : (a * (w % b) + w / b) * b % (a * b) = b * (w / b) := by
    rw [Nat.add_mul, Nat.mul_assoc, Nat.mul_comm (w % b) b, ← Nat.mul_assoc,
      Nat.add_comm, Nat.add_mul_mod_self_left, Nat.mul_comm (w / b) b]
    apply Nat.mod_eq_of_lt
    rw [Nat.mul_comm a b]
    exact Nat.mul_lt_mul_of_pos_left hq hb
  have h3 : (a * (w % b) + w / b) / a = w % b := by
    rw [Nat.add_comm, Nat.add_mul_div_left _ _ ha, Nat.div_eq_of_lt hq, Nat.zero_add]
  rw [h2, h3]
  exact Nat.div_add_mod w b

/-! # The claims: internals of the digest -/

/-- C38: `ISHAProcessMessageBlock` changes only the five state words and `MB_Idx`, which it
sets to 0: the bytes of the block, both halves of the bit counter and the flags `Computed`
and `Corrupted` are as before the call, for every context. -/
theorem compression_frame (ctx : ISHAContext) :
    ISHAProcessMessageBlock ctx
        = { ctx with MD := (ISHAProcessMessageBlock ctx).MD, MB_Idx := 0 } ∧
      (ISHAProcessMessageBlock ctx).MB_Idx = 0 ∧
      (ISHAProcessMessageBlock ctx).MBlock = ctx.MBlock ∧
      (ISHAProcessMessageBlock ctx).Length_Low = ctx.Length_Low ∧
      (ISHAProcessMessageBlock ctx).Length_High = ctx.Length_High ∧
      (ISHAProcessMessageBlock ctx).Computed = ctx.Computed ∧
      (ISHAProcessMessageBlock ctx).Corrupted = ctx.Corrupted :=
  ⟨rfl, rfl, rfl, rfl, rfl, rfl, rfl⟩

/-- C39: for a 32-bit word `w` and `1 ≤ n ≤ 31`, `ISHACircularShift n w` is
`(w * 2 ^ n mod 2 ^ 32) + w / 2 ^ (32 - n)`, the rotation of `w` to the left by `n` bits,
and rotating the result by `32 - n` bits gives `w` back. -/
theorem circular_shift_rotation (n w : Nat) (h1 : 1 ≤ n) (h2 : n ≤ 31) (hw : w < 2 ^ 32) :
    ISHACircularShift n w = (w * 2 ^ n) % 2 ^ 32 + w / 2 ^ (32 - n) ∧
      ISHACircularShift (32 - n) (ISHACircularShift n w) = w := by
  have e1 := ISHACircularShift_eq_rotl32 n w h1 h2 hw
  have hlt := rotl32_lt n w h1 h2 hw
  refine ⟨e1, ?_⟩
  rw [e1, ISHACircularShift_eq_rotl32 (32 - n) (rotl32 n w) (by omega) (by omega) hlt]
  exact rotl32_inverse n w h1 h2 hw

/-! # Witnesses: internals of the digest -/

theorem circular_shift_rotation_witness :
    ISHACircularShift 5 0x80000001 = (0x80000001 * 2 ^ 5) % 2 ^ 32 + 0x80000001 / 2 ^ (32 - 5) ∧
      ISHACircularShift (32 - 5) (ISHACircularShift 5 0x80000001) = 0x80000001 :=
  circular_shift_rotation 5 0x80000001 (by decide) (by decide) (by norm_num)

/-! ## The boundary between password and salt -/

theorem pbkdf1_loop_calls (iv : Words5) (c : Nat) (fuel i : Nat) (ctx : ISHAContext)
    (dk : List Nat) (calls1 calls2 : List ISHACall) :
    (pbkdf1_loop iv c fuel i ctx dk calls1).2.1 = (pbkdf1_loop iv c fuel i ctx dk calls2).2.1 := by
  have h1 := pbkdf1_loop_DEBUG_snd iv c fuel i countersOn ctx dk calls1
  have h2 := pbkdf1_loop_DEBUG_snd iv c fuel i countersOn ctx dk calls2
  rw [h1] at h2
  exact congrArg Prod.snd h2

/-! # The claims: key derivation, continued -/

/-- C32: the code that `pbkdf1` returns and the bytes that it leaves at `dk` depend on the
password and the salt only through their concatenation: when `p ++ s = p1 ++ s1`, the
two calls with the same iteration count, output buffer and output length give the same
code and the same bytes, whatever the lengths of the parts, an empty password or an empty
salt included. -/
theorem key_depends_on_concatenation (iv : Words5) (hashContext : ISHAContext)
    (p s p1 s1 : List Nat) (c : Nat) (dk : Option (List Nat)) (dkLen : Nat)
    (h : p ++ s = p1 ++ s1) :
    (pbkdf1 iv hashContext (some p) (some s) c dk dkLen).dk
        = (pbkdf1 iv hashContext (some p1) (some s1) c dk dkLen).dk ∧
      (pbkdf1 iv hashContext (some p) (some s) c dk dkLen).err
        = (pbkdf1 iv hashContext (some p1) (some s1) c dk dkLen).err := by
  have e1 := ISHAInput_append p.length (ISHAReset iv hashContext) p s (le_refl _) rfl
    (reset_Aligned iv hashContext)
  have e2 := ISHAInput_append p1.length (ISHAReset iv hashContext) p1 s1 (le_refl _) rfl
    (reset_Aligned iv hashContext)
  rw [h] at e1
  unfold pbkdf1
  cases dk with
  | none => exact ⟨rfl, rfl⟩
  | some dkBytes =>
    simp only
    by_cases hc : c < 1
    · rw [if_pos hc, if_pos hc]
      exact ⟨rfl, rfl⟩
    · rw [if_neg hc, if_neg hc]
      by_cases hl : dkLen > ISHA_DIGESTLEN
      · rw [if_pos hl, if_pos hl]
        exact ⟨rfl, rfl⟩
      · rw [if_neg hl, if_neg hl]
        simp only
        rw [e1, e2]
        refine ⟨?_, trivial⟩
        rw [pbkdf1_loop_calls iv c c 1 _ _
          [ISHACall.Reset, ISHACall.Input p.length, ISHACall.Input s.length, ISHACall.Result]
          [ISHACall.Reset, ISHACall.Input p1.length, ISHACall.Input s1.length,
            ISHACall.Result]]

/-! # Witnesses: key derivation, continued -/

theorem key_depends_on_concatenation_witness :
    (pbkdf1 sampleIV zeroContext (some [112, 97, 115, 115]) (some [115, 97]) 2
        (some (List.replicate 20 0)) 20).dk
      = (pbkdf1 sampleIV zeroContext (some []) (some [112, 97, 115, 115, 115, 97]) 2
        (some (List.replicate 20 0)) 20).dk :=
  (key_depends_on_concatenation sampleIV zeroContext [112, 97, 115, 115] [115, 97] []
    [112, 97, 115, 115, 115, 97] 2 (some (List.replicate 20 0)) 20 rfl).1

/-! ## The number of passes of the absorb loop -/

theorem body_blocks (ctx : ISHAContext) (msg : List Nat) (hidx : ctx.MB_Idx < 64)
    (hne : 0 < msg.length) :
    1 ≤ min msg.length (64 - ctx.MB_Idx) ∧
      (ISHAInput_body ctx msg).2.length = msg.length - min msg.length (64 - ctx.MB_Idx) ∧
      ((ISHAInput_body ctx msg).2 = [] ∨
        (ISHAInput_body ctx msg).1.MB_Idx + (ISHAInput_body ctx msg).2.length + 64
          = ctx.MB_Idx + msg.length) := by
  obtain ⟨_, _, _, f4, f5⟩ := body_fields ctx msg
  have hlen : (ISHAInput_body ctx msg).2.length
      = msg.length - min msg.length (64 - ctx.MB_Idx) := by
    rw [f4, List.length_drop]
  refine ⟨by omega, hlen, ?_⟩
  by_cases hfull : ctx.MB_Idx + min msg.length (64 - ctx.MB_Idx) = 64
  · right
    rw [f5, if_pos hfull, hlen]
    omega
  · left
    apply List.length_eq_zero.mp
    rw [hlen]
    omega

theorem loop_fuel_blocks (f1 : Nat) :
    ∀ (f2 : Nat) (ctx : ISHAContext) (msg : List Nat), ctx.MB_Idx < 64 →
      ctx.MB_Idx + msg.length ≤ 64 * f1 → ctx.MB_Idx + msg.length ≤ 64 * f2 →
      ISHAInput_loop f1 ctx msg = ISHAInput_loop f2 ctx msg := by
  induction f1 with
  | zero =>
    intro f2 ctx msg _ h1 _
    have : msg = [] := List.length_eq_zero.mp (by omega)
    subst this
    rw [loop_nil, loop_nil]
  | succ k ih =>
    intro f2 ctx msg hidx h1 h2
    by_cases hc : msg.length > 0 ∧ ctx.Corrupted = false
    · obtain ⟨j, rfl⟩ : ∃ j, f2 = j + 1 := ⟨f2 - 1, by omega⟩
      obtain ⟨_, _, b3⟩ := body_blocks ctx msg hidx hc.1
      rw [ISHAInput_loop, ISHAInput_loop, if_pos hc, if_pos hc]
      rcases b3 with b3 | b3
      · rw [b3, loop_nil, loop_nil]
      · exact ih j (ISHAInput_body ctx msg).1 (ISHAInput_body ctx msg).2
          (body_idx_lt ctx msg hidx) (by omega) (by omega)
    · rw [ISHAInput_loop, if_neg hc]
      cases f2 with
      | zero => rfl
      | succ j => rw [ISHAInput_loop, if_neg hc]

/-! # The claims: termination of the absorb loop -/

/-- C34: on a context with `MB_Idx < 64`, a pass of the loop of `ISHAInput` on a non-empty
input copies `bytesToCopy = min length (64 - MB_Idx) ≥ 1` bytes and leaves strictly fewer
bytes to read; after at most `⌈(MB_Idx + length) / 64⌉ + 1` passes the loop has been left
through its own condition, with no byte unread or with the context corrupted; more passes,
and the `length + 1` passes that `ISHAInput` allows, give the same result. -/
theorem absorb_terminates (ctx : ISHAContext) (message_array : List Nat)
    (hidx : ctx.MB_Idx < 64) :
    (0 < message_array.length →
        1 ≤ min message_array.length (64 - ctx.MB_Idx) ∧
        (ISHAInput_body ctx message_array).2
          = message_array.drop (min message_array.length (64 - ctx.MB_Idx)) ∧
        (ISHAInput_body ctx message_array).2.length < message_array.length) ∧
      ((ISHAInput_loop ((ctx.MB_Idx + message_array.length + 63) / 64 + 1) ctx
          message_array).2 = [] ∨
        (ISHAInput_loop ((ctx.MB_Idx + message_array.length + 63) / 64 + 1) ctx
          message_array).1.Corrupted = true) ∧
      (∀ fuel, (ctx.MB_Idx + message_array.length + 63) / 64 + 1 ≤ fuel →
        ISHAInput_loop fuel ctx message_array
          = ISHAInput_loop ((ctx.MB_Idx + message_array.length + 63) / 64 + 1) ctx
              message_array) ∧
      ISHAInput_loop (message_array.length + 1) ctx message_array
        = ISHAInput_loop ((ctx.MB_Idx + message_array.length + 63) / 64 + 1) ctx
            message_array := by
  have hN : ctx.MB_Idx + message_array.length
      ≤ 64 * ((ctx.MB_Idx + message_array.length + 63) / 64 + 1) := by omega
  have hL : ctx.MB_Idx + message_array.length ≤ 64 * (message_array.length + 1) := by omega
  have hsame := loop_fuel_blocks (message_array.length + 1)
    ((ctx.MB_Idx + message_array.length + 63) / 64 + 1) ctx message_array hidx hL hN
  refine ⟨?_, ?_, ?_, hsame⟩
  · intro hne
    obtain ⟨b1, _, _⟩ := body_blocks ctx message_array hidx hne
    exact ⟨b1, (body_fields ctx message_array).2.2.2.1,
      body_length_lt ctx message_array hidx hne⟩
  · rw [← hsame]
    exact loop_exits (message_array.length + 1) ctx message_array hidx (by omega)
  · intro fuel hf
    exact loop_fuel_blocks fuel _ ctx message_array hidx (by omega) hN

/-! # Witnesses: termination of the absorb loop -/

theorem absorb_terminates_witness :
    (ISHAInput_loop ((60 + (List.replicate 70 7).length + 63) / 64 + 1)
        { zeroContext with MB_Idx := 60 } (List.replicate 70 7)).2 = [] ∨
      (ISHAInput_loop ((60 + (List.replicate 70 7).length + 63) / 64 + 1)
        { zeroContext with MB_Idx := 60 } (List.replicate 70 7)).1.Corrupted = true :=
  (absorb_terminates { zeroContext with MB_Idx := 60 } (List.replicate 70 7)
    (by decide)).2.1

/-! ## The interrupt mask around the ring buffer -/

theorem enqueue_mask (BUFFER_SIZE : Nat) (irq : IrqState) (buffer : Buffer)
    (buf : Option (List Nat)) (nbyte : Nat) :
    (cbfifo_enqueue BUFFER_SIZE irq buffer buf nbyte).1.PRIMASK
      = if buf = none ∨ nbyte = 0 ∨ buffer.elements = cbfifo_capacity BUFFER_SIZE then 1
        else irq.PRIMASK := by
  unfold cbfifo_enqueue
  cases buf with
  | none => simp
  | some src =>
    simp only
    by_cases h : nbyte = 0 ∨ buffer.elements = cbfifo_capacity BUFFER_SIZE
    · rw [if_pos h, if_pos (Or.inr h)]
    · have h2 : ¬ (some src = none ∨ nbyte = 0
          ∨ buffer.elements = cbfifo_capacity BUFFER_SIZE) := by simpa using h
      rw [if_neg h, if_neg h2]

theorem dequeue_mask (BUFFER_SIZE : Nat) (irq : IrqState) (buffer : Buffer)
    (buf : Option (List Nat)) (nbyte : Nat) :
    (cbfifo_dequeue BUFFER_SIZE irq buffer buf nbyte).1.PRIMASK
      = if buf = none ∨ nbyte = 0 ∨ buffer.elements = 0 then 1 else irq.PRIMASK := by
  unfold cbfifo_dequeue
  cases buf with
  | none => simp
  | some dest =>
    simp only
    by_cases h : nbyte = 0 ∨ buffer.elements = 0
    · rw [if_pos h, if_pos (Or.inr h)]
    · have h2 : ¬ (some dest = none ∨ nbyte = 0 ∨ buffer.elements = 0) := by simpa using h
      rw [if_neg h, if_neg h2]

/-! # The claims: interrupt mask -/

/-- C37: the early returns of `cbfifo_enqueue` and `cbfifo_dequeue` come after
`__disable_irq()` and before `__set_PRIMASK(masking_state)`: called with interrupts
enabled (`PRIMASK = 0`) and a `NULL` pointer, or `nbyte = 0`, or on an empty buffer for
`cbfifo_dequeue`, the functions return with `PRIMASK = 1`; on the path through the loop
the mask is restored to 0. -/
theorem early_return_keeps_irq_disabled :
    irqEnabled.PRIMASK = 0 ∧
      (cbfifo_enqueue 127 irqEnabled sampleBuffer none 5).1.PRIMASK = 1 ∧
      (cbfifo_enqueue 127 irqEnabled sampleBuffer (some [104, 105]) 0).1.PRIMASK = 1 ∧
      (cbfifo_dequeue 127 irqEnabled sampleBuffer none 5).1.PRIMASK = 1 ∧
      (cbfifo_dequeue 127 irqEnabled sampleBuffer (some [0, 0, 0, 0, 0]) 5).1.PRIMASK = 1 ∧
      (cbfifo_enqueue 127 irqEnabled sampleBuffer (some [104, 105]) 2).1.PRIMASK = 0 := by
  refine ⟨rfl, ?_, ?_, ?_, ?_, ?_⟩
  · rw [enqueue_mask]; rfl
  · rw [enqueue_mask]; rfl
  · rw [dequeue_mask]; rfl
  · rw [dequeue_mask]; rfl
  · rw [enqueue_mask]; decide

/-! ## The structural invariant of the ring buffer -/

theorem mod_wrap (x cap : Nat) (hx : x < 2 * cap) :
    x % cap = if x < cap then x else x - cap := by
  by_cases h : x < cap
  · rw [if_pos h, Nat.mod_eq_of_lt h]
  · rw [if_neg h, Nat.mod_eq_sub_mod (by omega), Nat.mod_eq_of_lt (by omega)]

theorem enqueue_loop_succ (cap : Nat) (src : List Nat) (n fuel i : Nat) (b : Buffer) :
    cbfifo_enqueue_loop cap src n (fuel + 1) i b
      = if i < n then cbfifo_enqueue_loop cap src n fuel (i + 1)
          (enqueue_pass cap b (src.getD i 0))
        else b := rfl

theorem dequeue_loop_succ (cap n fuel i : Nat) (b : Buffer) (dest : List Nat) :
    cbfifo_dequeue_loop cap n (fuel + 1) i b dest
      = if i < n then cbfifo_dequeue_loop cap n fuel (i + 1) (dequeue_pass cap b)
          (dest.set i (b.buffer_array.getD b.head 0))
        else (b, dest) := rfl

theorem enqueue_pass_fields (cap : Nat) (b : Buffer) (x : Nat) :
    (enqueue_pass cap b x).buffer_array = b.buffer_array.set b.tail x ∧
      (enqueue_pass cap b x).head = b.head ∧
      (enqueue_pass cap b x).tail = (if b.tail + 1 = cap then 0 else b.tail + 1) ∧
      (enqueue_pass cap b x).elements = b.elements + 1 := by
  unfold enqueue_pass cbfifo_capacity
  simp only
  by_cases h : b.tail + 1 = cap
  · simp only [if_pos h]
    exact ⟨trivial, trivial, trivial, trivial⟩
  · simp only [if_neg h]
    exact ⟨trivial, trivial, trivial, trivial⟩

theorem dequeue_pass_fields (cap : Nat) (b : Buffer) :
    (dequeue_pass cap b).buffer_array = b.buffer_array ∧
      (dequeue_pass cap b).head = (if b.head + 1 = cap then 0 else b.head + 1) ∧
      (dequeue_pass cap b).tail = b.tail ∧
      (dequeue_pass cap b).elements = b.elements - 1 := by
  unfold dequeue_pass cbfifo_capacity
  simp only
  by_cases h : b.head + 1 = cap
  · simp only [if_pos h]
    exact ⟨trivial, trivial, trivial, trivial⟩
  · simp only [if_neg h]
    exact ⟨trivial, trivial, trivial, trivial⟩

theorem enqueue_pass_inv (cap : Nat) (b : Buffer) (x : Nat) (hI : RingInvariant cap b)
    (he : b.elements < cap) : RingInvariant cap (enqueue_pass cap b x) := by
  obtain ⟨f1, f2, f3, f4⟩ := enqueue_pass_fields cap b x
  unfold RingInvariant cbfifo_capacity at *
  obtain ⟨h1, h2, h3, h4⟩ := hI
  rw [f2, f3, f4]
  rw [mod_wrap _ cap (by omega)] at h4
  rw [mod_wrap _ cap (by omega)]
  refine ⟨h1, ?_, by omega, ?_⟩ <;> split_ifs at h4 ⊢ <;> omega

theorem dequeue_pass_inv (cap : Nat) (b : Buffer) (hI : RingInvariant cap b)
    (he : 0 < b.elements) : RingInvariant cap (dequeue_pass cap b) := by
  obtain ⟨f1, f2, f3, f4⟩ := dequeue_pass_fields cap b
  unfold RingInvariant cbfifo_capacity at *
  obtain ⟨h1, h2, h3, h4⟩ := hI
  rw [f2, f3, f4]
  rw [mod_wrap _ cap (by omega)] at h4
  rw [mod_wrap _ cap (by split_ifs <;> omega)]
  refine ⟨?_, h2, by omega, ?_⟩ <;> split_ifs at h4 ⊢ <;> omega

theorem enqueue_loop_inv (cap : Nat) (src : List Nat) (n : Nat) (fuel : Nat) :
    ∀ (i : Nat) (b : Buffer), RingInvariant cap b → b.elements + (n - i) ≤ cap →
      RingInvariant cap (cbfifo_enqueue_loop cap src n fuel i b) := by
  induction fuel with
  | zero => intro i b hI _; exact hI
  | succ k ih =>
    intro i b hI he
    rw [enqueue_loop_succ]
    by_cases hi : i < n
    · rw [if_pos hi]
      apply ih (i + 1) _ (enqueue_pass_inv cap b _ hI (by omega))
      rw [(enqueue_pass_fields cap b _).2.2.2]
      omega
    · rw [if_neg hi]; exact hI

theorem dequeue_loop_inv (cap : Nat) (n : Nat) (fuel : Nat) :
    ∀ (i : Nat) (b : Buffer) (dest : List Nat), RingInvariant cap b → n - i ≤ b.elements →
      RingInvariant cap (cbfifo_dequeue_loop cap n fuel i b dest).1 := by
  induction fuel with
  | zero => intro i b dest hI _; exact hI
  | succ k ih =>
    intro i b dest hI he
    rw [dequeue_loop_succ]
    by_cases hi : i < n
    · rw [if_pos hi]
      apply ih (i + 1) _ _ (dequeue_pass_inv cap b hI (by omega))
      rw [(dequeue_pass_fields cap b).2.2.2]
      omega
    · rw [if_neg hi]; exact hI

theorem reset_inv (cap : Nat) (b : Buffer) (hc : 0 < cap) :
    RingInvariant cap (cbfifo_reset b) := by
  unfold RingInvariant cbfifo_capacity cbfifo_reset
  exact ⟨hc, hc, Nat.zero_le _, (Nat.zero_mod _).symm⟩

theorem enqueue_inv (cap : Nat) (irq : IrqState) (b : Buffer) (buf : Option (List Nat))
    (nbyte : Nat) (hI : RingInvariant cap b) :
    RingInvariant cap (cbfifo_enqueue cap irq b buf nbyte).2.1 := by
  have he : b.elements ≤ cap := hI.2.2.1
  unfold cbfifo_enqueue
  cases buf with
  | none => exact hI
  | some src =>
    simp only [cbfifo_capacity]
    by_cases h : nbyte = 0 ∨ b.elements = cap
    · rw [if_pos h]; exact hI
    · rw [if_neg h]
      apply enqueue_loop_inv cap src _ _ 0 b hI
      split_ifs <;> omega

theorem dequeue_inv (cap : Nat) (irq : IrqState) (b : Buffer) (buf : Option (List Nat))
    (nbyte : Nat) (hI : RingInvariant cap b) :
    RingInvariant cap (cbfifo_dequeue cap irq b buf nbyte).2.1 := by
  unfold cbfifo_dequeue
  cases buf with
  | none => exact hI
  | some dest =>
    simp only
    by_cases h : nbyte = 0 ∨ b.elements = 0
    · rw [if_pos h]; exact hI
    · rw [if_neg h]
      apply dequeue_loop_inv cap _ _ 0 b dest hI
      split_ifs <;> omega

theorem clearlastele_fields (INDEX_BITS : Nat) (irq : IrqState) (b : Buffer) :
    (cbfifo_clearlastele INDEX_BITS irq b).2.head = b.head ∧
      (cbfifo_clearlastele INDEX_BITS irq b).2.tail
        = (b.tail + 2 ^ INDEX_BITS - 1) % 2 ^ INDEX_BITS ∧
      (cbfifo_clearlastele INDEX_BITS irq b).2.elements = b.elements :=
  ⟨rfl, rfl, rfl⟩

theorem decrement_one (w : Nat) : (1 + 2 ^ w - 1) % 2 ^ w = 0 := by
  rw [Nat.add_sub_cancel_left, Nat.mod_self]

theorem decrement_zero (w : Nat) : (0 + 2 ^ w - 1) % 2 ^ w = 2 ^ w - 1 := by
  rw [Nat.zero_add]
  exact Nat.mod_eq_of_lt (Nat.sub_lt (Nat.two_pow_pos w) Nat.one_pos)

/-- On a buffer with `tail = 0`, the one that `cbfifo_reset` leaves for example, the
decrement of `cbfifo_clearlastele` wraps: `tail` becomes the largest value of its type,
which is outside `[0, capacity)` when that value is at least the capacity. -/
theorem clearlastele_wraps (INDEX_BITS cap : Nat) (irq : IrqState) (b : Buffer)
    (ht : b.tail = 0) (hw : cap ≤ 2 ^ INDEX_BITS - 1) :
    (cbfifo_clearlastele INDEX_BITS irq b).2.tail = 2 ^ INDEX_BITS - 1 ∧
      ¬ RingInvariant cap (cbfifo_clearlastele INDEX_BITS irq b).2 := by
  obtain ⟨_, f2, _⟩ := clearlastele_fields INDEX_BITS irq b
  rw [ht, decrement_zero] at f2
  refine ⟨f2, ?_⟩
  intro hI
  have h2 := hI.2.1
  unfold cbfifo_capacity at h2
  omega

/-! # The claims: ring invariant -/

/-- C36: `cbfifo_clearlastele` decrements `tail` and leaves `elements` as it is: on the
buffer that `cbfifo_reset` and the enqueue of one byte leave, where the invariant holds
with `head = 0`, `tail = 1`, `elements = 1`, it leaves `head = 0`, `tail = 0`,
`elements = 1`, and `tail = (head + elements) mod capacity` no longer holds, whatever the
width of the type of `tail`. -/
theorem clearlastele_breaks_invariant (INDEX_BITS : Nat) :
    RingInvariant 127 sampleBuffer ∧
      RingInvariant 127 (cbfifo_enqueue 127 irqEnabled sampleBuffer (some [104]) 1).2.1 ∧
      (cbfifo_clearlastele INDEX_BITS irqEnabled
        (cbfifo_enqueue 127 irqEnabled sampleBuffer (some [104]) 1).2.1).2.head = 0 ∧
      (cbfifo_clearlastele INDEX_BITS irqEnabled
        (cbfifo_enqueue 127 irqEnabled sampleBuffer (some [104]) 1).2.1).2.tail = 0 ∧
      (cbfifo_clearlastele INDEX_BITS irqEnabled
        (cbfifo_enqueue 127 irqEnabled sampleBuffer (some [104]) 1).2.1).2.elements = 1 ∧
      ¬ RingInvariant 127 (cbfifo_clearlastele INDEX_BITS irqEnabled
        (cbfifo_enqueue 127 irqEnabled sampleBuffer (some [104]) 1).2.1).2 := by
  have hb : (cbfifo_enqueue 127 irqEnabled sampleBuffer (some [104]) 1).2.1.head = 0 ∧
      (cbfifo_enqueue 127 irqEnabled sampleBuffer (some [104]) 1).2.1.tail = 1 ∧
      (cbfifo_enqueue 127 irqEnabled sampleBuffer (some [104]) 1).2.1.elements = 1 := by
    decide
  obtain ⟨h1, h2, h3⟩ := hb
  obtain ⟨f1, f2, f3⟩ := clearlastele_fields INDEX_BITS irqEnabled
    (cbfifo_enqueue 127 irqEnabled sampleBuffer (some [104]) 1).2.1
  rw [h1] at f1
  rw [h2, decrement_one] at f2
  rw [h3] at f3
  refine ⟨by decide, by decide, f1, f2, f3, ?_⟩
  intro hI
  have h4 := hI.2.2.2
  rw [f1, f2, f3] at h4
  revert h4
  decide

/-! ## The stored bytes of the ring buffer -/

theorem getD_set_ne (l : List Nat) (i j v : Nat) (h : i ≠ j) :
    (l.set i v).getD j 0 = l.getD j 0 := by
  rw [List.getD_eq_getElem?_getD, List.getD_eq_getElem?_getD, List.getElem?_set_ne h]

theorem getD_set_self (l : List Nat) (i v : Nat) (h : i < l.length) :
    (l.set i v).getD i 0 = v := by
  rw [List.getD_eq_getElem?_getD, List.getElem?_set_self h]
  rfl

theorem take_set_succ (l : List Nat) :
    ∀ (i v : Nat), i < l.length → (l.set i v).take (i + 1) = l.take i ++ [v] := by
  induction l with
  | nil => intro i v h; simp at h
  | cons a l ih =>
    intro i v h
    cases i with
    | zero => simp
    | succ i =>
      have := ih i v (by simpa using h)
      simpa using this

theorem ringRead_set (cap : Nat) (arr : List Nat) (x : Nat) (k : Nat) :
    ∀ pos : Nat, pos < cap → k < cap →
      ringRead cap (arr.set ((pos + k) % cap) x) pos k = ringRead cap arr pos k := by
  induction k with
  | zero => intro pos _ _; rfl
  | succ k ih =>
    intro pos hp hk
    rw [ringRead, ringRead]
    have hne : (pos + (k + 1)) % cap ≠ pos := by
      rw [mod_wrap _ cap (by omega)]
      split_ifs <;> omega
    have hnext : (pos + (k + 1)) % cap = ((if pos + 1 = cap then 0 else pos + 1) + k) % cap := by
      rw [mod_wrap _ cap (by omega), mod_wrap _ cap (by split_ifs <;> omega)]
      split_ifs <;> omega
    rw [getD_set_ne _ _ _ _ hne]
    congr 1
    rw [hnext]
    exact ih _ (by split_ifs <;> omega) (by omega)

theorem ringRead_snoc (cap : Nat) (arr : List Nat) (k : Nat) :
    ∀ pos : Nat, pos < cap → k < cap →
      ringRead cap arr pos (k + 1) = ringRead cap arr pos k ++ [arr.getD ((pos + k) % cap) 0] := by
  induction k with
  | zero =>
    intro pos hp _
    rw [ringRead, ringRead, ringRead, Nat.add_zero, Nat.mod_eq_of_lt hp]
    rfl
  | succ k ih =>
    intro pos hp hk
    have hnext : (pos + (k + 1)) % cap = ((if pos + 1 = cap then 0 else pos + 1) + k) % cap := by
      rw [mod_wrap _ cap (by omega), mod_wrap _ cap (by split_ifs <;> omega)]
      split_ifs <;> omega
    rw [ringRead, ih _ (by split_ifs <;> omega) (by omega), ← hnext]
    rfl

theorem enqueue_pass_contents (cap : Nat) (b : Buffer) (x : Nat) (hI : RingInvariant cap b)
    (hlen : b.buffer_array.length = cap) (he : b.elements < cap) :
    contents cap (enqueue_pass cap b x) = contents cap b ++ [x] := by
  obtain ⟨f1, f2, _, f4⟩ := enqueue_pass_fields cap b x
  obtain ⟨h1, h2, _, h4⟩ := hI
  unfold cbfifo_capacity at h1 h2 h4
  unfold contents
  rw [f1, f2, f4, ringRead_snoc cap _ _ _ h1 he, ← h4, h4, ringRead_set cap _ x _ _ h1 he,
    ← h4, getD_set_self _ _ _ (by omega)]

theorem enqueue_loop_contents (cap : Nat) (src : List Nat) (n : Nat) (hn : n ≤ src.length)
    (fuel : Nat) :
    ∀ (i : Nat) (b : Buffer), RingInvariant cap b → b.buffer_array.length = cap →
      b.elements + (n - i) ≤ cap → n - i ≤ fuel →
      contents cap (cbfifo_enqueue_loop cap src n fuel i b)
          = contents cap b ++ (src.drop i).take (n - i) ∧
        (cbfifo_enqueue_loop cap src n fuel i b).buffer_array.length = cap := by
  induction fuel with
  | zero =>
    intro i b _ hlen _ hf
    have : n - i = 0 := by omega
    rw [this]
    exact ⟨by simp [cbfifo_enqueue_loop], hlen⟩
  | succ k ih =>
    intro i b hI hlen he hf
    rw [enqueue_loop_succ]
    by_cases hi : i < n
    · rw [if_pos hi]
      obtain ⟨f1, _, _, f4⟩ := enqueue_pass_fields cap b (src.getD i 0)
      obtain ⟨r1, r2⟩ := ih (i + 1) (enqueue_pass cap b (src.getD i 0))
        (enqueue_pass_inv cap b _ hI (by omega))
        (by rw [f1, List.length_set]; exact hlen) (by rw [f4]; omega) (by omega)
      refine ⟨?_, r2⟩
      rw [r1, enqueue_pass_contents cap b _ hI hlen (by omega)]
      have hd : src.drop i = src.getD i 0 :: src.drop (i + 1) := by
        rw [List.getD_eq_getElem _ _ (by omega)]
        exact List.drop_eq_getElem_cons (by omega)
      have hsub : n - i = (n - (i + 1)) + 1 := by omega
      rw [hd, hsub, List.take_succ_cons, List.append_assoc]
      rfl
    · rw [if_neg hi]
      have : n - i = 0 := by omega
      rw [this]
      exact ⟨by simp, hlen⟩

theorem dequeue_pass_contents (cap : Nat) (b : Buffer) (he : 0 < b.elements) :
    contents cap b = b.buffer_array.getD b.head 0 :: contents cap (dequeue_pass cap b) := by
  obtain ⟨f1, f2, _, f4⟩ := dequeue_pass_fields cap b
  unfold contents
  rw [f1, f2, f4]
  obtain ⟨k, hk⟩ : ∃ k, b.elements = k + 1 := ⟨b.elements - 1, by omega⟩
  rw [hk, ringRead]
  rfl

theorem dequeue_loop_contents (cap : Nat) (n : Nat) (fuel : Nat) :
    ∀ (i : Nat) (b : Buffer) (dest : List Nat), i ≤ n → n - i ≤ b.elements → n - i ≤ fuel →
      n ≤ dest.length →
      (cbfifo_dequeue_loop cap n fuel i b dest).2
        = dest.take i ++ (contents cap b).take (n - i) ++ dest.drop n := by
  induction fuel with
  | zero =>
    intro i b dest hin _ hf hd
    have hi : i = n := by omega
    subst hi
    rw [cbfifo_dequeue_loop]
    simp
  | succ k ih =>
    intro i b dest hin he hf hd
    rw [dequeue_loop_succ]
    by_cases hi : i < n
    · rw [if_pos hi]
      have hc := dequeue_pass_contents cap b (by omega)
      have hsub : n - i = (n - (i + 1)) + 1 := by omega
      rw [ih (i + 1) (dequeue_pass cap b) _ (by omega)
        (by rw [(dequeue_pass_fields cap b).2.2.2]; omega) (by omega)
        (by rw [List.length_set]; exact hd),
        take_set_succ dest i _ (by omega), List.drop_set_of_lt _ _ hi, hc, hsub,
        List.take_succ_cons]
      simp
    · rw [if_neg hi]
      have hi2 : i = n := by omega
      subst hi2
      simp

theorem enqueue_run (cap : Nat) (irq : IrqState) (b : Buffer) (src : List Nat) (n : Nat)
    (h0 : n ≠ 0) (hroom : b.elements + n ≤ cap) :
    (cbfifo_enqueue cap irq b (some src) n).2
      = (cbfifo_enqueue_loop cap src n n 0 b, n) := by
  unfold cbfifo_enqueue cbfifo_capacity
  simp only
  rw [if_neg (by omega), if_pos (by omega)]

theorem dequeue_run (cap : Nat) (irq : IrqState) (b : Buffer) (dest : List Nat) (n : Nat)
    (h0 : n ≠ 0) (hn : n ≤ b.elements) :
    (cbfifo_dequeue cap irq b (some dest) n).2
      = ((cbfifo_dequeue_loop cap n n 0 b dest).1,
         some (cbfifo_dequeue_loop cap n n 0 b dest).2, n) := by
  unfold cbfifo_dequeue
  simp only
  rw [if_neg (by omega), if_pos hn]

/-! # The claims: first in, first out -/

/-- C35: on an empty buffer with `head = tail = h < capacity` and an array of `capacity`
bytes, `cbfifo_enqueue` of a byte sequence `xs` with `|xs| ≤ capacity` takes all of `xs`,
and the `cbfifo_dequeue` of `|xs|` bytes that follows returns `|xs|`, writes `xs` in the
same order to the first `|xs|` bytes of the destination and leaves the buffer empty,
also when the bytes wrap around the end of the array. -/
theorem fifo_order (BUFFER_SIZE : Nat) (irq irq1 : IrqState) (buffer : Buffer)
    (xs dest : List Nat) (h : Nat)
    (hlen : buffer.buffer_array.length = cbfifo_capacity BUFFER_SIZE)
    (hh : h < cbfifo_capacity BUFFER_SIZE) (hhead : buffer.head = h)
    (htail : buffer.tail = h) (hempty : cbfifo_length buffer = 0)
    (hxs : xs.length ≤ cbfifo_capacity BUFFER_SIZE) (hdest : xs.length ≤ dest.length) :
    (cbfifo_enqueue BUFFER_SIZE irq buffer (some xs) xs.length).2.2 = xs.length ∧
      (cbfifo_dequeue BUFFER_SIZE irq1
        (cbfifo_enqueue BUFFER_SIZE irq buffer (some xs) xs.length).2.1
        (some dest) xs.length).2.2.2 = xs.length ∧
      (cbfifo_dequeue BUFFER_SIZE irq1
        (cbfifo_enqueue BUFFER_SIZE irq buffer (some xs) xs.length).2.1
        (some dest) xs.length).2.2.1 = some (xs ++ dest.drop xs.length) ∧
      cbfifo_length (cbfifo_dequeue BUFFER_SIZE irq1
        (cbfifo_enqueue BUFFER_SIZE irq buffer (some xs) xs.length).2.1
        (some dest) xs.length).2.1 = 0 := by
  unfold cbfifo_capacity cbfifo_length at *
  by_cases hnil : xs.length = 0
  · have hx : xs = [] := List.length_eq_zero.mp hnil
    subst hx
    exact ⟨rfl, rfl, rfl, hempty⟩
  · have hI : RingInvariant BUFFER_SIZE buffer := by
      unfold RingInvariant cbfifo_capacity
      rw [hhead, htail, hempty, Nat.add_zero, Nat.mod_eq_of_lt hh]
      exact ⟨hh, hh, Nat.zero_le _, rfl⟩
    have he := enqueue_run BUFFER_SIZE irq buffer xs xs.length hnil (by omega)
    obtain ⟨c1, _⟩ := enqueue_loop_contents BUFFER_SIZE xs xs.length (le_refl _) xs.length 0
      buffer hI hlen (by omega) (by omega)
    have c2 := enqueue_loop_elements BUFFER_SIZE xs xs.length xs.length 0 buffer (by omega)
    have hc0 : contents BUFFER_SIZE buffer = [] := by
      unfold contents
      rw [hempty]
      rfl
    rw [hc0, List.drop_zero, Nat.sub_zero, List.take_length, List.nil_append] at c1
    rw [hempty, Nat.sub_zero, Nat.zero_add] at c2
    rw [he]
    simp only
    generalize cbfifo_enqueue_loop BUFFER_SIZE xs xs.length xs.length 0 buffer = b1 at *
    have hd := dequeue_run BUFFER_SIZE irq1 b1 dest xs.length hnil (by omega)
    have d1 := dequeue_loop_contents BUFFER_SIZE xs.length xs.length 0 b1 dest (by omega)
      (by omega) (by omega) hdest
    have d2 := dequeue_loop_elements BUFFER_SIZE xs.length xs.length 0 b1 dest (by omega)
      (by omega)
    rw [c1, Nat.sub_zero, List.take_length, List.take_zero, List.nil_append] at d1
    rw [hd]
    simp only
    rw [d1, d2, c2]
    exact ⟨trivial, trivial, rfl, by omega⟩

/-! # Witnesses: first in, first out -/

theorem fifo_order_witness :
    (cbfifo_dequeue 4 irqEnabled
        (cbfifo_enqueue 4 irqEnabled ⟨[0, 0, 0, 0], 3, 3, 0⟩ (some [10, 20, 30]) 3).2.1
        (some [0, 0, 0, 0, 0]) 3).2.2.1 = some ([10, 20, 30] ++ [0, 0, 0, 0, 0].drop 3) :=
  (fifo_order 4 irqEnabled irqEnabled ⟨[0, 0, 0, 0], 3, 3, 0⟩ [10, 20, 30] [0, 0, 0, 0, 0] 3
    rfl (by decide) rfl rfl rfl (by decide) (by decide)).2.2.1

/-! ## The block of a context that is absorbing a message -/

theorem body_MBlock (ctx : ISHAContext) (msg : List Nat) :
    (ISHAInput_body ctx msg).1.MBlock
      = ISHAInput_copy ctx.MBlock ctx.MB_Idx (msg.take (min msg.length (64 - ctx.MB_Idx))) := by
  have hmin : (if msg.length < 64 - ctx.MB_Idx then msg.length else 64 - ctx.MB_Idx)
      = min msg.length (64 - ctx.MB_Idx) := by
    split_ifs <;> omega
  unfold ISHAInput_body
  simp only [hmin]
  split_ifs <;> rfl

theorem copy_take (blk xs : List Nat) (idx : Nat) (h : idx + xs.length ≤ blk.length) :
    (ISHAInput_copy blk idx xs).take (idx + xs.length) = blk.take idx ++ xs := by
  have hpre : (blk.take idx).length = idx := by rw [List.length_take]; omega
  have hc := copy_after xs (blk.take idx) (blk.drop idx) (by rw [List.length_drop]; omega)
  rw [List.take_append_drop, hpre] at hc
  rw [hc]
  apply List.take_left'
  rw [List.length_append, hpre]

theorem absorb_block (n : Nat) :
    ∀ (ctx : ISHAContext) (msg : List Nat), msg.length ≤ n → ctx.Computed = false →
      ctx.Corrupted = false → ctx.MB_Idx < 64 → ctx.Length_Low < 2 ^ 32 →
      ctx.Length_High < 2 ^ 32 → ctx.MBlock.length = 64 →
      bitCount ctx + 8 * msg.length < 2 ^ 64 →
      (ISHAInput ctx msg).MB_Idx = (ctx.MB_Idx + msg.length) % 64 ∧
        (ISHAInput ctx msg).MBlock.take ((ctx.MB_Idx + msg.length) % 64)
          = (ctx.MBlock.take ctx.MB_Idx ++ msg).drop
              (ctx.MB_Idx + msg.length - (ctx.MB_Idx + msg.length) % 64) := by
  induction n with
  | zero =>
    intro ctx msg hn _ _ hidx _ _ _ _
    have : msg = [] := List.length_eq_zero.mp (by omega)
    subst this
    rw [ISHAInput_nil, List.length_nil, Nat.add_zero, Nat.mod_eq_of_lt hidx, Nat.sub_self,
      List.append_nil, List.drop_zero]
    exact ⟨rfl, rfl⟩
  | succ j ih =>
    intro ctx msg hn hC hK hidx hlo hhi hblk hb
    by_cases hm : msg.length = 0
    · have : msg = [] := List.length_eq_zero.mp hm
      subst this
      rw [ISHAInput_nil, List.length_nil, Nat.add_zero, Nat.mod_eq_of_lt hidx, Nat.sub_self,
        List.append_nil, List.drop_zero]
      exact ⟨rfl, rfl⟩
    have hpos : 0 < msg.length := by omega
    rw [ISHAInput_step ctx msg hC hK hidx hpos]
    obtain ⟨b1, b2, b3, b4⟩ := body_counter ctx msg hidx hlo hhi hK
    obtain ⟨_, _, _, f4, f5⟩ := body_fields ctx msg
    have fblk := body_MBlock ctx msg
    have hrest : (ISHAInput_body ctx msg).2.length
        = msg.length - min msg.length (64 - ctx.MB_Idx) := by
      rw [f4, List.length_drop]
    have hK1 : (ISHAInput_body ctx msg).1.Corrupted = false := by
      by_cases h : (ISHAInput_body ctx msg).1.Corrupted = true
      · have := b4.mp h; omega
      · simpa using h
    have hN1 : bitCount (ISHAInput_body ctx msg).1
        = bitCount ctx + 8 * min msg.length (64 - ctx.MB_Idx) := by
      rw [b3]; apply Nat.mod_eq_of_lt; omega
    have hC1 : (ISHAInput_body ctx msg).1.Computed = false := by
      rw [body_computed]; exact hC
    have hblk1 : (ISHAInput_body ctx msg).1.MBlock.length = 64 := by
      rw [body_block_length]; exact hblk
    by_cases hfull : ctx.MB_Idx + min msg.length (64 - ctx.MB_Idx) = 64
    · -- the block has been completed and compressed
      rw [if_pos hfull] at f5
      obtain ⟨r1, r2⟩ := ih (ISHAInput_body ctx msg).1 (ISHAInput_body ctx msg).2
        (by omega) hC1 hK1 (by omega) b1 b2 hblk1 (by rw [hN1, hrest]; omega)
      rw [f5, hrest, Nat.zero_add] at r1 r2
      have hk : min msg.length (64 - ctx.MB_Idx) = 64 - ctx.MB_Idx := by omega
      have hmod : (msg.length - (64 - ctx.MB_Idx)) % 64 = (ctx.MB_Idx + msg.length) % 64 := by
        omega
      rw [hk, hmod] at r1 r2
      refine ⟨r1, ?_⟩
      rw [r2, List.take_zero, List.nil_append, f4, hk, List.drop_drop]
      have hpre : (ctx.MBlock.take ctx.MB_Idx).length = ctx.MB_Idx := by
        rw [List.length_take]; omega
      have hsplit : ctx.MB_Idx + msg.length - (ctx.MB_Idx + msg.length) % 64
          = (ctx.MBlock.take ctx.MB_Idx).length
            + (msg.length - (ctx.MB_Idx + msg.length) % 64) := by
        rw [hpre]; omega
      rw [hsplit, List.drop_append]
      congr 1
      omega
    · -- the bytes fit in the block with room to spare
      rw [if_neg hfull] at f5
      have hk : min msg.length (64 - ctx.MB_Idx) = msg.length := by omega
      have hnil : (ISHAInput_body ctx msg).2 = [] := by
        apply List.length_eq_zero.mp
        rw [hrest]; omega
      rw [hnil, ISHAInput_nil, f5, hk, fblk, hk, List.take_length,
        Nat.mod_eq_of_lt (by omega), Nat.sub_self, List.drop_zero]
      exact ⟨rfl, copy_take ctx.MBlock msg ctx.MB_Idx (by omega)⟩

theorem ISHAInput_wraps (ctx : ISHAContext) (msg : List Nat) (hC : ctx.Computed = false)
    (hK : ctx.Corrupted = false) (hidx : ctx.MB_Idx < 64) (hlo : ctx.Length_Low < 2 ^ 32)
    (hhi : ctx.Length_High < 2 ^ 32) (hN : 2 ^ 64 ≤ bitCount ctx + 8 * msg.length) :
    (ISHAInput ctx msg).Corrupted = true := by
  have hpos : msg.length ≠ 0 := by unfold bitCount at hN; omega
  obtain ⟨w1, _, _⟩ := loop_wrap (msg.length + 1) ctx msg (by omega) hK hidx hlo hhi hN
  unfold ISHAInput
  rw [if_neg hpos, if_neg (by simp [hC, hK])]
  exact w1

/-! # The claims: alignment of counter and block -/

/-- C31: in the context that any sequence of `ISHAInput` calls leaves from the reset
condition, when it is not corrupted, `Computed` is clear, the bit counter is eight times
the number of bytes absorbed, `MB_Idx` is `(bit counter / 8) mod 64`, that is the number
of bytes absorbed modulo 64, and the bytes `0 .. MB_Idx - 1` of the block are the last
`MB_Idx` bytes absorbed. -/
theorem alignment_invariant (iv : Words5) (ctx0 : ISHAContext) (chunks : List (List Nat))
    (hblk : ctx0.MBlock.length = 64)
    (hK : (chunks.foldl ISHAInput (ISHAReset iv ctx0)).Corrupted = false) :
    (chunks.foldl ISHAInput (ISHAReset iv ctx0)).Computed = false ∧
      bitCount (chunks.foldl ISHAInput (ISHAReset iv ctx0)) = 8 * chunks.flatten.length ∧
      (chunks.foldl ISHAInput (ISHAReset iv ctx0)).MB_Idx
        = bitCount (chunks.foldl ISHAInput (ISHAReset iv ctx0)) / 8 % 64 ∧
      (chunks.foldl ISHAInput (ISHAReset iv ctx0)).MB_Idx = chunks.flatten.length % 64 ∧
      (chunks.foldl ISHAInput (ISHAReset iv ctx0)).MBlock.take
          (chunks.foldl ISHAInput (ISHAReset iv ctx0)).MB_Idx
        = chunks.flatten.drop (chunks.flatten.length
            - (chunks.foldl ISHAInput (ISHAReset iv ctx0)).MB_Idx) := by
  rw [foldl_ISHAInput chunks (ISHAReset iv ctx0) rfl (reset_Aligned iv ctx0)] at hK ⊢
  generalize chunks.flatten = msg at *
  have hA := reset_Aligned iv ctx0
  have h0 : bitCount (ISHAReset iv ctx0) = 0 := by simp [bitCount, ISHAReset]
  have hhi : (ISHAReset iv ctx0).Length_High < 2 ^ 32 := by
    show (0 : Nat) < 2 ^ 32
    norm_num
  have hN : bitCount (ISHAReset iv ctx0) + 8 * msg.length < 2 ^ 64 := by
    by_contra hge
    have := ISHAInput_wraps (ISHAReset iv ctx0) msg rfl rfl hA.1 hA.2.1 hhi (by omega)
    rw [hK] at this
    cases this
  obtain ⟨k1, _, _, _⟩ := ISHAInput_counter msg.length (ISHAReset iv ctx0) msg (le_refl _)
    rfl rfl hA.1 hA.2.1 hhi hN
  obtain ⟨k5, _⟩ := ISHAInput_keeps msg.length (ISHAReset iv ctx0) msg (le_refl _) rfl hA
  obtain ⟨a1, a2⟩ := absorb_block msg.length (ISHAReset iv ctx0) msg (le_refl _) rfl rfl
    hA.1 hA.2.1 hhi hblk hN
  have hidx0 : (ISHAReset iv ctx0).MB_Idx = 0 := rfl
  rw [hidx0, Nat.zero_add] at a1 a2
  rw [h0, Nat.zero_add] at k1
  refine ⟨k5, k1, ?_, a1, ?_⟩
  · rw [a1, k1]; omega
  · rw [a1]; exact a2

/-! # Witnesses: alignment of counter and block -/

theorem alignment_invariant_witness :
    ([[1, 2, 3], [], [4, 5]].foldl ISHAInput (ISHAReset sampleIV zeroContext)).MBlock.take
        ([[1, 2, 3], [], [4, 5]].foldl ISHAInput (ISHAReset sampleIV zeroContext)).MB_Idx
      = [[1, 2, 3], [], [4, 5]].flatten.drop ([[1, 2, 3], [], [4, 5]].flatten.length
          - ([[1, 2, 3], [], [4, 5]].foldl ISHAInput (ISHAReset sampleIV zeroContext)).MB_Idx) :=
  (alignment_invariant sampleIV zeroContext [[1, 2, 3], [], [4, 5]] rfl (by decide)).2.2.2.2

/-! ## The indices of the writes into the block -/

theorem writeBlock_some (m : List Nat) (idx v : Nat) (h : idx < 64) :
    writeBlock m idx v = some (m.set idx v) := by
  unfold writeBlock
  rw [if_pos h]

theorem copy_checked_eq (src : List Nat) :
    ∀ (m : List Nat) (pos : Nat), pos + src.length ≤ 64 →
      ISHAInput_copy_checked m pos src = some (ISHAInput_copy m pos src) := by
  induction src with
  | nil => intro m pos _; rfl
  | cons b src ih =>
    intro m pos h
    rw [List.length_cons] at h
    rw [ISHAInput_copy_checked, writeBlock_some m pos b (by omega), Option.some_bind,
      ih _ _ (by omega)]
    rfl

theorem body_checked_eq (ctx : ISHAContext) (msg : List Nat) (hidx : ctx.MB_Idx < 64) :
    ISHAInput_body_checked ctx msg = some (ISHAInput_body ctx msg) := by
  unfold ISHAInput_body_checked
  simp only
  rw [copy_checked_eq _ _ _ (by rw [List.length_take]; split_ifs <;> omega), Option.some_bind]
  rfl

theorem loop_checked_eq (fuel : Nat) :
    ∀ (ctx : ISHAContext) (msg : List Nat), ctx.MB_Idx < 64 →
      ISHAInput_loop_checked fuel ctx msg = some (ISHAInput_loop fuel ctx msg) := by
  induction fuel with
  | zero => intro ctx msg _; rfl
  | succ k ih =>
    intro ctx msg hidx
    rw [ISHAInput_loop_checked, ISHAInput_loop]
    by_cases hc : msg.length > 0 ∧ ctx.Corrupted = false
    · rw [if_pos hc, if_pos hc, body_checked_eq ctx msg hidx, Option.some_bind]
      exact ih _ _ (body_idx_lt ctx msg hidx)
    · rw [if_neg hc, if_neg hc]

theorem ISHAInput_checked_eq (ctx : ISHAContext) (msg : List Nat) (hidx : ctx.MB_Idx < 64) :
    ISHAInput_checked ctx msg = some (ISHAInput ctx msg) := by
  unfold ISHAInput_checked ISHAInput
  split_ifs
  · rfl
  · rfl
  · rw [loop_checked_eq _ ctx msg hidx]
    rfl

theorem zeros_checked_eq (limit : Nat) (hl : limit ≤ 64) (fuel : Nat) :
    ∀ ctx : ISHAContext,
      ISHAPadMessage_zeros_checked limit fuel ctx = some (ISHAPadMessage_zeros limit fuel ctx) := by
  induction fuel with
  | zero => intro ctx; rfl
  | succ k ih =>
    intro ctx
    rw [ISHAPadMessage_zeros_checked, ISHAPadMessage_zeros]
    by_cases h : ctx.MB_Idx < limit
    · rw [if_pos h, if_pos h, writeBlock_some _ _ _ (by omega), Option.some_bind]
      exact ih _
    · rw [if_neg h, if_neg h]

theorem store32_checked_eq (mem : List Nat) (off v : Nat) (h : off + 3 < 64) :
    store32_checked mem off v = some (store32 mem off v) := by
  unfold store32_checked store32
  rw [writeBlock_some _ _ _ (by omega), Option.some_bind, writeBlock_some _ _ _ (by omega),
    Option.some_bind, writeBlock_some _ _ _ (by omega), Option.some_bind,
    writeBlock_some _ _ _ h]

theorem ISHAPadMessage_checked_eq (ctx : ISHAContext) (hidx : ctx.MB_Idx < 64) :
    ISHAPadMessage_checked ctx = some (ISHAPadMessage ctx) := by
  unfold ISHAPadMessage_checked ISHAPadMessage
  rw [writeBlock_some _ _ _ hidx, Option.some_bind]
  simp only
  by_cases h : ctx.MB_Idx + 1 > 55
  · rw [if_pos h, if_pos h, zeros_checked_eq 64 (le_refl _), Option.map_some',
      Option.some_bind, zeros_checked_eq 56 (by omega), Option.some_bind,
      store32_checked_eq _ _ _ (by omega), Option.some_bind,
      store32_checked_eq _ _ _ (by omega), Option.some_bind]
  · rw [if_neg h, if_neg h, Option.some_bind, zeros_checked_eq 56 (by omega),
      Option.some_bind, store32_checked_eq _ _ _ (by omega), Option.some_bind,
      store32_checked_eq _ _ _ (by omega), Option.some_bind]

/-! # The claims: index safety of the block -/

/-- C33: on a context with `MB_Idx < 64`, every write into the block made by `ISHAInput`,
for any input, and by `ISHAPadMessage`, the byte `0x80`, both zero-fill loops and the
two length words at offsets 56 and 60, has its index in `[0, 64)`: the functions with every
write checked return a result, and it is the result of the functions themselves; the same
holds for `ISHAInput` followed by `ISHAPadMessage`. -/
theorem block_index_safety (ctx : ISHAContext) (message_array : List Nat)
    (hidx : ctx.MB_Idx < 64) :
    ISHAInput_checked ctx message_array = some (ISHAInput ctx message_array) ∧
      ISHAPadMessage_checked ctx = some (ISHAPadMessage ctx) ∧
      (ISHAInput_checked ctx message_array).bind ISHAPadMessage_checked
        = some (ISHAPadMessage (ISHAInput ctx message_array)) := by
  have h1 := ISHAInput_checked_eq ctx message_array hidx
  refine ⟨h1, ISHAPadMessage_checked_eq ctx hidx, ?_⟩
  rw [h1, Option.some_bind]
  exact ISHAPadMessage_checked_eq _ (ISHAInput_idx_lt ctx message_array hidx)

/-! # Witnesses: index safety of the block -/

theorem block_index_safety_witness :
    ISHAPadMessage_checked { zeroContext with MB_Idx := 63 }
      = some (ISHAPadMessage { zeroContext with MB_Idx := 63 }) :=
  (block_index_safety { zeroContext with MB_Idx := 63 } [1, 2, 3] (by decide)).2.1

/-! ## The check does reject an index outside the block -/

theorem ISHAPadMessage_checked_rejects (ctx : ISHAContext) (h : 64 ≤ ctx.MB_Idx) :
    ISHAPadMessage_checked ctx = none := by
  unfold ISHAPadMessage_checked writeBlock
  rw [if_neg (by omega)]
  rfl

/-! ## The block index between calls -/

theorem loop_computed (fuel : Nat) :
    ∀ (ctx : ISHAContext) (msg : List Nat),
      (ISHAInput_loop fuel ctx msg).1.Computed = ctx.Computed := by
  induction fuel with
  | zero => intro ctx msg; rfl
  | succ k ih =>
    intro ctx msg
    rw [ISHAInput_loop]
    split_ifs
    · rw [ih, body_computed]
    · rfl

theorem ISHAInput_computed (ctx : ISHAContext) (msg : List Nat) :
    (ISHAInput ctx msg).Computed = ctx.Computed := by
  unfold ISHAInput
  split_ifs
  · rfl
  · rfl
  · exact loop_computed _ _ _

theorem ISHAInput_computed_idx (ctx : ISHAContext) (msg : List Nat)
    (hC : ctx.Computed = true) : (ISHAInput ctx msg).MB_Idx = ctx.MB_Idx := by
  unfold ISHAInput
  split_ifs with h1 h2
  · rfl
  · rfl
  · exact absurd (Or.inl hC) h2

theorem ISHAResult_of_corrupted (ctx : ISHAContext) (out : List Nat)
    (hK : ctx.Corrupted = true) : (ISHAResult ctx out).1 = ctx := by
  unfold ISHAResult
  rw [if_pos hK]

theorem invariant_reset (iv : Words5) (ctx : ISHAContext) :
    BlockFillInvariant (ISHAReset iv ctx) :=
  ⟨by show (0 : Nat) < 64; norm_num, fun _ => rfl⟩

theorem invariant_input (ctx : ISHAContext) (msg : List Nat) (h : BlockFillInvariant ctx) :
    BlockFillInvariant (ISHAInput ctx msg) := by
  refine ⟨ISHAInput_idx_lt ctx msg h.1, ?_⟩
  intro hC
  rw [ISHAInput_computed] at hC
  rw [ISHAInput_computed_idx ctx msg hC]
  exact h.2 hC

theorem invariant_result (ctx : ISHAContext) (out : List Nat) (h : BlockFillInvariant ctx) :
    BlockFillInvariant (ISHAResult ctx out).1 ∧
      (ctx.Corrupted = false → (ISHAResult ctx out).1.MB_Idx = 0) := by
  have hidx := ISHAResult_idx ctx out
  by_cases hK : ctx.Corrupted = true
  · rw [ISHAResult_of_corrupted ctx out hK]
    exact ⟨h, fun hf => by rw [hK] at hf; cases hf⟩
  · by_cases hC : ctx.Computed = true
    · rw [if_pos (Or.inr hC), h.2 hC] at hidx
      exact ⟨⟨by rw [hidx]; norm_num, fun _ => hidx⟩, fun _ => hidx⟩
    · rw [if_neg (by intro hc; rcases hc with hc | hc; exact hK hc; exact hC hc)] at hidx
      exact ⟨⟨by rw [hidx]; norm_num, fun _ => hidx⟩, fun _ => hidx⟩

theorem invariant_afterCalls (iv : Words5) (calls : List ISHAOp) :
    ∀ ctx : ISHAContext, BlockFillInvariant ctx →
      BlockFillInvariant (calls.foldl (applyOp iv) ctx) := by
  induction calls with
  | nil => intro ctx h; exact h
  | cons op rest ih =>
    intro ctx h
    rw [List.foldl_cons]
    apply ih
    cases op with
    | Reset => exact invariant_reset iv ctx
    | Input m => exact invariant_input ctx m h
    | Result out => exact (invariant_result ctx out h).1

/-! # The claims: block index -/

/-- C15. The block index between calls: in every context that `ISHAReset` followed by any
sequence of `ISHAReset`, `ISHAInput` and `ISHAResult` calls leaves, `MB_Idx` is in
`[0, 64)`; it is again in `[0, 64)` after a further `ISHAInput` call with any data and
after a further `ISHAResult` call, and it is 0 after an `ISHAResult` call that succeeds,
that is on a context that is not corrupted, also when the digest has been computed
before.  The range is kept on every context with `MB_Idx < 64`, whatever its other
fields. -/
theorem blockFill_invariant (iv : Words5) (ctx0 : ISHAContext) (calls : List ISHAOp)
    (message_array digest_out : List Nat) :
    (afterCalls iv ctx0 calls).MB_Idx < 64 ∧
      (ISHAInput (afterCalls iv ctx0 calls) message_array).MB_Idx < 64 ∧
      (ISHAResult (afterCalls iv ctx0 calls) digest_out).1.MB_Idx < 64 ∧
      ((afterCalls iv ctx0 calls).Corrupted = false →
        (ISHAResult (afterCalls iv ctx0 calls) digest_out).1.MB_Idx = 0) ∧
      (∀ ctx : ISHAContext, ctx.MB_Idx < 64 →
        (ISHAInput ctx message_array).MB_Idx < 64 ∧
          (ISHAResult ctx digest_out).1.MB_Idx < 64) := by
  have hI : BlockFillInvariant (afterCalls iv ctx0 calls) :=
    invariant_afterCalls iv calls _ (invariant_reset iv ctx0)
  obtain ⟨r1, r2⟩ := invariant_result (afterCalls iv ctx0 calls) digest_out hI
  refine ⟨hI.1, (invariant_input _ message_array hI).1, r1.1, r2, ?_⟩
  intro ctx hidx
  refine ⟨ISHAInput_idx_lt ctx message_array hidx, ?_⟩
  rw [ISHAResult_idx]
  split_ifs
  · exact hidx
  · norm_num

/-! # Witnesses: block index -/

theorem blockFill_invariant_witness :
    (afterCalls sampleIV zeroContext
        [ISHAOp.Input [1, 2, 3], ISHAOp.Result (List.replicate 20 0)]).Corrupted = false ∧
      (ISHAResult (afterCalls sampleIV zeroContext
        [ISHAOp.Input [1, 2, 3], ISHAOp.Result (List.replicate 20 0)])
        (List.replicate 20 170)).1.MB_Idx = 0 :=
  ⟨by decide,
    (blockFill_invariant sampleIV zeroContext
      [ISHAOp.Input [1, 2, 3], ISHAOp.Result (List.replicate 20 0)] [4, 5]
      (List.replicate 20 170)).2.2.2.1 (by decide)⟩

end ISHA
